import Mathlib

/-!
A shallow embedding of the BIND 9 qp-trie (`lib/dns/qp.c`) and proofs about it.

The embedding translates the C source directly:

* machine words become `Nat` (the branch `index` word keeps the C bit
  layout: tag bit 0, bitmap bits `SHIFT_NOBYTE .. SHIFT_OFFSET - 1`, key
  offset from bit `SHIFT_OFFSET` up);
* the chunk directory `base` becomes a list of optional chunks, each chunk a
  list of `QP_CHUNK_SIZE` node cells, and the parallel `usage[]` array a list
  of `QpUsage` records;
* pointer-returning C functions are rephrased over cell references
  (`ref = chunk * QP_CHUNK_SIZE + cell`), which is the source's own `qp_ref_t`
  addressing scheme; reads and writes go through `ref_get` / `ref_set`;
* the externally supplied leaf vtable method `leaf_qpkey` becomes the
  function field `leafkey` of the trie state;
* `attach_leaf` / `detach_leaf` are external reference-count hooks with no
  effect on the trie state and are therefore dropped;
* the `REQUIRE`/`INSIST`/`ENSURE` fatal assertions abort the C process, so
  they have no successful executions to model; theorems below are stated
  over states on which they hold;
* the unbounded C loops that walk the trie take a fuel argument and return
  `none` when it runs out (the C counterparts do not terminate, or crash,
  on heaps those loops would exhaust fuel on), so `some` results
  characterize exactly the completed executions;
* the private header `qp_p.h` is not part of the repository snapshot, so the
  small helpers and constants it defines are modelled from the
  specification; each such definition carries a doc comment saying so.
-/

/-! ## Constants of the key alphabet

`SHIFT_NOBYTE`, `SHIFT_BITMAP` and `SHIFT_OFFSET` live in the missing header
`qp_p.h`.  The spec fixes `SHIFT_NOBYTE = 1` and leaves the other two open;
we pick the smallest consistent values: the bitmap starts right after
`SHIFT_NOBYTE`, and `SHIFT_OFFSET = 48` leaves room for the 46 bit positions
that `initialize_bits_for_byte` allocates (its final `ENSURE` checks
`bit_one < SHIFT_OFFSET`, and the run below ends with `bit_one = 46`).
-/

/-- Modelled from the spec: label separator shift, `SHIFT_NOBYTE = 1`. -/
def SHIFT_NOBYTE : Nat := 1

/-- Modelled from the spec: first bit position of the bitmap alphabet. -/
def SHIFT_BITMAP : Nat := 2

/-- Modelled from the spec: first bit of the key-offset field of a branch
index word; also the number of distinct shift values. -/
def SHIFT_OFFSET : Nat := 48

/-- Number of distinct byte values, i.e. 256 (`BYTE_VALUES` in the source). -/
def BYTE_VALUES : Nat := 256

/-- Modelled from the spec: the common hostname characters, which get their
own bit position (letters lower-cased, digits, hyphen, underscore); the
exact predicate `qp_common_character` is in the missing header. -/
def qp_common_character (b : Nat) : Bool :=
  (b == 45) || (48 ≤ b && b ≤ 57) || (b == 95) || (97 ≤ b && b ≤ 122)

/-- The mutable state of `initialize_bits_for_byte`: the two cursor bit
positions, the escaping flag, and the two tables being filled.
`bits_for_byte` grows one entry per byte processed (the C code writes
`dns_qp_bits_for_byte[byte]` in increasing byte order). -/
structure BitsTables where
  bit_one : Nat
  bit_two : Nat
  escaping : Bool
  bits_for_byte : List Nat
  byte_for_bit : List Nat
deriving DecidableEq

/-- One iteration of the loop body of `initialize_bits_for_byte` for `byte`.
`97 - 95` is the C `'a' - '_'` (`skip_punct`), `65` is `'A'`, and an escaped
byte stores `bit_two << 8 | bit_one`. -/
def bits_step (s : BitsTables) (byte : Nat) : BitsTables :=
  if qp_common_character byte then
    { s with escaping := false, bit_one := s.bit_one + 1,
             byte_for_bit := s.byte_for_bit.set (s.bit_one + 1) byte,
             bits_for_byte := s.bits_for_byte ++ [s.bit_one + 1] }
  else if 65 ≤ byte && byte ≤ 90 then
    { s with bits_for_byte :=
               s.bits_for_byte ++ [(s.bit_one + 1) + (97 - 95) + (byte - 65)],
             bit_two := s.bit_two + 1 }
  else
    let s' :=
      if !s.escaping || s.bit_two ≥ SHIFT_OFFSET then
        { s with escaping := true, bit_one := s.bit_one + 1,
                 byte_for_bit := s.byte_for_bit.set (s.bit_one + 1) byte,
                 bit_two := SHIFT_BITMAP }
      else s
    { s' with bits_for_byte := s'.bits_for_byte ++ [s'.bit_two * 256 + s'.bit_one],
              bit_two := s'.bit_two + 1 }

/-- `initialize_bits_for_byte`: fill the lookup tables at program startup. -/
def initialize_bits_for_byte : BitsTables :=
  (List.range BYTE_VALUES).foldl bits_step
    { bit_one := SHIFT_BITMAP, bit_two := SHIFT_BITMAP, escaping := true,
      bits_for_byte := [], byte_for_bit := List.replicate SHIFT_OFFSET 0 }

/-- `dns_qp_bits_for_byte`: maps a byte of a DNS name to one or two bit
positions (`bit_one` in the low half, `bit_two` in the high half). -/
def dns_qp_bits_for_byte : List Nat := initialize_bits_for_byte.bits_for_byte

/-- `dns_qp_byte_for_bit`: reverse table, first byte of each escape group. -/
def dns_qp_byte_for_bit : List Nat := initialize_bits_for_byte.byte_for_bit

/-! ## DNS names and `dns_qpkey_fromname`

A DNS name is modelled as its list of labels in wire order (leftmost label
first), each label a list of byte values; this is the information
`dns_qpkey_fromname` reads through `name->offsets` / `name->ndata`.  The C
function iterates `label` from `name->labels - 1` down to `0`, i.e. over the
reversed label list, appending to the key buffer. -/

/-- Append the one or two shifts of one byte to the key buffer, as in the
inner loop of `dns_qpkey_fromname` (`key[len++] = bits & 0xFF;` and, when
escaped, `key[len++] = bits >> 8;`). -/
def qpkey_putbyte (key : List Nat) (b : Nat) : List Nat :=
  let bits := dns_qp_bits_for_byte.getD b 0
  let key := key ++ [bits % 256]
  if bits / 256 != 0 then key ++ [bits / 256] else key

/-- Append one label's shifts and its `SHIFT_NOBYTE` terminator. -/
def qpkey_putlabel (key : List Nat) (label : List Nat) : List Nat :=
  (label.foldl qpkey_putbyte key) ++ [SHIFT_NOBYTE]

/-- `dns_qpkey_fromname`: the full buffer the C function writes (including
the final extra `SHIFT_NOBYTE` end marker at `key[len]`) paired with the
returned length `len`, which counts everything before that marker. -/
def dns_qpkey_fromname (name : List (List Nat)) : List Nat × Nat :=
  let body := name.reverse.foldl qpkey_putlabel []
  (body ++ [SHIFT_NOBYTE], body.length)

/-- Sentinel value for equal keys, `QPKEY_EQUAL = ~(size_t)0`. -/
def QPKEY_EQUAL : Nat := 2 ^ 64 - 1

/-- Modelled from the spec: `qpkey_bit(key, keylen, offset)` reads the key
at `offset`, padding with `SHIFT_NOBYTE` for `offset ≥ keylen` (the helper
is declared in the missing header). -/
def qpkey_bit (key : List Nat) (keylen : Nat) (off : Nat) : Nat :=
  if off < keylen then key.getD off 0 else SHIFT_NOBYTE

/-- The loop of `qpkey_compare`, scanning offsets upward while `remaining`
positions are left before `max(keylen_a, keylen_b)`. -/
def qpkey_compare_loop (a : List Nat) (la : Nat) (b : List Nat) (lb : Nat)
    (off : Nat) : Nat → Nat
  | 0 => QPKEY_EQUAL
  | r + 1 =>
    if qpkey_bit a la off != qpkey_bit b lb off then off
    else qpkey_compare_loop a la b lb (off + 1) r

/-- `qpkey_compare`: first offset at which the padded keys differ, or
`QPKEY_EQUAL` when they agree everywhere. -/
def qpkey_compare (a : List Nat) (la : Nat) (b : List Nat) (lb : Nat) : Nat :=
  qpkey_compare_loop a la b lb 0 (max la lb)

/-! ## Nodes, references, chunks

`qp_node_t` is a two-word cell; the tag bits distinguish leaves from
branches, which the inductive below reflects directly.  `anchor` stands for
the packed "reader" cells that `make_reader` writes at commit time (their
payload — the `dns_qpmulti_t` pointer, chunk directory pointer and root ref
— is only consumed by readers, which are outside this embedding). -/

inductive QpNode where
  | leaf (pval : Nat) (ival : Nat)
  | branch (index : Nat) (ref : Nat)
  | anchor
deriving DecidableEq

/-- The zeroed cell written by `zero_twigs`: all words zero, which decodes
as a leaf with null `pval` and zero `ival`. -/
def zero_node : QpNode := QpNode.leaf 0 0

/-- Modelled from the spec: the branch tag bit (bit 0 of the index word). -/
def BRANCH_TAG : Nat := 1

/-- Modelled from the spec: number of cells of one chunk, `QP_CHUNK_SIZE`.
The constant lives in the missing header; the spec leaves its value open
("a small power of two"), so we fix a small one. -/
def QP_CHUNK_SIZE : Nat := 16

/-- Modelled from the spec: directory growth, "grow the chunk directory by a
constant factor" (factor 2; the `+ 2` makes the first growth step, from a
directory of size zero, produce a nonempty directory). -/
def GROWTH_FACTOR (c : Nat) : Nat := 2 * c + 2

/-- Modelled from the spec: occupancy threshold below which the compactor
evacuates a chunk, "QP_MIN_USED ≈ chunk_size/4". -/
def QP_MIN_USED : Nat := QP_CHUNK_SIZE / 4

/-- Modelled from the spec: free-cell threshold above which `compact` starts
a fresh bump chunk; the header value is open, chosen as half a chunk. -/
def QP_MAX_FREE : Nat := QP_CHUNK_SIZE / 2

/-- Modelled from the spec: `INVALID_REF`, the all-ones 32-bit ref word. -/
def INVALID_REF : Nat := 2 ^ 32 - 1

/-- `make_ref(chunk, cell)`. -/
def make_ref (chunk cell : Nat) : Nat := chunk * QP_CHUNK_SIZE + cell

/-- `ref_chunk(ref)`. -/
def ref_chunk (ref : Nat) : Nat := ref / QP_CHUNK_SIZE

/-- `ref_cell(ref)`. -/
def ref_cell (ref : Nat) : Nat := ref % QP_CHUNK_SIZE

/-- Per-chunk metadata, `qp_usage_t`.  All fields zero/false on a fresh or
freed slot, written `{}` below (the C code assigns `(qp_usage_t){}`). -/
structure QpUsage where
  exists_ : Bool := false
  immutable : Bool := false
  used : Nat := 0
  free : Nat := 0
  phase : Nat := 0
  snapshot : Bool := false
  snapmark : Bool := false
  snapfree : Bool := false
deriving DecidableEq

instance : Inhabited QpUsage := ⟨{}⟩

/-- Transaction modes (`qp_transaction_mode_t`). -/
inductive TxMode where
  | QP_NONE
  | QP_WRITE
  | QP_UPDATE
deriving DecidableEq

/-- The writer state `dns_qp_t`.  `base` is the chunk directory (`NULL`
pointers are `none`), `usage` the parallel metadata array, and `leafkey`
the caller-supplied `leaf_qpkey` method of the vtable, giving the canonical
key of a leaf from its `pval` and `ival`. -/
structure Qp where
  base : List (Option (List QpNode))
  usage : List QpUsage
  chunk_max : Nat
  bump : Nat
  fender : Nat
  root_ref : Nat
  leaf_count : Nat
  used_count : Nat
  free_count : Nat
  hold_count : Nat
  transaction_mode : TxMode
  compact_all : Bool
  leafkey : Nat → Nat → List Nat

/-- Usage record of a chunk (out-of-range slots read as the zero record,
matching the zero-filled C arrays). -/
def usage_get (qp : Qp) (c : Nat) : QpUsage := qp.usage.getD c {}

/-- Update one usage slot. -/
def usage_set (qp : Qp) (c : Nat) (u : QpUsage) : Qp :=
  { qp with usage := qp.usage.set c u }

/-- The cell array of chunk `c` (empty if the slot is `NULL`). -/
def get_chunk (qp : Qp) (c : Nat) : List QpNode :=
  (qp.base.getD c none).getD []

/-- Read the node a ref points at (`*ref_ptr(qp, ref)`). -/
def ref_get (qp : Qp) (ref : Nat) : QpNode :=
  (get_chunk qp (ref_chunk ref)).getD (ref_cell ref) zero_node

/-- Write the node a ref points at (`*ref_ptr(qp, ref) = n`). -/
def ref_set (qp : Qp) (ref : Nat) (n : QpNode) : Qp :=
  { qp with base := qp.base.set (ref_chunk ref)
              (some ((get_chunk qp (ref_chunk ref)).set (ref_cell ref) n)) }

/-- `zero_twigs(ptr, size)`: zero `size` consecutive cells. -/
def zero_twigs (qp : Qp) (ref size : Nat) : Qp :=
  (List.range size).foldl (fun qp i => ref_set qp (ref + i) zero_node) qp

/-- `move_twigs(dst, src, size)`: `memmove` of `size` cells; all sources are
read from the pre-state, then written, which is exactly memmove's
overlap-safe semantics. -/
def move_twigs (qp : Qp) (dst src size : Nat) : Qp :=
  let vals := (List.range size).map (fun i => ref_get qp (src + i))
  (List.range size).foldl (fun qp' i => ref_set qp' (dst + i) (vals.getD i zero_node)) qp

/-! ## Node accessors (declared in the missing header, modelled from
spec §4.2: the branch index word holds the tag bit, the bitmap in bits
`SHIFT_NOBYTE .. SHIFT_OFFSET - 1`, and the key offset from `SHIFT_OFFSET`
up; twigs are indexed by popcount of the bitmap bits below the child's
shift). -/

/-- Structural worker for `popcount`; the fuel only forces termination and
`n` itself is always enough of it. -/
def popcount_go : Nat → Nat → Nat
  | 0, _ => 0
  | fuel + 1, n => if n = 0 then 0 else n % 2 + popcount_go fuel (n / 2)

/-- Population count of a natural number's binary representation. -/
def popcount (n : Nat) : Nat := popcount_go n n

/-- `node_tag(n) == BRANCH_TAG`. -/
def is_branch : QpNode → Bool
  | QpNode.branch _ _ => true
  | _ => false

/-- The 64-bit "big" word of a cell: a branch's index, a leaf's `pval`
(whose low tag bits are zero — leaf pointers are aligned). -/
def branch_index : QpNode → Nat
  | QpNode.branch i _ => i
  | QpNode.leaf p _ => p
  | QpNode.anchor => 0

/-- The 32-bit "small" word of a cell: a branch's twig-vector ref, a leaf's
`ival`. -/
def branch_twigs_ref : QpNode → Nat
  | QpNode.branch _ r => r
  | QpNode.leaf _ i => i
  | QpNode.anchor => 0

/-- `make_node(index, ref)` builds a cell from the two words; as in C, the
tag bit of the index word decides the node kind, so an index with a clear
`BRANCH_TAG` bit decodes as a leaf whose `pval` is that word. -/
def make_node (index ref : Nat) : QpNode :=
  if index.testBit 0 then QpNode.branch index ref else QpNode.leaf index ref

/-- `make_leaf(pval, ival)`. -/
def make_leaf (pval ival : Nat) : QpNode := QpNode.leaf pval ival

/-- `leaf_pval(n)`. -/
def leaf_pval : QpNode → Nat
  | QpNode.leaf p _ => p
  | _ => 0

/-- `leaf_ival(n)`. -/
def leaf_ival : QpNode → Nat
  | QpNode.leaf _ i => i
  | _ => 0

/-- `branch_key_offset(n)`: the key offset field, bits `SHIFT_OFFSET` up. -/
def branch_key_offset (n : QpNode) : Nat := branch_index n >>> SHIFT_OFFSET

/-- `branch_keybit(n, key, keylen)`. -/
def branch_keybit (n : QpNode) (key : List Nat) (keylen : Nat) : Nat :=
  qpkey_bit key keylen (branch_key_offset n)

/-- `branch_has_twig(n, bit)`: bit `bit` of the bitmap. -/
def branch_has_twig (n : QpNode) (bit : Nat) : Bool :=
  (branch_index n).testBit bit

/-- `branch_twig_pos(n, bit)`: popcount of the bitmap bits strictly below
`bit`; bits `1 .. bit-1` of the index word are bits `0 .. bit-2` of the
word shifted right once. -/
def branch_twig_pos (n : QpNode) (bit : Nat) : Nat :=
  popcount ((branch_index n >>> 1) % 2 ^ (bit - 1))

/-- `branch_twigs_size(n)`: popcount of the whole bitmap, bits
`1 .. SHIFT_OFFSET - 1` of the index word. -/
def branch_twigs_size (n : QpNode) : Nat :=
  popcount ((branch_index n >>> 1) % 2 ^ (SHIFT_OFFSET - 1))

/-- `leaf_qpkey(qp, n, key)`: the vtable call, returning key and length. -/
def leaf_qpkey (qp : Qp) (n : QpNode) : List Nat :=
  qp.leafkey (leaf_pval n) (leaf_ival n)

/-- Modelled from the missing header: `MOVABLE_ROOT(qp)`, a synthetic
one-twig branch whose twig vector is the root cell, so that `evacuate`
can relocate the root node itself. -/
def MOVABLE_ROOT (qp : Qp) : QpNode :=
  QpNode.branch (BRANCH_TAG ||| (1 <<< SHIFT_NOBYTE)) qp.root_ref

/-- Modelled from the missing header: `get_root(qp)` yields `NULL` exactly
when `root_ref` is `INVALID_REF`; we model just that test. -/
def get_root_valid (qp : Qp) : Bool := qp.root_ref != INVALID_REF

/-! ## Allocator -/

/-- `cells_immutable(qp, ref)`: in the bump chunk the cells below `fender`
are frozen; elsewhere the chunk's `immutable` flag decides. -/
def cells_immutable (qp : Qp) (ref : Nat) : Bool :=
  if ref_chunk ref = qp.bump then ref_cell ref < qp.fender
  else (usage_get qp (ref_chunk ref)).immutable

/-- `chunk_alloc(qp, chunk, size)`: install a fresh zero-filled chunk in
slot `chunk`, make it the bump chunk, and hand out its first `size` cells. -/
def chunk_alloc (qp : Qp) (chunk size : Nat) : Qp × Nat :=
  let qp := { qp with
    base := qp.base.set chunk (some (List.replicate QP_CHUNK_SIZE zero_node)) }
  let qp := usage_set qp chunk { exists_ := true, used := size }
  let qp := { qp with used_count := qp.used_count + size,
                      bump := chunk, fender := 0 }
  (qp, make_ref chunk 0)

/-- `realloc_chunk_arrays(qp, newmax)`: grow `base` and `usage` to `newmax`
slots, zero-filling the new tail.  (Whether the C code clones the directory
or reallocates it in place depends on the reader refcount; both cases have
the same contents, which is all the value model records.) -/
def realloc_chunk_arrays (qp : Qp) (newmax : Nat) : Qp :=
  { qp with
    base := qp.base ++ List.replicate (newmax - qp.chunk_max) none,
    usage := qp.usage ++ List.replicate (newmax - qp.chunk_max) {},
    chunk_max := newmax }

/-- `alloc_slow(qp, size)`: find the first free chunk slot, growing the
directory if every slot is occupied, and allocate a fresh bump chunk there. -/
def alloc_slow (qp : Qp) (size : Nat) : Qp × Nat :=
  match (List.range qp.chunk_max).find? (fun c => !(usage_get qp c).exists_) with
  | some chunk => chunk_alloc qp chunk size
  | none =>
    let chunk := qp.chunk_max
    chunk_alloc (realloc_chunk_arrays qp (GROWTH_FACTOR chunk)) chunk size

/-- `alloc_reset(qp)`: ensure a fresh bump chunk. -/
def alloc_reset (qp : Qp) : Qp := (alloc_slow qp 0).1

/-- `alloc_twigs(qp, size)`: bump-allocator fast path, else `alloc_slow`. -/
def alloc_twigs (qp : Qp) (size : Nat) : Qp × Nat :=
  let chunk := qp.bump
  let cell := (usage_get qp chunk).used
  if cell + size ≤ QP_CHUNK_SIZE then
    (({ usage_set qp chunk { usage_get qp chunk with used := cell + size } with
        used_count := qp.used_count + size } : Qp), make_ref chunk cell)
  else alloc_slow qp size

/-- `free_twigs(qp, twigs, size)`: account the cells as free; zero them and
return `true` when they are mutable, else count them as held. -/
def free_twigs (qp : Qp) (twigs size : Nat) : Qp × Bool :=
  let chunk := ref_chunk twigs
  let qp := { usage_set qp chunk
                { usage_get qp chunk with free := (usage_get qp chunk).free + size } with
              free_count := qp.free_count + size }
  if cells_immutable qp twigs then
    ({ qp with hold_count := qp.hold_count + size }, false)
  else
    (zero_twigs qp twigs size, true)

/-! ## Chunk reclamation -/

/-- `chunk_usage(qp, chunk)`: live cells of a chunk. -/
def chunk_usage (qp : Qp) (chunk : Nat) : Nat :=
  (usage_get qp chunk).used - (usage_get qp chunk).free

/-- `chunk_discount(qp, chunk)`: drop an empty chunk's cells from the totals
unless that already happened when it was queued for reclamation. -/
def chunk_discount (qp : Qp) (chunk : Nat) : Qp :=
  if (usage_get qp chunk).phase = 0 then
    { qp with used_count := qp.used_count - (usage_get qp chunk).used,
              free_count := qp.free_count - (usage_get qp chunk).free }
  else qp

/-- `chunk_free(qp, chunk)`: detach remaining leaves and release unused
reader directories (both external effects), discount the chunk, free its
raw memory and clear its slot and usage record. -/
def chunk_free (qp : Qp) (chunk : Nat) : Qp :=
  let qp := chunk_discount qp chunk
  { qp with base := qp.base.set chunk none, usage := qp.usage.set chunk {} }

/-- `recycle(qp)`: free every non-bump, mutable, empty chunk. -/
def recycle (qp : Qp) : Qp :=
  (List.range qp.chunk_max).foldl
    (fun qp chunk =>
      if chunk ≠ qp.bump && chunk_usage qp chunk = 0 &&
         (usage_get qp chunk).exists_ && !(usage_get qp chunk).immutable then
        chunk_free qp chunk
      else qp)
    qp

/-- The loop body of `reclaim_chunks` for one chunk. -/
def reclaim_step (phase : Nat) (acc : Qp × Bool) (chunk : Nat) : Qp × Bool :=
  let (qp, more) := acc
  if (usage_get qp chunk).phase = phase then
    if (usage_get qp chunk).snapshot then
      (usage_set qp chunk { usage_get qp chunk with snapfree := true }, more)
    else
      (chunk_free qp chunk, more)
  else if (usage_get qp chunk).phase ≠ 0 then
    (qp, true)
  else (qp, more)

/-- `reclaim_chunks(qp, phase)`: free the chunks queued for `phase` (only
flagging `snapfree` on those pinned by a snapshot); report whether chunks
of some other phase are still queued. -/
def reclaim_chunks (qp : Qp) (phase : Nat) : Qp × Bool :=
  (List.range qp.chunk_max).foldl (reclaim_step phase) (qp, false)

/-! ## Garbage collector -/

/-- `evacuate(qp, n)`: copy a branch's twig vector into fresh cells and
free the old copy (`attach_twigs` on duplication is an external-refcount
effect). -/
def evacuate (qp : Qp) (n : QpNode) : Qp × Nat :=
  let size := branch_twigs_size n
  let old_ref := branch_twigs_ref n
  let (qp, new_ref) := alloc_twigs qp size
  let qp := move_twigs qp new_ref old_ref size
  let (qp, _destroyed) := free_twigs qp old_ref size
  (qp, new_ref)

/-- `make_root_mutable(qp)`: copy-on-write of the root cell. -/
def make_root_mutable (qp : Qp) : Qp :=
  if cells_immutable qp qp.root_ref then
    let (qp', r) := evacuate qp (MOVABLE_ROOT qp)
    { qp' with root_ref := r }
  else qp

/-- `make_twigs_mutable(qp, n)` for the branch node stored at `nref`:
copy-on-write of its twig vector, updating the node in place. -/
def make_twigs_mutable (qp : Qp) (nref : Nat) : Qp :=
  let n := ref_get qp nref
  if cells_immutable qp (branch_twigs_ref n) then
    let (qp', r) := evacuate qp n
    ref_set qp' nref (make_node (branch_index n) r)
  else qp

/-- One child step of the loop in `compact_recursive` (see below): `go` is
the recursive call on the child. -/
def compact_child (go : Qp → QpNode → Option (Qp × Nat)) (parent : QpNode)
    (acc : Option (Qp × Nat × Bool)) (pos : Nat) : Option (Qp × Nat × Bool) :=
  match acc with
  | none => none
  | some (qp, twigs_ref, immutable) =>
    let child := ref_get qp (twigs_ref + pos)
    if !is_branch child then some (qp, twigs_ref, immutable)
    else
      let old_grandtwigs := branch_twigs_ref child
      match go qp child with
      | none => none
      | some (qp, new_grandtwigs) =>
        if old_grandtwigs = new_grandtwigs then some (qp, twigs_ref, immutable)
        else
          let (qp, twigs_ref, immutable) :=
            if immutable then
              let (qp', r) := evacuate qp parent
              (qp', r, false)
            else (qp, twigs_ref, immutable)
          let child := ref_get qp (twigs_ref + pos)
          some (ref_set qp (twigs_ref + pos)
                  (make_node (branch_index child) new_grandtwigs),
                twigs_ref, immutable)

/-- `compact_recursive(qp, parent)`: post-order walk evacuating fragmented
or explicitly condemned twig vectors, patching child refs bottom-up. -/
def compact_recursive (fuel : Nat) (qp : Qp) (parent : QpNode) :
    Option (Qp × Nat) :=
  match fuel with
  | 0 => none
  | fuel + 1 =>
    let size := branch_twigs_size parent
    let twigs_ref := branch_twigs_ref parent
    let chunk := ref_chunk twigs_ref
    let (qp, twigs_ref) :=
      if qp.compact_all ||
         (chunk ≠ qp.bump && chunk_usage qp chunk < QP_MIN_USED) then
        evacuate qp parent
      else (qp, twigs_ref)
    let immutable := cells_immutable qp twigs_ref
    match (List.range size).foldl
        (compact_child (compact_recursive fuel) parent)
        (some (qp, twigs_ref, immutable)) with
    | none => none
    | some (qp, twigs_ref, _) => some (qp, twigs_ref)

/-- `compact(qp)`: restart the bump chunk when it accumulated too much
garbage, then compact from the root. -/
def compact (fuel : Nat) (qp : Qp) : Option Qp :=
  let qp := if (usage_get qp qp.bump).free > QP_MAX_FREE then alloc_reset qp
            else qp
  match (if qp.leaf_count > 0 then
           match compact_recursive fuel qp (MOVABLE_ROOT qp) with
           | none => none
           | some (qp, r) => some { qp with root_ref := r }
         else some qp) with
  | none => none
  | some qp => some { qp with compact_all := false }

/-- Modelled from the spec: the auto-GC trigger `QP_AUTOGC(qp)`, "a
monotone function of used, free, hold", firing when
`(free - hold) > max(used/8, min_slack)`; the header's exact thresholds
are open, `min_slack` is chosen as `QP_MIN_USED`. -/
def QP_AUTOGC (qp : Qp) : Bool :=
  qp.free_count - qp.hold_count > max (qp.used_count / 8) QP_MIN_USED

/-- Modelled from the spec: `QP_NEEDGC(qp)`, the milder threshold used by
`dns_qp_compact(MAYBE)` and commit; chosen as free space above a chunk. -/
def QP_NEEDGC (qp : Qp) : Bool := qp.free_count > QP_CHUNK_SIZE

/-- `squash_twigs(qp, twigs, size)`: free some twigs and, if they were
destroyed and the garbage threshold is reached, compact and recycle
(scheduling a full compaction when that failed to recover space). -/
def squash_twigs (fuel : Nat) (qp : Qp) (twigs size : Nat) :
    Option (Qp × Bool) :=
  let (qp, destroyed) := free_twigs qp twigs size
  if destroyed && QP_AUTOGC qp then
    match compact fuel qp with
    | none => none
    | some qp =>
      let qp := recycle qp
      let qp := if QP_AUTOGC qp then { qp with compact_all := true } else qp
      some (qp, destroyed)
  else some (qp, destroyed)

/-- `dns_qp_compact(qp, mode)` (`mode = true` is `DNS_QPGC_ALL`,
`mode = false` is `DNS_QPGC_MAYBE`). -/
def dns_qp_compact (fuel : Nat) (qp : Qp) (all : Bool) : Option Qp :=
  if !all && !QP_NEEDGC qp then some qp
  else
    let qp := if all then { qp with compact_all := true } else qp
    match compact fuel qp with
    | none => none
    | some qp => some (recycle qp)

/-! ## Constructors -/

/-- Modelled from the missing header: `QP_INIT(qp, methods, uctx)` zeroes
the trie state and installs the vtable; `root_ref` starts out invalid. -/
def QP_INIT (leafkey : Nat → Nat → List Nat) : Qp :=
  { base := [], usage := [], chunk_max := 0, bump := 0, fender := 0,
    root_ref := INVALID_REF, leaf_count := 0, used_count := 0,
    free_count := 0, hold_count := 0, transaction_mode := TxMode.QP_NONE,
    compact_all := false, leafkey := leafkey }

/-- `dns_qp_create(mctx, methods, uctx, qptp)`. -/
def dns_qp_create (leafkey : Nat → Nat → List Nat) : Qp :=
  alloc_reset (QP_INIT leafkey)

/-! ## Modification -/

/-- Result codes visible to callers. -/
inductive QpResult where
  | SUCCESS
  | EXISTS
  | NOTFOUND
deriving DecidableEq

/-- The read-only downward search of `dns_qp_insert`: at each branch take
the twig for the key's bit if present, else twig 0, until a leaf's ref is
reached.  No state is modified. -/
def insert_descend (qp : Qp) (key : List Nat) (keylen : Nat) :
    Nat → Nat → Option Nat
  | 0, _ => none
  | _fuel + 1, nref =>
    let n := ref_get qp nref
    if is_branch n then
      let bit := branch_keybit n key keylen
      let pos := if branch_has_twig n bit then branch_twig_pos n bit else 0
      insert_descend qp key keylen _fuel (branch_twigs_ref n + pos)
    else some nref

/-- The `newbranch` tail of `dns_qp_insert`: allocate a two-twig vector,
replace the node at `nref` by a new branch for `offset`, and place the old
node and the new leaf in shift order. -/
def insert_newbranch (qp : Qp) (new_leaf : QpNode) (new_bit old_bit offset : Nat)
    (nref : Nat) : Qp :=
  let (qp, new_ref) := alloc_twigs qp 2
  let old_node := ref_get qp nref
  let index := BRANCH_TAG ||| (1 <<< new_bit) ||| (1 <<< old_bit) |||
               (offset <<< SHIFT_OFFSET)
  let qp := ref_set qp nref (make_node index new_ref)
  let qp := ref_set qp (new_ref + (if old_bit > new_bit then 1 else 0)) old_node
  let qp := ref_set qp (new_ref + (if new_bit > old_bit then 1 else 0)) new_leaf
  { qp with leaf_count := qp.leaf_count + 1 }

/-- The `growbranch` tail of `dns_qp_insert`: widen the branch at `nref` by
one twig for `new_bit`, splicing the new leaf into a fresh vector and
squashing the old one. -/
def insert_growbranch (fuel : Nat) (qp : Qp) (new_leaf : QpNode)
    (new_bit : Nat) (nref : Nat) : Option Qp :=
  let n := ref_get qp nref
  let old_size := branch_twigs_size n
  let new_size := old_size + 1
  let old_ref := branch_twigs_ref n
  let (qp, new_ref) := alloc_twigs qp new_size
  let n' := make_node (branch_index n ||| (1 <<< new_bit)) new_ref
  let qp := ref_set qp nref n'
  let pos := branch_twig_pos n' new_bit
  let qp := move_twigs qp new_ref old_ref pos
  let qp := ref_set qp (new_ref + pos) new_leaf
  let qp := move_twigs qp (new_ref + pos + 1) (old_ref + pos) (old_size - pos)
  match squash_twigs fuel qp old_ref old_size with
  | none => none
  | some (qp, _destroyed) => some { qp with leaf_count := qp.leaf_count + 1 }

/-- The copy-on-write second descent of `dns_qp_insert`: find where to
insert a new branch (`offset` above every branch offset passed) or grow an
existing one, making the path mutable on the way down. -/
def insert_cow (new_leaf : QpNode) (key : List Nat) (keylen : Nat)
    (new_bit old_bit offset : Nat) : Nat → Qp → Nat → Option Qp
  | 0, _, _ => none
  | fuel + 1, qp, nref =>
    let n := ref_get qp nref
    if is_branch n then
      if offset < branch_key_offset n then
        some (insert_newbranch qp new_leaf new_bit old_bit offset nref)
      else if offset = branch_key_offset n then
        insert_growbranch fuel qp new_leaf new_bit nref
      else
        let qp := make_twigs_mutable qp nref
        let n := ref_get qp nref
        let bit := branch_keybit n key keylen
        if !branch_has_twig n bit then none
        else insert_cow new_leaf key keylen new_bit old_bit offset fuel qp
               (branch_twigs_ref n + branch_twig_pos n bit)
    else some (insert_newbranch qp new_leaf new_bit old_bit offset nref)

/-- `dns_qp_insert(qp, pval, ival)`. -/
def dns_qp_insert (fuel : Nat) (qp : Qp) (pval ival : Nat) :
    Option (QpResult × Qp) :=
  let new_leaf := make_leaf pval ival
  let new_key := leaf_qpkey qp new_leaf
  let new_keylen := new_key.length
  if qp.leaf_count = 0 then
    let (qp, new_ref) := alloc_twigs qp 1
    let qp := ref_set qp new_ref new_leaf
    some (QpResult.SUCCESS,
          { qp with leaf_count := qp.leaf_count + 1, root_ref := new_ref })
  else
    match insert_descend qp new_key new_keylen fuel qp.root_ref with
    | none => none
    | some nref =>
      let n := ref_get qp nref
      let old_key := leaf_qpkey qp n
      let old_keylen := old_key.length
      let offset := qpkey_compare new_key new_keylen old_key old_keylen
      if offset = QPKEY_EQUAL then some (QpResult.EXISTS, qp)
      else
        let new_bit := qpkey_bit new_key new_keylen offset
        let old_bit := qpkey_bit old_key old_keylen offset
        let qp := make_root_mutable qp
        match insert_cow new_leaf new_key new_keylen new_bit old_bit offset
                fuel qp qp.root_ref with
        | none => none
        | some qp => some (QpResult.SUCCESS, qp)

/-- The copy-on-write descent of `dns_qp_deletekey`, recording the parent
branch ref and the bit by which the matched child was entered; returns
`(parent?, bit, leafref)` or the early `NOTFOUND`. -/
def delete_descend (key : List Nat) (keylen : Nat) :
    Nat → Qp → Option Nat → Nat → Nat →
    Option (Qp × Option (Option Nat × Nat × Nat))
  | 0, _, _, _, _ => none
  | fuel + 1, qp, parent, bit, nref =>
    let n := ref_get qp nref
    if is_branch n then
      let bit := branch_keybit n key keylen
      if !branch_has_twig n bit then some (qp, none)
      else
        let qp := make_twigs_mutable qp nref
        let n := ref_get qp nref
        delete_descend key keylen fuel qp (some nref) bit
          (branch_twigs_ref n + branch_twig_pos n bit)
    else some (qp, some (parent, bit, nref))

/-- `dns_qp_deletekey(qp, search_key, search_keylen)`. -/
def dns_qp_deletekey (fuel : Nat) (qp : Qp) (search_key : List Nat)
    (search_keylen : Nat) : Option (QpResult × Qp) :=
  if !get_root_valid qp then some (QpResult.NOTFOUND, qp)
  else
    let qp := make_root_mutable qp
    match delete_descend search_key search_keylen fuel qp none 0 qp.root_ref with
    | none => none
    | some (qp, none) => some (QpResult.NOTFOUND, qp)
    | some (qp, some (parent, bit, nref)) =>
      let n := ref_get qp nref
      let found_key := leaf_qpkey qp n
      if qpkey_compare search_key search_keylen found_key found_key.length ≠
         QPKEY_EQUAL then
        some (QpResult.NOTFOUND, qp)
      else
        let qp := { qp with leaf_count := qp.leaf_count - 1 }
        if qp.leaf_count = 0 then
          let (qp, _) := free_twigs qp qp.root_ref 1
          some (QpResult.SUCCESS, { qp with root_ref := INVALID_REF })
        else
          match parent with
          | none => none
          | some pref =>
            let n := ref_get qp pref
            let size := branch_twigs_size n
            let pos := branch_twig_pos n bit
            let ref := branch_twigs_ref n
            if size = 2 then
              let qp := ref_set qp pref
                          (ref_get qp (ref + (if pos = 0 then 1 else 0)))
              match squash_twigs fuel qp ref 2 with
              | none => none
              | some (qp, _) => some (QpResult.SUCCESS, qp)
            else
              let index := branch_index n
              -- `branch_index(n) & ~(1ULL << bit)` on a 64-bit word: clear
              -- bit `bit`, i.e. subtract `2 ^ bit` when it is set
              let index' := if index.testBit bit then index - 2 ^ bit else index
              let qp := ref_set qp pref (make_node index' ref)
              let qp := move_twigs qp (ref + pos) (ref + pos + 1) (size - pos - 1)
              match squash_twigs fuel qp (ref + size - 1) 1 with
              | none => none
              | some (qp, _) => some (QpResult.SUCCESS, qp)

/-- `dns_qp_deletename(qp, name)`. -/
def dns_qp_deletename (fuel : Nat) (qp : Qp) (name : List (List Nat)) :
    Option (QpResult × Qp) :=
  let (key, keylen) := dns_qpkey_fromname name
  dns_qp_deletekey fuel qp key keylen

/-! ## Search -/

/-- The downward loop of `dns_qp_getkey`: fail on a missing twig, stop at a
leaf. -/
def getkey_descend (qp : Qp) (key : List Nat) (keylen : Nat) :
    Nat → Nat → Option (Option Nat)
  | 0, _ => none
  | fuel + 1, nref =>
    let n := ref_get qp nref
    if is_branch n then
      let bit := branch_keybit n key keylen
      if !branch_has_twig n bit then some none
      else getkey_descend qp key keylen fuel
             (branch_twigs_ref n + branch_twig_pos n bit)
    else some (some nref)

/-- `dns_qp_getkey(qpr, search_key, search_keylen, &pval, &ival)`: returns
`NOTFOUND` or `SUCCESS` with the leaf's `pval` and `ival`; the trie state
is not modified. -/
def dns_qp_getkey (fuel : Nat) (qp : Qp) (search_key : List Nat)
    (search_keylen : Nat) : Option (QpResult × Option (Nat × Nat)) :=
  if !get_root_valid qp then some (QpResult.NOTFOUND, none)
  else
    match getkey_descend qp search_key search_keylen fuel qp.root_ref with
    | none => none
    | some none => some (QpResult.NOTFOUND, none)
    | some (some nref) =>
      let n := ref_get qp nref
      let found_key := leaf_qpkey qp n
      if qpkey_compare search_key search_keylen found_key found_key.length ≠
         QPKEY_EQUAL then
        some (QpResult.NOTFOUND, none)
      else
        some (QpResult.SUCCESS, some (leaf_pval n, leaf_ival n))

/-- `dns_qp_getname(qpr, name, &pval, &ival)`. -/
def dns_qp_getname (fuel : Nat) (qp : Qp) (name : List (List Nat)) :
    Option (QpResult × Option (Nat × Nat)) :=
  let (key, keylen) := dns_qpkey_fromname name
  dns_qp_getkey fuel qp key keylen

/-! ## Read-write transactions

A `dns_qpmulti_t` owns the writer, the atomically published reader anchor,
the anchor's ref inside the writer's chunks, and the nullable rollback copy
of the writer.  The mutex, QSBR handle and snapshot list are host-runtime
collaborators outside this embedding; the QSBR phase sampled by commit
becomes an input parameter. -/

structure QpMulti where
  writer : Qp
  reader : Option Nat
  reader_ref : Nat
  rollback : Option Qp

/-- `dns_qpmulti_create(mctx, loopmgr, methods, uctx, qpmp)`: no bump chunk
is allocated yet; pretending the previous transaction was an update makes
the first `dns_qpmulti_write` allocate one. -/
def dns_qpmulti_create (leafkey : Nat → Nat → List Nat) : QpMulti :=
  { writer := { QP_INIT leafkey with transaction_mode := TxMode.QP_UPDATE },
    reader := none, reader_ref := INVALID_REF, rollback := none }

/-- `transaction_open(multi, qptp)`: mark every existing chunk immutable
(the bump chunk included) and make `QP_AUTOGC` ignore free space in
immutable chunks. -/
def transaction_open (qp : Qp) : Qp :=
  let qp := (List.range qp.chunk_max).foldl
    (fun qp chunk =>
      if (usage_get qp chunk).exists_ then
        usage_set qp chunk { usage_get qp chunk with immutable := true }
      else qp)
    qp
  { qp with hold_count := qp.free_count }

/-- `dns_qpmulti_update(multi, qptp)`: open, switch to update mode, save the
rollback copy of the whole writer state (the C code copies the struct and
clones `usage[]`, sharing `base` and the chunks; the value model simply
records the state), then reset the allocator. -/
def dns_qpmulti_update (multi : QpMulti) : QpMulti :=
  let qp := transaction_open multi.writer
  let qp := { qp with transaction_mode := TxMode.QP_UPDATE }
  { multi with writer := alloc_reset qp, rollback := some qp }

/-- The free pass of `dns_qpmulti_rollback`: `chunk_free` every present,
mutable chunk — exactly the chunks allocated during the aborted
transaction, since `transaction_open` marked all pre-existing chunks
immutable. -/
def rollback_free (qp : Qp) : Qp :=
  (List.range qp.chunk_max).foldl
    (fun qp chunk =>
      if (qp.base.getD chunk none) ≠ none &&
         !(usage_get qp chunk).immutable then
        chunk_free qp chunk
      else qp)
    qp

/-- `dns_qpmulti_rollback(multi, qptp)`: free every chunk allocated during
the transaction (present and not immutable) and restore the saved writer
state.  In C the restore copies the rollback struct back over the writer,
whose `base`/`usage` arrays it shares, and the surviving chunks were
immutable for the whole transaction, so they still hold their saved
contents; the final writer state is thus the saved one, which is what the
value model returns — the free pass survives only as the raw-memory
release of the transaction's own chunks.  `none` models the fatal
`REQUIRE` when no update is open. -/
def dns_qpmulti_rollback (multi : QpMulti) : Option QpMulti :=
  if multi.writer.transaction_mode ≠ TxMode.QP_UPDATE then none
  else
    match multi.rollback with
    | none => none
    | some saved =>
      let qp := rollback_free multi.writer
      let _ := qp
      some { multi with writer := saved, rollback := none }

/-- ASCII case folding of one byte: the uppercase letters map onto the
corresponding lowercase ones, everything else is unchanged. -/
def ascii_tolower (b : Nat) : Nat := if 65 ≤ b ∧ b ≤ 90 then b + 32 else b

/-- Case folding of a whole DNS name, label by label. -/
def name_tolower (name : List (List Nat)) : List (List Nat) :=
  name.map (fun label => label.map ascii_tolower)

/-- The shifts one byte contributes to a key, outside any buffer. -/
def byte_bits (b : Nat) : List Nat := qpkey_putbyte [] b

/-- The shifts one label contributes, without its terminator. -/
def label_bits (label : List Nat) : List Nat := label.foldl qpkey_putbyte []

/-- A concrete trie state with one empty immutable chunk queued for
reclamation at QSBR phase 1 (chunk 0, as `defer_chunk_reclamation` leaves
it: counters kept in `usage`, discounted from the totals) and a live bump
chunk (chunk 1) holding the root leaf. -/
def qp_c8_pending : Qp :=
  { base := [some (List.replicate QP_CHUNK_SIZE zero_node),
             some ((QpNode.leaf 1 0) :: List.replicate (QP_CHUNK_SIZE - 1) zero_node)],
    usage := [{ exists_ := true, immutable := true, used := 2, free := 2,
                phase := 1 },
              { exists_ := true, used := 1 }],
    chunk_max := 2, bump := 1, fender := 0, root_ref := make_ref 1 0,
    leaf_count := 1, used_count := 1, free_count := 0, hold_count := 0,
    transaction_mode := TxMode.QP_UPDATE, compact_all := false,
    leafkey := fun _ _ => [] }

/-- The same state with the queued chunk waiting at phase 3 instead. -/
def qp_c8_phase3 : Qp :=
  { qp_c8_pending with
    usage := [{ exists_ := true, immutable := true, used := 2, free := 2,
                phase := 3 },
              { exists_ := true, used := 1 }] }

/-- A concrete one-leaf trie: chunk 0 is the bump chunk, cell 0 holds the
root leaf `(pval 3, ival 9)`, and the vtable names each leaf by the
one-element key `[pval]`. -/
def qp_single : Qp :=
  { base := [some ((QpNode.leaf 3 9) :: List.replicate (QP_CHUNK_SIZE - 1) zero_node)],
    usage := [{ exists_ := true, used := 1 }],
    chunk_max := 1, bump := 0, fender := 0, root_ref := 0,
    leaf_count := 1, used_count := 1, free_count := 0, hold_count := 0,
    transaction_mode := TxMode.QP_NONE, compact_all := false,
    leafkey := fun p _ => [p] }

/-- A concrete two-leaf trie: cell 0 of chunk 0 holds the root branch with
bitmap bits 2 and 3 at key offset 0, whose twig vector is cells 1 and 2. -/
def qp_branch2 : Qp :=
  { base := [some (QpNode.branch 13 1 :: QpNode.leaf 3 9 :: QpNode.leaf 4 9 ::
               List.replicate (QP_CHUNK_SIZE - 3) zero_node)],
    usage := [{ exists_ := true, used := 3 }],
    chunk_max := 1, bump := 0, fender := 0, root_ref := 0,
    leaf_count := 2, used_count := 3, free_count := 0, hold_count := 0,
    transaction_mode := TxMode.QP_NONE, compact_all := false,
    leafkey := fun p _ => [p] }

/-! ## Well-formedness predicates used by the invariant theorems -/

/-- A stored node is well formed: a branch carries the `BRANCH_TAG` bit in
its index word and, per spec invariant 1, a bitmap of population count
(= twig vector length) at least 2; a leaf's `pval` has its tag bits clear
(leaf pointers are aligned, which the C code requires). -/
def node_ok : QpNode → Bool
  | QpNode.leaf p _ => p % 2 == 0
  | QpNode.branch i r =>
    i.testBit 0 && decide (2 ≤ branch_twigs_size (QpNode.branch i r))
  | QpNode.anchor => true

/-- Every cell of every chunk of the trie holds a `node_ok` node (cells
outside any chunk read as the zero node, which is a leaf). -/
def heap_ok (qp : Qp) : Prop :=
  ∀ r : Nat, node_ok (ref_get qp r) = true

/-- A search key/length pair is well formed when every position the trie
can examine yields a valid shift: at least `SHIFT_NOBYTE` and below
`SHIFT_OFFSET`.  (Keys produced by `dns_qpkey_fromname` are of this form.) -/
def key_ok (key : List Nat) (keylen : Nat) : Prop :=
  ∀ off, SHIFT_NOBYTE ≤ qpkey_bit key keylen off ∧
    qpkey_bit key keylen off < SHIFT_OFFSET

/-- The caller's `leaf_qpkey` method produces well-formed keys. -/
def leafkey_ok (f : Nat → Nat → List Nat) : Prop :=
  ∀ p i, key_ok (f p i) (f p i).length

/-- One public mutation of a standalone trie, with the fuel its unbounded
loops get. -/
inductive QpOp where
  | insert (fuel pval ival : Nat)
  | deletekey (fuel : Nat) (key : List Nat) (keylen : Nat)

/-- Apply one mutation, keeping only the state. -/
def apply_op (qp : Qp) : QpOp → Option Qp
  | QpOp.insert fuel pval ival =>
    match dns_qp_insert fuel qp pval ival with
    | none => none
    | some (_, qp) => some qp
  | QpOp.deletekey fuel key keylen =>
    match dns_qp_deletekey fuel qp key keylen with
    | none => none
    | some (_, qp) => some qp

/-- Run a sequence of mutations from a starting state. -/
def run_ops (qp : Qp) : List QpOp → Option Qp
  | [] => some qp
  | op :: rest =>
    match apply_op qp op with
    | none => none
    | some qp => run_ops qp rest

/-- The insert operations of a sequence carry pointer-aligned (even)
`pval`s, and the delete operations search with well-formed keys. -/
def ops_ok : List QpOp → Prop
  | [] => True
  | QpOp.insert _ pval _ :: rest => pval % 2 = 0 ∧ ops_ok rest
  | QpOp.deletekey _ key keylen :: rest => key_ok key keylen ∧ ops_ok rest

/-- One mutation of the writer inside an open transaction — insert,
delete, or an explicit `dns_qp_compact` — with the fuel its unbounded
loops get. -/
inductive QpTxOp where
  | insert (fuel pval ival : Nat)
  | deletekey (fuel : Nat) (key : List Nat) (keylen : Nat)
  | compact (fuel : Nat) (all : Bool)

/-- Apply one transaction-scope mutation, keeping only the state. -/
def apply_tx_op (qp : Qp) : QpTxOp → Option Qp
  | QpTxOp.insert fuel pval ival =>
    match dns_qp_insert fuel qp pval ival with
    | none => none
    | some (_, qp) => some qp
  | QpTxOp.deletekey fuel key keylen =>
    match dns_qp_deletekey fuel qp key keylen with
    | none => none
    | some (_, qp) => some qp
  | QpTxOp.compact fuel all => dns_qp_compact fuel qp all

/-- Run a sequence of transaction-scope mutations from a starting state. -/
def run_tx_ops : Qp → List QpTxOp → Option Qp
  | qp, [] => some qp
  | qp, op :: rest =>
    match apply_tx_op qp op with
    | none => none
    | some qp => run_tx_ops qp rest

/-- A concrete `leaf_qpkey` method: key `[2 + pval mod 4]`, length 1. -/
def c3_key (p _i : Nat) : List Nat := [2 + p % 4]

/-- Two inserts with distinct keys, enough fuel for their loops. -/
def c3_ops : List QpOp := [QpOp.insert 9 0 0, QpOp.insert 9 2 0]

/-- The state those two inserts reach from a fresh trie. -/
def qp_c3 : Qp := (run_ops (dns_qp_create c3_key) c3_ops).getD (QP_INIT c3_key)

/-- A standalone `dns_qpmulti_t` whose writer is the one-leaf trie: chunk 0
exists and is mutable, no transaction is open. -/
def multi_c7 : QpMulti :=
  { writer := qp_single, reader := none, reader_ref := INVALID_REF,
    rollback := none }

/-- The state `update; rollback` (no mutations) reaches from it. -/
def multi_c7_rb : QpMulti :=
  (dns_qpmulti_rollback (dns_qpmulti_update multi_c7)).getD
    (dns_qpmulti_create (fun _ _ => []))

/-- Pointwise equality of padded keys (what `qpkey_compare == QPKEY_EQUAL`
detects). -/
def keybits_eq (a : List Nat) (la : Nat) (b : List Nat) (lb : Nat) : Prop :=
  ∀ off, qpkey_bit a la off = qpkey_bit b lb off

/-- Abstract qp-trie: a leaf's `(pval, ival)` pair, or a branch's key
offset with its children in twig order, each tagged by its bitmap bit. -/
inductive QpT where
  | leaf (pval ival : Nat)
  | branch (off : Nat) (cs : List (Nat × QpT))

instance : Inhabited QpT := ⟨QpT.leaf 0 0⟩

mutual
/-- The bindings of an abstract trie, in twig order. -/
def QpT.binds : QpT → List (Nat × Nat)
  | QpT.leaf p i => [(p, i)]
  | QpT.branch _ cs => binds_list cs

/-- The bindings of a child list. -/
def binds_list : List (Nat × QpT) → List (Nat × Nat)
  | [] => []
  | (_, c) :: rest => QpT.binds c ++ binds_list rest
end

mutual
/-- Height of an abstract trie. -/
def QpT.depth : QpT → Nat
  | QpT.leaf _ _ => 0
  | QpT.branch _ cs => depth_list cs + 1

/-- Maximal height over a child list. -/
def depth_list : List (Nat × QpT) → Nat
  | [] => 0
  | (_, c) :: rest => max (QpT.depth c) (depth_list rest)
end

/-- The canonical key of a binding under `leaf_qpkey` method `f`. -/
def bkey (f : Nat → Nat → List Nat) (pi : Nat × Nat) : List Nat := f pi.1 pi.2

/-- The padded key bit of a binding at an offset. -/
def bbit (f : Nat → Nat → List Nat) (pi : Nat × Nat) (off : Nat) : Nat :=
  qpkey_bit (bkey f pi) (bkey f pi).length off

/-- Well-formed abstract trie over vtable `f`: branches have at least two
children with distinct in-range bits; every binding below a child has that
child's bit at the branch offset; all bindings below a branch agree at
offsets before it; child branches have strictly larger offsets; leaf pvals
are pointer-aligned. -/
inductive TWF (f : Nat → Nat → List Nat) : QpT → Prop where
  | leaf (p i : Nat) (hp : p % 2 = 0) : TWF f (QpT.leaf p i)
  | branch (off : Nat) (cs : List (Nat × QpT))
      (hlen : 2 ≤ cs.length)
      (hnodup : (cs.map Prod.fst).Nodup)
      (hbits : ∀ bc ∈ cs, 1 ≤ bc.1 ∧ bc.1 < SHIFT_OFFSET)
      (hchild : ∀ bc ∈ cs, TWF f bc.2)
      (htagbit : ∀ bc ∈ cs, ∀ pi ∈ (bc.2).binds, bbit f pi off = bc.1)
      (hagree : ∀ pi ∈ binds_list cs, ∀ pj ∈ binds_list cs, ∀ o, o < off →
        bbit f pi o = bbit f pj o)
      (hsub : ∀ bc ∈ cs, ∀ off2 cs2, bc.2 = QpT.branch off2 cs2 → off < off2) :
      TWF f (QpT.branch off cs)

/-- The cells of one twig vector. -/
def vec_cells (tref size : Nat) : Finset Nat :=
  (Finset.range size).image (fun j => tref + j)

/-- `NRep qp n t S`: the stored node `n` represents abstract trie `t`, and
the twig vectors below it occupy exactly the cells `S`, each child's twigs
at the position `branch_twig_pos` computes for its bit, all vectors
disjoint. -/
inductive NRep (qp : Qp) : QpNode → QpT → Finset Nat → Prop where
  | leaf (p i : Nat) : NRep qp (QpNode.leaf p i) (QpT.leaf p i) ∅
  | branch (idx tref off : Nat) (cs : List (Nat × QpT))
      (Ss : List (Finset Nat)) (S : Finset Nat)
      (htag : idx.testBit 0 = true)
      (hoff : idx >>> SHIFT_OFFSET = off)
      (hsz : branch_twigs_size (QpNode.branch idx tref) = cs.length)
      (hSs : Ss.length = cs.length)
      (hfit : ref_cell tref + cs.length ≤ QP_CHUNK_SIZE)
      (hpos : ∀ j, j < cs.length →
        idx.testBit (cs.getD j default).1 = true ∧
        branch_twig_pos (QpNode.branch idx tref) (cs.getD j default).1 = j)
      (hcomp : ∀ b, 1 ≤ b → b < SHIFT_OFFSET → idx.testBit b = true →
        ∃ j, j < cs.length ∧ (cs.getD j default).1 = b)
      (hchild : ∀ j, j < cs.length →
        NRep qp (ref_get qp (tref + j)) (cs.getD j default).2 (Ss.getD j ∅))
      (hS : S = vec_cells tref cs.length ∪
        (Finset.range cs.length).biUnion (fun j => Ss.getD j ∅))
      (hdv : ∀ j, j < cs.length →
        Disjoint (vec_cells tref cs.length) (Ss.getD j ∅))
      (hdc : ∀ j k, j < k → k < cs.length →
        Disjoint (Ss.getD j ∅) (Ss.getD k ∅)) :
      NRep qp (QpNode.branch idx tref) (QpT.branch off cs) S

/-- Every owned cell is an allocated cell of a present chunk. -/
def owned_ok (qp : Qp) (S : Finset Nat) : Prop :=
  ∀ r ∈ S, ref_chunk r < qp.chunk_max ∧
    (usage_get qp (ref_chunk r)).exists_ = true ∧
    ref_cell r < (usage_get qp (ref_chunk r)).used

/-- Per-chunk accounting: the freed cells plus the owned cells never
outnumber the allocated ones (so a chunk that still holds owned cells is
never `chunk_usage == 0`, and recycling cannot free it). -/
def chunk_bound (qp : Qp) (S : Finset Nat) : Prop :=
  ∀ c, (usage_get qp c).free +
      (S.filter (fun r => ref_chunk r = c)).card ≤ (usage_get qp c).used

/-- The chunk-shape discipline of a standalone (never shared) trie:
directory arrays sized `chunk_max`, every present chunk a full
`QP_CHUNK_SIZE`-cell array with its used watermark inside, absent slots
zeroed, everything mutable (zero `fender`, no `immutable` or `phase`
marks), and a present bump chunk. -/
structure StandaloneWF (qp : Qp) : Prop where
  base_len : qp.base.length = qp.chunk_max
  usage_len : qp.usage.length = qp.chunk_max
  fender0 : qp.fender = 0
  no_imm : ∀ c, (usage_get qp c).immutable = false
  no_phase : ∀ c, (usage_get qp c).phase = 0
  chunks : ∀ c, c < qp.chunk_max →
    (if (usage_get qp c).exists_ then
      ∃ arr, qp.base.getD c none = some arr ∧ arr.length = QP_CHUNK_SIZE
     else qp.base.getD c none = none ∧ usage_get qp c = {})
  used_le : ∀ c, (usage_get qp c).used ≤ QP_CHUNK_SIZE
  bump_lt : qp.bump < qp.chunk_max
  bump_ex : (usage_get qp qp.bump).exists_ = true

/-- The tree part of the invariant of a nonempty standalone trie. -/
structure TreeInv (f : Nat → Nat → List Nat) (qp : Qp) (t : QpT)
    (S : Finset Nat) : Prop where
  rep : NRep qp (ref_get qp qp.root_ref) t S
  twf : TWF f t
  root_not_owned : qp.root_ref ∉ S
  owned : owned_ok qp (insert qp.root_ref S)
  bound : chunk_bound qp (insert qp.root_ref S)
  leaves : qp.leaf_count = t.binds.length
  distinct : t.binds.Pairwise (fun pi pj =>
    ¬ keybits_eq (f pi.1 pi.2) (f pi.1 pi.2).length (f pj.1 pj.2)
        (f pj.1 pj.2).length)

/-- The full invariant of a standalone insert-only trie. -/
def QpInv (f : Nat → Nat → List Nat) (qp : Qp) : Prop :=
  StandaloneWF qp ∧ qp.leafkey = f ∧
  ((qp.leaf_count = 0 ∧ qp.root_ref = INVALID_REF ∧ chunk_bound qp ∅) ∨
   (qp.leaf_count ≠ 0 ∧ qp.root_ref ≠ INVALID_REF ∧ ∃ t S, TreeInv f qp t S))

/-- An allocated cell: inside the used prefix of a present chunk. -/
def allocated (qp : Qp) (r : Nat) : Prop :=
  ref_chunk r < qp.chunk_max ∧
  (usage_get qp (ref_chunk r)).exists_ = true ∧
  ref_cell r < (usage_get qp (ref_chunk r)).used

/-- What `alloc_twigs` guarantees on a standalone trie: the shape survives,
the identification fields survive, all previously allocated cells keep
their contents and allocation status, and the returned vector is a fresh
contiguous run at the used watermark of its chunk. -/
structure AllocSpec (qp qp' : Qp) (ref size : Nat) : Prop where
  swf : StandaloneWF qp'
  lkeep : qp'.leafkey = qp.leafkey
  rkeep : qp'.root_ref = qp.root_ref
  ckeep : qp'.leaf_count = qp.leaf_count
  old_cells : ∀ r, allocated qp r → ref_get qp' r = ref_get qp r
  old_alloc : ∀ r, allocated qp r → allocated qp' r
  cellw : ref_cell ref = (usage_get qp (ref_chunk ref)).used
  usedw : (usage_get qp' (ref_chunk ref)).used = ref_cell ref + size
  chunkw : ref_chunk ref < qp'.chunk_max ∧
    (usage_get qp' (ref_chunk ref)).exists_ = true
  freew : ∀ c, (usage_get qp' c).free = (usage_get qp c).free
  usage_other : ∀ c, c ≠ ref_chunk ref → usage_get qp' c = usage_get qp c
  fits : ref_cell ref + size ≤ QP_CHUNK_SIZE

/-- A key whose padded bits all fit the modelled chunk geometry: valid
shifts that are below `QP_CHUNK_SIZE`, so that a branch's twig vector
(one twig per distinct bit) always fits inside one chunk, as the C code's
`QP_CHUNK_SIZE` (large enough for all 47 shifts plus a reader) guarantees
for every key. -/
def key_fits (key : List Nat) (keylen : Nat) : Prop :=
  ∀ off, SHIFT_NOBYTE ≤ qpkey_bit key keylen off ∧
    qpkey_bit key keylen off < QP_CHUNK_SIZE

/-- The caller's `leaf_qpkey` method produces keys that fit the modelled
chunk geometry. -/
def leafkey_fits (f : Nat → Nat → List Nat) : Prop :=
  ∀ p i, key_fits (f p i) (f p i).length

/-- Every branch of an abstract trie has at least one child (a weakening
of `TWF` that `compact_recursive` needs to evacuate twig vectors). -/
inductive WB : QpT → Prop where
  | leaf (p i : Nat) : WB (QpT.leaf p i)
  | branch (off : Nat) (cs : List (Nat × QpT)) (hne : 1 ≤ cs.length)
      (hch : ∀ bc ∈ cs, WB bc.2) : WB (QpT.branch off cs)

/-- The global heap/tree state `compact`, `recycle` and `squash_twigs`
preserve: the stored root represents the abstract trie, the owned cells
are allocated, and the per-chunk accounting holds. -/
structure Shape (qp : Qp) (t : QpT) (S : Finset Nat) : Prop where
  swf : StandaloneWF qp
  rep : NRep qp (ref_get qp qp.root_ref) t S
  root_not_owned : qp.root_ref ∉ S
  owned : owned_ok qp (insert qp.root_ref S)
  bound : chunk_bound qp (insert qp.root_ref S)

/-- What one pass of `recycle` (and each of its `chunk_free` steps)
preserves, relative to the pre-recycle state `qp0`: the shape discipline,
the contents and accounting of the owned cells, and the identification
fields. -/
structure RecycleInv (qp0 qp : Qp) (O : Finset Nat) : Prop where
  swf : StandaloneWF qp
  get : ∀ r ∈ O, ref_get qp r = ref_get qp0 r
  owned : owned_ok qp O
  bound : chunk_bound qp O
  cm : qp.chunk_max = qp0.chunk_max
  bp : qp.bump = qp0.bump
  lk : qp.leafkey = qp0.leafkey
  rr : qp.root_ref = qp0.root_ref
  lc : qp.leaf_count = qp0.leaf_count

/-- One insertion with the generous fuel every loop of `dns_qp_insert`
needs (both descents are bounded by the tree depth, and a compaction
triggered under a deep recursion consumes at most another depth plus the
`MOVABLE_ROOT` level). -/
def qp_insert_step (qp : Qp) (pi : Nat × Nat) : Option Qp :=
  match dns_qp_insert (2 * qp.leaf_count + 4) qp pi.1 pi.2 with
  | none => none
  | some (_, qp) => some qp

/-- Insert a list of `(pval, ival)` bindings in order. -/
def qp_insert_list : Qp → List (Nat × Nat) → Option Qp
  | qp, [] => some qp
  | qp, pi :: rest =>
    match qp_insert_step qp pi with
    | none => none
    | some qp => qp_insert_list qp rest

/-- Distinctness of the keys behind a binding list: no two bindings have
pointwise-equal padded keys. -/
def binds_distinct (f : Nat → Nat → List Nat) (ps : List (Nat × Nat)) : Prop :=
  ps.Pairwise (fun pi pj =>
    ¬ keybits_eq (f pi.1 pi.2) (f pi.1 pi.2).length (f pj.1 pj.2)
        (f pj.1 pj.2).length)

/-!
## Theorems

First the key codec (claims C5 and C6), then the trie operations.
-/

theorem qpkey_putbyte_append (k : List Nat) (b : Nat) :
    qpkey_putbyte k b = k ++ byte_bits b := by
  unfold byte_bits qpkey_putbyte
  dsimp only
  split <;> simp

theorem label_bits_append (label : List Nat) (k : List Nat) :
    label.foldl qpkey_putbyte k = k ++ label_bits label := by
  unfold label_bits
  induction label generalizing k with
  | nil => simp
  | cons b rest ih =>
    simp only [List.foldl_cons]
    rw [ih, ih (qpkey_putbyte [] b), qpkey_putbyte_append]
    simp [byte_bits]

theorem qpkey_putlabel_append (k : List Nat) (label : List Nat) :
    qpkey_putlabel k label = k ++ (label_bits label ++ [SHIFT_NOBYTE]) := by
  unfold qpkey_putlabel
  rw [label_bits_append]
  simp

theorem qpkey_fromname_body (labels : List (List Nat)) (k : List Nat) :
    labels.foldl qpkey_putlabel k =
      k ++ (labels.map (fun l => label_bits l ++ [SHIFT_NOBYTE])).flatten := by
  induction labels generalizing k with
  | nil => simp
  | cons l rest ih =>
    simp only [List.foldl_cons, List.map_cons, List.flatten_cons]
    rw [ih, qpkey_putlabel_append]
    simp

/-- C6 (structure half): the written key buffer is, label by label from the
root down, the label's shifts followed by one `SHIFT_NOBYTE` terminator,
then one extra trailing `SHIFT_NOBYTE`; the returned length excludes only
that trailing marker. -/
theorem fromname_spec (name : List (List Nat)) :
    (dns_qpkey_fromname name).1 =
      (name.reverse.map (fun l => label_bits l ++ [SHIFT_NOBYTE])).flatten ++
        [SHIFT_NOBYTE] ∧
    (dns_qpkey_fromname name).2 =
      ((name.reverse.map (fun l => label_bits l ++ [SHIFT_NOBYTE])).flatten).length := by
  unfold dns_qpkey_fromname
  rw [qpkey_fromname_body]
  simp

set_option maxRecDepth 100000 in
theorem bits_for_byte_case_fold :
    ∀ b : Nat, b < 256 → 65 ≤ b → b ≤ 90 →
      dns_qp_bits_for_byte.getD b 0 = dns_qp_bits_for_byte.getD (b + 32) 0 := by
  decide

theorem bits_for_byte_tolower (b : Nat) :
    dns_qp_bits_for_byte.getD (ascii_tolower b) 0 =
      dns_qp_bits_for_byte.getD b 0 := by
  unfold ascii_tolower
  split
  · next h =>
    exact (bits_for_byte_case_fold b (by omega) h.1 h.2).symm
  · rfl

theorem qpkey_putbyte_tolower (k : List Nat) (b : Nat) :
    qpkey_putbyte k (ascii_tolower b) = qpkey_putbyte k b := by
  unfold qpkey_putbyte
  rw [bits_for_byte_tolower]

theorem qpkey_putlabel_tolower (k : List Nat) (label : List Nat) :
    qpkey_putlabel k (label.map ascii_tolower) = qpkey_putlabel k label := by
  unfold qpkey_putlabel
  congr 1
  induction label generalizing k with
  | nil => rfl
  | cons b rest ih => simp only [List.map_cons, List.foldl_cons,
      qpkey_putbyte_tolower, ih]

theorem foldl_putlabel_tolower (labels : List (List Nat)) (k : List Nat) :
    (labels.map (fun l => l.map ascii_tolower)).foldl qpkey_putlabel k =
      labels.foldl qpkey_putlabel k := by
  induction labels generalizing k with
  | nil => rfl
  | cons l rest ih =>
    simp only [List.map_cons, List.foldl_cons, qpkey_putlabel_tolower, ih]

theorem fromname_tolower (name : List (List Nat)) :
    dns_qpkey_fromname (name_tolower name) = dns_qpkey_fromname name := by
  unfold dns_qpkey_fromname name_tolower
  rw [← List.map_reverse, foldl_putlabel_tolower]

/-- C5: after `initialize_bits_for_byte` runs, every byte in `'A'..'Z'` has
the same `dns_qp_bits_for_byte` entry as the corresponding lowercase
letter; consequently `dns_qpkey_fromname` produces identical keys for two
DNS names that differ only in ASCII letter case, and `dns_qp_getname`
returns the same lookup result for them. -/
theorem C5_case_insensitive :
    (∀ b : Nat, 65 ≤ b → b ≤ 90 →
       dns_qp_bits_for_byte.getD b 0 = dns_qp_bits_for_byte.getD (b + 32) 0) ∧
    (∀ name1 name2 : List (List Nat), name_tolower name1 = name_tolower name2 →
       dns_qpkey_fromname name1 = dns_qpkey_fromname name2) ∧
    (∀ (fuel : Nat) (qp : Qp) (name1 name2 : List (List Nat)),
       name_tolower name1 = name_tolower name2 →
       dns_qp_getname fuel qp name1 = dns_qp_getname fuel qp name2) := by
  have key : ∀ name1 name2 : List (List Nat),
      name_tolower name1 = name_tolower name2 →
      dns_qpkey_fromname name1 = dns_qpkey_fromname name2 := by
    intro name1 name2 h
    rw [← fromname_tolower name1, ← fromname_tolower name2, h]
  refine ⟨fun b h1 h2 => bits_for_byte_case_fold b (by omega) h1 h2, key, ?_⟩
  intro fuel qp name1 name2 h
  unfold dns_qp_getname
  rw [key name1 name2 h]

/-- Witness for C5 at concrete inputs: `'A' = 65` folds to `'a' = 97`, and
the names `"AB"` and `"ab"` get identical keys. -/
theorem C5_case_insensitive_witness :
    dns_qp_bits_for_byte.getD 65 0 = dns_qp_bits_for_byte.getD 97 0 ∧
    dns_qpkey_fromname [[65, 66]] = dns_qpkey_fromname [[97, 98]] := by
  constructor
  · have h := C5_case_insensitive.1 65 (by decide) (by decide)
    simpa using h
  · exact C5_case_insensitive.2.1 [[65, 66]] [[97, 98]] (by decide)

theorem qpkey_compare_loop_spec (a : List Nat) (la : Nat) (b : List Nat)
    (lb : Nat) :
    ∀ rem off,
      (qpkey_compare_loop a la b lb off rem = QPKEY_EQUAL ∧
        ∀ d, d < rem → qpkey_bit a la (off + d) = qpkey_bit b lb (off + d)) ∨
      (∃ d, d < rem ∧ qpkey_compare_loop a la b lb off rem = off + d ∧
        qpkey_bit a la (off + d) ≠ qpkey_bit b lb (off + d) ∧
        ∀ e, e < d → qpkey_bit a la (off + e) = qpkey_bit b lb (off + e)) := by
  intro rem
  induction rem with
  | zero =>
    intro off
    exact Or.inl ⟨rfl, fun d hd => absurd hd (Nat.not_lt_zero d)⟩
  | succ r ih =>
    intro off
    by_cases h : qpkey_bit a la off = qpkey_bit b lb off
    · have hloop : qpkey_compare_loop a la b lb off (r + 1) =
          qpkey_compare_loop a la b lb (off + 1) r := by
        simp [qpkey_compare_loop, h]
      rcases ih (off + 1) with ⟨heq, hall⟩ | ⟨d, hd, hval, hne, hbelow⟩
      · refine Or.inl ⟨hloop.trans heq, fun d hd => ?_⟩
        match d with
        | 0 => simpa using h
        | e + 1 =>
          have := hall e (by omega)
          have harith : off + 1 + e = off + (e + 1) := by omega
          rwa [harith] at this
      · refine Or.inr ⟨d + 1, by omega, ?_, ?_, ?_⟩
        · rw [hloop, hval]; omega
        · have harith : off + 1 + d = off + (d + 1) := by omega
          rwa [harith] at hne
        · intro e he
          match e with
          | 0 => simpa using h
          | f + 1 =>
            have := hbelow f (by omega)
            have harith : off + 1 + f = off + (f + 1) := by omega
            rwa [harith] at this
    · refine Or.inr ⟨0, by omega, ?_, by simpa using h,
        fun e he => absurd he (Nat.not_lt_zero e)⟩
      simp [qpkey_compare_loop, h]

theorem qpkey_bit_ge (key : List Nat) (keylen off : Nat) (h : keylen ≤ off) :
    qpkey_bit key keylen off = SHIFT_NOBYTE := by
  unfold qpkey_bit
  rw [if_neg (by omega)]

theorem qpkey_compare_spec (a : List Nat) (la : Nat) (b : List Nat) (lb : Nat) :
    (qpkey_compare a la b lb = QPKEY_EQUAL ∧
      ∀ off, qpkey_bit a la off = qpkey_bit b lb off) ∨
    (qpkey_compare a la b lb < max la lb ∧
      qpkey_bit a la (qpkey_compare a la b lb) ≠
        qpkey_bit b lb (qpkey_compare a la b lb) ∧
      ∀ e, e < qpkey_compare a la b lb →
        qpkey_bit a la e = qpkey_bit b lb e) := by
  rcases qpkey_compare_loop_spec a la b lb (max la lb) 0 with
    ⟨heq, hall⟩ | ⟨d, hd, hval, hne, hbelow⟩
  · refine Or.inl ⟨heq, fun off => ?_⟩
    by_cases hoff : off < max la lb
    · simpa using hall off hoff
    · rw [qpkey_bit_ge a la off (by omega), qpkey_bit_ge b lb off (by omega)]
  · have hq : qpkey_compare a la b lb = d := by
      unfold qpkey_compare; rw [hval]; omega
    refine Or.inr ⟨?_, ?_, ?_⟩
    · rw [hq]; exact hd
    · rw [hq]; simpa using hne
    · intro e he
      rw [hq] at he
      simpa using hbelow e he

theorem qpkey_compare_eq_of_bits (a : List Nat) (la : Nat) (b : List Nat)
    (lb : Nat) (h : ∀ off, qpkey_bit a la off = qpkey_bit b lb off) :
    qpkey_compare a la b lb = QPKEY_EQUAL := by
  rcases qpkey_compare_spec a la b lb with ⟨heq, _⟩ | ⟨_, hne, _⟩
  · exact heq
  · exact absurd (h _) hne

theorem qpkey_bit_pad (k : List Nat) (i off : Nat) :
    qpkey_bit (k ++ List.replicate i SHIFT_NOBYTE) (k.length + i) off =
      if off < k.length then k.getD off 0 else SHIFT_NOBYTE := by
  unfold qpkey_bit
  by_cases h1 : off < k.length
  · rw [if_pos (by omega), if_pos h1, List.getD_append _ _ _ _ h1]
  · rw [if_neg h1]
    by_cases h2 : off < k.length + i
    · rw [if_pos h2, List.getD_append_right _ _ _ _ (by omega)]
      have hlt : off - k.length < i := by omega
      simp [List.getD, List.getElem?_replicate, hlt]
    · rw [if_neg h2]

theorem trailing_nobyte_compare (k : List Nat) (i j : Nat) :
    qpkey_compare (k ++ List.replicate i SHIFT_NOBYTE) (k.length + i)
      (k ++ List.replicate j SHIFT_NOBYTE) (k.length + j) = QPKEY_EQUAL := by
  apply qpkey_compare_eq_of_bits
  intro off
  rw [qpkey_bit_pad, qpkey_bit_pad]

/-- C6: `dns_qpkey_fromname` writes one `SHIFT_NOBYTE` terminator after
each label plus one extra trailing `SHIFT_NOBYTE` and returns the length
excluding that trailing marker; `qpkey_compare`, which pads positions past
a key's length with `SHIFT_NOBYTE` through `qpkey_bit`, returns the first
offset at which the padded keys differ, or the sentinel `QPKEY_EQUAL` when
they agree at every offset — so keys differing only in trailing
`SHIFT_NOBYTE` runs compare equal. -/
theorem C6_terminators_and_compare :
    (∀ name : List (List Nat),
       (dns_qpkey_fromname name).1 =
         (name.reverse.map (fun l => label_bits l ++ [SHIFT_NOBYTE])).flatten ++
           [SHIFT_NOBYTE] ∧
       (dns_qpkey_fromname name).1.length = (dns_qpkey_fromname name).2 + 1) ∧
    (∀ (a : List Nat) (la : Nat) (b : List Nat) (lb : Nat),
       (qpkey_compare a la b lb = QPKEY_EQUAL ∧
         ∀ off, qpkey_bit a la off = qpkey_bit b lb off) ∨
       (qpkey_compare a la b lb < max la lb ∧
         qpkey_bit a la (qpkey_compare a la b lb) ≠
           qpkey_bit b lb (qpkey_compare a la b lb) ∧
         ∀ e, e < qpkey_compare a la b lb →
           qpkey_bit a la e = qpkey_bit b lb e)) ∧
    (∀ (k : List Nat) (i j : Nat),
       qpkey_compare (k ++ List.replicate i SHIFT_NOBYTE) (k.length + i)
         (k ++ List.replicate j SHIFT_NOBYTE) (k.length + j) = QPKEY_EQUAL) := by
  refine ⟨fun name => ⟨(fromname_spec name).1, ?_⟩, qpkey_compare_spec,
    trailing_nobyte_compare⟩
  rw [(fromname_spec name).1, (fromname_spec name).2]
  simp

set_option maxRecDepth 100000 in
/-- Witness for C6 at concrete inputs: the name `"b.a"` (labels `b`, `a`)
yields the key `a · NOBYTE · b · NOBYTE` plus the trailing marker, and a
key compares equal to itself extended by trailing `SHIFT_NOBYTE`s. -/
theorem C6_terminators_and_compare_witness :
    (dns_qpkey_fromname [[98], [97]]).1 =
      [18, SHIFT_NOBYTE, 19, SHIFT_NOBYTE, SHIFT_NOBYTE] ∧
    (dns_qpkey_fromname [[98], [97]]).2 = 4 ∧
    qpkey_compare [18, SHIFT_NOBYTE] 2 [18, SHIFT_NOBYTE, SHIFT_NOBYTE] 3 =
      QPKEY_EQUAL := by
  refine ⟨by decide, by decide, ?_⟩
  have h := C6_terminators_and_compare.2.2 [18, SHIFT_NOBYTE] 0 1
  simpa using h

/-! ### State-access lemmas -/

theorem usage_get_set_self (qp : Qp) (c : Nat) (u : QpUsage)
    (h : c < qp.usage.length) : usage_get (usage_set qp c u) c = u := by
  simp [usage_get, usage_set, List.getD, List.getElem?_set, h]

theorem usage_get_set_ne (qp : Qp) (c c' : Nat) (u : QpUsage) (h : c ≠ c') :
    usage_get (usage_set qp c u) c' = usage_get qp c' := by
  simp [usage_get, usage_set, List.getD, List.getElem?_set_ne h]

theorem chunk_discount_usage (qp : Qp) (c : Nat) :
    (chunk_discount qp c).usage = qp.usage := by
  unfold chunk_discount; split <;> rfl

theorem chunk_discount_base (qp : Qp) (c : Nat) :
    (chunk_discount qp c).base = qp.base := by
  unfold chunk_discount; split <;> rfl

theorem chunk_discount_of_phase (qp : Qp) (c : Nat)
    (h : (usage_get qp c).phase ≠ 0) : chunk_discount qp c = qp := by
  unfold chunk_discount; rw [if_neg h]

theorem chunk_free_usage_get_self (qp : Qp) (c : Nat)
    (h : c < qp.usage.length) : usage_get (chunk_free qp c) c = {} := by
  unfold chunk_free
  have : ((chunk_discount qp c).usage.set c {}).getD c {} = {} := by
    rw [chunk_discount_usage]
    simp [List.getD, List.getElem?_set, h]
  simpa [usage_get] using this

theorem chunk_free_usage_get_ne (qp : Qp) (c c' : Nat) (h : c ≠ c') :
    usage_get (chunk_free qp c) c' = usage_get qp c' := by
  unfold chunk_free
  simp [usage_get, chunk_discount_usage, List.getD, List.getElem?_set_ne h]

theorem chunk_free_base_get_self (qp : Qp) (c : Nat)
    (h : c < qp.base.length) : (chunk_free qp c).base.getD c none = none := by
  unfold chunk_free
  simp [chunk_discount_base, List.getD, List.getElem?_set, h]

theorem chunk_free_base_get_ne (qp : Qp) (c c' : Nat) (h : c ≠ c') :
    (chunk_free qp c).base.getD c' none = qp.base.getD c' none := by
  unfold chunk_free
  simp [chunk_discount_base, List.getD, List.getElem?_set_ne h]

theorem chunk_free_of_phase (qp : Qp) (c : Nat)
    (h : (usage_get qp c).phase ≠ 0) :
    chunk_free qp c =
      { qp with base := qp.base.set c none, usage := qp.usage.set c {} } := by
  unfold chunk_free
  rw [chunk_discount_of_phase qp c h]

theorem reclaim_loop_spec (qp0 : Qp) (phase : Nat) (hphase : phase ≠ 0)
    (hu : qp0.usage.length = qp0.chunk_max)
    (hb : qp0.base.length = qp0.chunk_max) :
    ∀ n, n ≤ qp0.chunk_max →
    ∀ out, out = (List.range n).foldl (reclaim_step phase) (qp0, false) →
      out.1 = { qp0 with base := out.1.base, usage := out.1.usage } ∧
      out.1.usage.length = qp0.usage.length ∧
      out.1.base.length = qp0.base.length ∧
      (∀ c, n ≤ c → usage_get out.1 c = usage_get qp0 c ∧
         out.1.base.getD c none = qp0.base.getD c none) ∧
      (∀ c, c < n →
        (((usage_get qp0 c).phase = phase ∧ (usage_get qp0 c).snapshot = true ∧
           usage_get out.1 c = { usage_get qp0 c with snapfree := true } ∧
           out.1.base.getD c none = qp0.base.getD c none) ∨
         ((usage_get qp0 c).phase = phase ∧ (usage_get qp0 c).snapshot = false ∧
           usage_get out.1 c = {} ∧ out.1.base.getD c none = none) ∨
         ((usage_get qp0 c).phase ≠ phase ∧
           usage_get out.1 c = usage_get qp0 c ∧
           out.1.base.getD c none = qp0.base.getD c none))) ∧
      (out.2 = true ↔ ∃ c, c < n ∧ (usage_get qp0 c).phase ≠ 0 ∧
         (usage_get qp0 c).phase ≠ phase) := by
  intro n
  induction n with
  | zero =>
    intro _ out hout
    subst hout
    refine ⟨rfl, rfl, rfl, fun c _ => ⟨rfl, rfl⟩,
      fun c hc => absurd hc (Nat.not_lt_zero c), ?_⟩
    simp
  | succ n ih =>
    intro hn out hout
    have hn' : n ≤ qp0.chunk_max := by omega
    obtain ⟨hstruct, hulen, hblen, huntouched, hdone, hmore⟩ :=
      ih hn' _ rfl
    set prev := (List.range n).foldl (reclaim_step phase) (qp0, false) with hprev
    have hstep : out = reclaim_step phase prev n := by
      rw [hout, List.range_succ, List.foldl_append, List.foldl_cons,
        List.foldl_nil]
    have hread : usage_get prev.1 n = usage_get qp0 n :=
      (huntouched n (Nat.le_refl n)).1
    have hnlt : n < qp0.chunk_max := hn
    by_cases hp : (usage_get qp0 n).phase = phase
    · by_cases hs : (usage_get qp0 n).snapshot = true
      · -- snapshot branch: flag snapfree, keep the chunk
        have hout1 : out = (usage_set prev.1 n
            { usage_get qp0 n with snapfree := true }, prev.2) := by
          rw [hstep]
          unfold reclaim_step
          simp [hread, hp, hs]
        refine ⟨?_, ?_, ?_, ?_, ?_, ?_⟩
        · rw [hout1]
          rw [hstruct]
          try rfl
        · rw [hout1]; simpa [usage_set] using hulen
        · rw [hout1]; simpa [usage_set] using hblen
        · intro c hc
          rw [hout1]
          constructor
          · rw [usage_get_set_ne _ _ _ _ (by omega)]
            exact (huntouched c (by omega)).1
          · simpa [usage_set] using (huntouched c (by omega)).2
        · intro c hc
          rcases Nat.lt_or_ge c n with hcn | hcn
          · rcases hdone c hcn with h1 | h2 | h3
            · refine Or.inl ⟨h1.1, h1.2.1, ?_, ?_⟩
              · rw [hout1, usage_get_set_ne _ _ _ _ (by omega)]
                exact h1.2.2.1
              · rw [hout1]; simpa [usage_set] using h1.2.2.2
            · refine Or.inr (Or.inl ⟨h2.1, h2.2.1, ?_, ?_⟩)
              · rw [hout1, usage_get_set_ne _ _ _ _ (by omega)]
                exact h2.2.2.1
              · rw [hout1]; simpa [usage_set] using h2.2.2.2
            · refine Or.inr (Or.inr ⟨h3.1, ?_, ?_⟩)
              · rw [hout1, usage_get_set_ne _ _ _ _ (by omega)]
                exact h3.2.1
              · rw [hout1]; simpa [usage_set] using h3.2.2
          · have hceq : c = n := by omega
            subst hceq
            refine Or.inl ⟨hp, hs, ?_, ?_⟩
            · rw [hout1, usage_get_set_self]
              rw [hulen, hu]; exact hnlt
            · rw [hout1]
              simpa [usage_set] using (huntouched c (Nat.le_refl c)).2
        · rw [hout1]
          dsimp only
          rw [hmore]
          constructor
          · rintro ⟨c, hc, hrest⟩
            exact ⟨c, by omega, hrest⟩
          · rintro ⟨c, hc, hrest⟩
            refine ⟨c, ?_, hrest⟩
            rcases Nat.lt_or_ge c n with h | h
            · exact h
            · have : c = n := by omega
              subst this
              exact absurd hp hrest.2
      · -- free branch
        have hs' : (usage_get qp0 n).snapshot = false := by
          revert hs; cases (usage_get qp0 n).snapshot <;> simp
        have hphase_n : (usage_get prev.1 n).phase ≠ 0 := by
          rw [hread, hp]; exact hphase
        have hout1 : out = (chunk_free prev.1 n, prev.2) := by
          rw [hstep]
          unfold reclaim_step
          simp [hread, hp, hs']
        have hfree : chunk_free prev.1 n =
            { prev.1 with base := prev.1.base.set n none,
                          usage := prev.1.usage.set n {} } :=
          chunk_free_of_phase prev.1 n hphase_n
        refine ⟨?_, ?_, ?_, ?_, ?_, ?_⟩
        · rw [hout1]
          dsimp only
          rw [hfree, hstruct]
          try rfl
        · rw [hout1]; dsimp only; rw [hfree]; simpa using hulen
        · rw [hout1]; dsimp only; rw [hfree]; simpa using hblen
        · intro c hc
          rw [hout1]
          dsimp only
          constructor
          · rw [chunk_free_usage_get_ne _ _ _ (by omega)]
            exact (huntouched c (by omega)).1
          · rw [chunk_free_base_get_ne _ _ _ (by omega)]
            exact (huntouched c (by omega)).2
        · intro c hc
          rcases Nat.lt_or_ge c n with hcn | hcn
          · rcases hdone c hcn with h1 | h2 | h3
            · refine Or.inl ⟨h1.1, h1.2.1, ?_, ?_⟩
              · rw [hout1]; dsimp only
                rw [chunk_free_usage_get_ne _ _ _ (by omega)]
                exact h1.2.2.1
              · rw [hout1]; dsimp only
                rw [chunk_free_base_get_ne _ _ _ (by omega)]
                exact h1.2.2.2
            · refine Or.inr (Or.inl ⟨h2.1, h2.2.1, ?_, ?_⟩)
              · rw [hout1]; dsimp only
                rw [chunk_free_usage_get_ne _ _ _ (by omega)]
                exact h2.2.2.1
              · rw [hout1]; dsimp only
                rw [chunk_free_base_get_ne _ _ _ (by omega)]
                exact h2.2.2.2
            · refine Or.inr (Or.inr ⟨h3.1, ?_, ?_⟩)
              · rw [hout1]; dsimp only
                rw [chunk_free_usage_get_ne _ _ _ (by omega)]
                exact h3.2.1
              · rw [hout1]; dsimp only
                rw [chunk_free_base_get_ne _ _ _ (by omega)]
                exact h3.2.2
          · have hceq : c = n := by omega
            subst hceq
            refine Or.inr (Or.inl ⟨hp, hs', ?_, ?_⟩)
            · rw [hout1]; dsimp only
              rw [chunk_free_usage_get_self]
              rw [hulen, hu]; exact hnlt
            · rw [hout1]; dsimp only
              rw [chunk_free_base_get_self]
              rw [hblen, hb]; exact hnlt
        · rw [hout1]
          dsimp only
          rw [hmore]
          constructor
          · rintro ⟨c, hc, hrest⟩
            exact ⟨c, by omega, hrest⟩
          · rintro ⟨c, hc, hrest⟩
            refine ⟨c, ?_, hrest⟩
            rcases Nat.lt_or_ge c n with h | h
            · exact h
            · have : c = n := by omega
              subst this
              exact absurd hp hrest.2
    · by_cases hz : (usage_get qp0 n).phase = 0
      · -- phase 0: skip
        have hout1 : out = (prev.1, prev.2) := by
          rw [hstep]
          unfold reclaim_step
          simp [hread, hp, hz]
          intro heq
          exact absurd heq.symm hphase
        refine ⟨?_, ?_, ?_, ?_, ?_, ?_⟩
        · rw [hout1]; exact hstruct
        · rw [hout1]; exact hulen
        · rw [hout1]; exact hblen
        · intro c hc
          rw [hout1]
          exact huntouched c (by omega)
        · intro c hc
          rcases Nat.lt_or_ge c n with hcn | hcn
          · rw [hout1]; exact hdone c hcn
          · have hceq : c = n := by omega
            subst hceq
            refine Or.inr (Or.inr ⟨hp, ?_, ?_⟩)
            · rw [hout1]; exact (huntouched c (Nat.le_refl c)).1
            · rw [hout1]; exact (huntouched c (Nat.le_refl c)).2
        · rw [hout1]
          dsimp only
          rw [hmore]
          constructor
          · rintro ⟨c, hc, hrest⟩
            exact ⟨c, by omega, hrest⟩
          · rintro ⟨c, hc, hrest⟩
            refine ⟨c, ?_, hrest⟩
            rcases Nat.lt_or_ge c n with h | h
            · exact h
            · have : c = n := by omega
              subst this
              exact absurd hz hrest.1
      · -- later work: set more
        have hout1 : out = (prev.1, true) := by
          rw [hstep]
          unfold reclaim_step
          simp [hread, hp, hz]
        refine ⟨?_, ?_, ?_, ?_, ?_, ?_⟩
        · rw [hout1]; exact hstruct
        · rw [hout1]; exact hulen
        · rw [hout1]; exact hblen
        · intro c hc
          rw [hout1]
          exact huntouched c (by omega)
        · intro c hc
          rcases Nat.lt_or_ge c n with hcn | hcn
          · rw [hout1]; exact hdone c hcn
          · have hceq : c = n := by omega
            subst hceq
            refine Or.inr (Or.inr ⟨hp, ?_, ?_⟩)
            · rw [hout1]; exact (huntouched c (Nat.le_refl c)).1
            · rw [hout1]; exact (huntouched c (Nat.le_refl c)).2
        · constructor
          · intro _
            exact ⟨n, by omega, hz, hp⟩
          · intro _
            rw [hout1]

set_option maxRecDepth 100000 in
/-- Counterexample to C8 as stated: on `qp_c8_pending`, whose only queued
chunk waits at phase 1, `reclaim_chunks` for phase 2 returns `true`
although no chunk of a phase later than 2 remains (chunk 0 has phase 1,
chunk 1 has phase 0, and the state is left unchanged). -/
theorem C8_reclaim_counterexample :
    (reclaim_chunks qp_c8_pending 2).2 = true ∧
    qp_c8_pending.chunk_max = 2 ∧
    (usage_get qp_c8_pending 0).phase = 1 ∧
    (usage_get qp_c8_pending 1).phase = 0 ∧
    (usage_get (reclaim_chunks qp_c8_pending 2).1 0).phase = 1 ∧
    (usage_get (reclaim_chunks qp_c8_pending 2).1 1).phase = 0 := by
  refine ⟨?_, rfl, rfl, rfl, ?_, ?_⟩ <;> decide

/-- C8 (amended): for a real QSBR phase `p ≠ 0`, `reclaim_chunks(qp, p)`
frees exactly those chunks whose usage phase equals `p` and whose snapshot
flag is clear, sets `snapfree` (without freeing) on chunks whose phase
equals `p` but are held by a snapshot, leaves every other chunk unchanged,
and returns `true` if and only if some chunk with a nonzero phase
different from `p` — not necessarily a numerically later one — remains to
be reclaimed. -/
theorem C8_reclaim_chunks (qp : Qp) (phase : Nat) (hphase : phase ≠ 0)
    (hu : qp.usage.length = qp.chunk_max)
    (hb : qp.base.length = qp.chunk_max) :
    (∀ c, c < qp.chunk_max →
       ((usage_get qp c).phase = phase → (usage_get qp c).snapshot = false →
          usage_get (reclaim_chunks qp phase).1 c = {} ∧
          (reclaim_chunks qp phase).1.base.getD c none = none) ∧
       ((usage_get qp c).phase = phase → (usage_get qp c).snapshot = true →
          usage_get (reclaim_chunks qp phase).1 c =
            { usage_get qp c with snapfree := true } ∧
          (reclaim_chunks qp phase).1.base.getD c none =
            qp.base.getD c none) ∧
       ((usage_get qp c).phase ≠ phase →
          usage_get (reclaim_chunks qp phase).1 c = usage_get qp c ∧
          (reclaim_chunks qp phase).1.base.getD c none =
            qp.base.getD c none)) ∧
    ((reclaim_chunks qp phase).2 = true ↔
       ∃ c, c < qp.chunk_max ∧ (usage_get qp c).phase ≠ 0 ∧
         (usage_get qp c).phase ≠ phase) := by
  obtain ⟨_, _, _, _, hdone, hmore⟩ :=
    reclaim_loop_spec qp phase hphase hu hb qp.chunk_max (Nat.le_refl _) _ rfl
  constructor
  · intro c hc
    rcases hdone c hc with h1 | h2 | h3
    · refine ⟨?_, ?_, ?_⟩
      · intro _ hsnap
        rw [h1.2.1] at hsnap
        cases hsnap
      · intro _ _
        exact ⟨h1.2.2.1, h1.2.2.2⟩
      · intro hne
        exact absurd h1.1 hne
    · refine ⟨?_, ?_, ?_⟩
      · intro _ _
        exact ⟨h2.2.2.1, h2.2.2.2⟩
      · intro _ hsnap
        rw [h2.2.1] at hsnap
        cases hsnap
      · intro hne
        exact absurd h2.1 hne
    · refine ⟨?_, ?_, ?_⟩
      · intro hp _
        exact absurd hp h3.1
      · intro hp _
        exact absurd hp h3.1
      · intro _
        exact ⟨h3.2.1, h3.2.2⟩
  · exact hmore

set_option maxRecDepth 100000 in
/-- Witness for C8 at a concrete input: on `qp_c8_phase3`, reclaiming
phase 3 frees the queued chunk 0 and reports no further work. -/
theorem C8_reclaim_chunks_witness :
    usage_get (reclaim_chunks qp_c8_phase3 3).1 0 = {} ∧
    (reclaim_chunks qp_c8_phase3 3).1.base.getD 0 none = none ∧
    ((reclaim_chunks qp_c8_phase3 3).2 = true ↔
       ∃ c, c < qp_c8_phase3.chunk_max ∧
         (usage_get qp_c8_phase3 c).phase ≠ 0 ∧
         (usage_get qp_c8_phase3 c).phase ≠ 3) := by
  obtain ⟨hper, hmore⟩ :=
    C8_reclaim_chunks qp_c8_phase3 3 (by decide) (by decide) (by decide)
  have h0 := (hper 0 (by decide)).1 (by decide) (by decide)
  exact ⟨h0.1, h0.2, hmore⟩

/-- C9: on an empty trie (no root node), `dns_qp_getkey` returns `NOTFOUND`
for every search key, and `dns_qp_deletekey` returns `NOTFOUND` for every
search key and leaves the trie state unchanged. -/
theorem C9_empty_trie (fuel : Nat) (qp : Qp) (key : List Nat) (keylen : Nat)
    (h : get_root_valid qp = false) :
    dns_qp_getkey fuel qp key keylen = some (QpResult.NOTFOUND, none) ∧
    dns_qp_deletekey fuel qp key keylen = some (QpResult.NOTFOUND, qp) := by
  unfold dns_qp_getkey dns_qp_deletekey
  rw [h]
  exact ⟨rfl, rfl⟩

/-- Witness for C9: a freshly created trie is empty, and lookup and delete
of the key `[2]` on it return `NOTFOUND` without changing the state. -/
theorem C9_empty_trie_witness :
    dns_qp_getkey 3 (dns_qp_create (fun _ _ => [])) [2] 1 =
      some (QpResult.NOTFOUND, none) ∧
    dns_qp_deletekey 3 (dns_qp_create (fun _ _ => [])) [2] 1 =
      some (QpResult.NOTFOUND, dns_qp_create (fun _ _ => [])) :=
  C9_empty_trie 3 (dns_qp_create (fun _ _ => [])) [2] 1 (by decide)

/-- C2: inserting a leaf whose key compares `QPKEY_EQUAL` to the key of the
leaf found by the read-only descent returns `EXISTS` and leaves the entire
trie state — root ref, all nodes, every counter — unchanged. -/
theorem C2_insert_exists (fuel : Nat) (qp : Qp) (pval ival : Nat) (nref : Nat)
    (hne : ¬qp.leaf_count = 0)
    (hdesc : insert_descend qp (leaf_qpkey qp (make_leaf pval ival))
               (leaf_qpkey qp (make_leaf pval ival)).length fuel qp.root_ref =
             some nref)
    (heq : qpkey_compare (leaf_qpkey qp (make_leaf pval ival))
             (leaf_qpkey qp (make_leaf pval ival)).length
             (leaf_qpkey qp (ref_get qp nref))
             (leaf_qpkey qp (ref_get qp nref)).length = QPKEY_EQUAL) :
    dns_qp_insert fuel qp pval ival = some (QpResult.EXISTS, qp) := by
  unfold dns_qp_insert
  rw [if_neg hne]
  simp only [hdesc, heq, if_pos]

/-- Witness for C2: re-inserting the leaf `(3, 9)` of the one-leaf trie
`qp_single` yields `EXISTS` with the state unchanged. -/
theorem C2_insert_exists_witness :
    dns_qp_insert 1 qp_single 3 9 = some (QpResult.EXISTS, qp_single) :=
  C2_insert_exists 1 qp_single 3 9 0 (by decide) (by decide) (by decide)
theorem popcount_go_congr :
    ∀ f1 f2 n, n ≤ f1 → n ≤ f2 → popcount_go f1 n = popcount_go f2 n := by
  intro f1
  induction f1 with
  | zero =>
    intro f2 n h1 _
    have : n = 0 := by omega
    subst this
    cases f2 with
    | zero => rfl
    | succ f2 => simp [popcount_go]
  | succ f1 ih =>
    intro f2 n h1 h2
    cases f2 with
    | zero =>
      have : n = 0 := by omega
      subst this
      simp [popcount_go]
    | succ f2 =>
      by_cases h : n = 0
      · subst h; simp [popcount_go]
      · simp only [popcount_go, if_neg h]
        have hd : n / 2 < n := Nat.div_lt_self (by omega) (by omega)
        rw [ih f2 (n / 2) (by omega) (by omega)]

theorem popcount_unfold (n : Nat) : popcount n = n % 2 + popcount (n / 2) := by
  cases n with
  | zero => rfl
  | succ m =>
    show popcount_go (m + 1) (m + 1) = (m + 1) % 2 + popcount ((m + 1) / 2)
    simp only [popcount_go]
    rw [if_neg (Nat.succ_ne_zero m)]
    congr 1
    exact popcount_go_congr m ((m + 1) / 2) ((m + 1) / 2) (by omega)
      (Nat.le_refl _)

theorem popcount_zero : popcount 0 = 0 := rfl

theorem popcount_pos (n : Nat) (h : n ≠ 0) : 0 < popcount n := by
  induction n using Nat.strong_induction_on with
  | _ n ih =>
    rw [popcount_unfold]
    rcases Nat.lt_or_ge n 2 with h2 | h2
    · interval_cases n
      · exact absurd rfl h
      · simp [popcount_zero]
    · have hdiv : n / 2 ≠ 0 := by
        have := Nat.div_pos (by omega : 2 ≤ n) (by omega : 0 < 2)
        omega
      have := ih (n / 2) (Nat.div_lt_self (by omega) (by omega)) hdiv
      omega

theorem popcount_add_mul_pow (b : Nat) :
    ∀ a d : Nat, a < 2 ^ b →
      popcount (a + 2 ^ b * d) = popcount a + popcount d := by
  induction b with
  | zero =>
    intro a d ha
    have : a = 0 := by omega
    subst this
    simp [popcount_zero]
  | succ b ih =>
    intro a d ha
    have hmod : (a + 2 ^ (b + 1) * d) % 2 = a % 2 := by
      have : 2 ^ (b + 1) * d = 2 * (2 ^ b * d) := by ring
      omega
    have hdiv : (a + 2 ^ (b + 1) * d) / 2 = a / 2 + 2 ^ b * d := by
      have : 2 ^ (b + 1) * d = 2 * (2 ^ b * d) := by ring
      omega
    rw [popcount_unfold, hmod, hdiv, ih (a / 2) d (by omega),
      popcount_unfold a]
    omega

theorem mod_pow_split (y b c : Nat) (h : b ≤ c) :
    y % 2 ^ c = y % 2 ^ b + 2 ^ b * ((y / 2 ^ b) % 2 ^ (c - b)) := by
  have hc : 2 ^ c = 2 ^ b * 2 ^ (c - b) := by
    rw [← pow_add]
    congr 1
    omega
  rw [hc, Nat.mod_mul]

theorem testBit_div_two_pow (n m k : Nat) :
    (n / 2 ^ m).testBit k = n.testBit (m + k) := by
  rw [Nat.testBit, Nat.shiftRight_eq_div_pow]
  rw [Nat.testBit, Nat.shiftRight_eq_div_pow, Nat.div_div_eq_div_mul, ← pow_add]

theorem popcount_mod_le (y b c : Nat) (h : b ≤ c) :
    popcount (y % 2 ^ b) ≤ popcount (y % 2 ^ c) := by
  rw [mod_pow_split y b c h,
    popcount_add_mul_pow b _ _ (Nat.mod_lt _ (Nat.pos_pow_of_pos b (by omega)))]
  omega

theorem popcount_mod_lt (y b c t : Nat) (hbt : b ≤ t) (htc : t < c)
    (hset : y.testBit t = true) :
    popcount (y % 2 ^ b) < popcount (y % 2 ^ c) := by
  rw [mod_pow_split y b c (by omega),
    popcount_add_mul_pow b _ _ (Nat.mod_lt _ (Nat.pos_pow_of_pos b (by omega)))]
  have hbit : ((y / 2 ^ b) % 2 ^ (c - b)).testBit (t - b) = true := by
    rw [Nat.testBit_mod_two_pow, testBit_div_two_pow]
    have : b + (t - b) = t := by omega
    rw [this, hset]
    simp
    omega
  have hne : (y / 2 ^ b) % 2 ^ (c - b) ≠ 0 := by
    intro h0
    rw [h0, Nat.zero_testBit] at hbit
    cases hbit
  have := popcount_pos _ hne
  omega

theorem twig_pos_lt_size (n : QpNode) (bit : Nat) (h1 : 1 ≤ bit)
    (h2 : bit < SHIFT_OFFSET) (hset : branch_has_twig n bit = true) :
    branch_twig_pos n bit < branch_twigs_size n := by
  unfold branch_has_twig at hset
  unfold branch_twig_pos branch_twigs_size
  have hy : ((branch_index n) >>> 1).testBit (bit - 1) = true := by
    rw [Nat.testBit_shiftRight]
    have harith : 1 + (bit - 1) = bit := by omega
    rw [harith]
    exact hset
  exact popcount_mod_lt _ (bit - 1) (SHIFT_OFFSET - 1) (bit - 1)
    (Nat.le_refl _) (by unfold SHIFT_OFFSET at *; omega) hy

/-- C10: one step of `dns_qp_insert`'s initial non-mutating descent at a
branch node uses twig position `branch_twig_pos` when the search key's bit
is present in the bitmap and position 0 otherwise, and in both cases
(given a twig vector of at least one twig, as every well-formed branch
has, and a search bit that is a valid shift) that position is strictly
below the branch's twig-vector size — in particular also when the search
bit is greater than every bit set in the bitmap. -/
theorem C10_descent_in_bounds (qp : Qp) (key : List Nat)
    (keylen fuel nref : Nat)
    (hbr : is_branch (ref_get qp nref) = true)
    (hsize : 1 ≤ branch_twigs_size (ref_get qp nref))
    (hlo : 1 ≤ branch_keybit (ref_get qp nref) key keylen)
    (hhi : branch_keybit (ref_get qp nref) key keylen < SHIFT_OFFSET) :
    (if branch_has_twig (ref_get qp nref)
          (branch_keybit (ref_get qp nref) key keylen) then
       branch_twig_pos (ref_get qp nref)
         (branch_keybit (ref_get qp nref) key keylen)
     else 0) < branch_twigs_size (ref_get qp nref) ∧
    insert_descend qp key keylen (fuel + 1) nref =
      insert_descend qp key keylen fuel
        (branch_twigs_ref (ref_get qp nref) +
          (if branch_has_twig (ref_get qp nref)
                (branch_keybit (ref_get qp nref) key keylen) then
             branch_twig_pos (ref_get qp nref)
               (branch_keybit (ref_get qp nref) key keylen)
           else 0)) := by
  constructor
  · by_cases h : branch_has_twig (ref_get qp nref)
        (branch_keybit (ref_get qp nref) key keylen) = true
    · rw [if_pos h]
      exact twig_pos_lt_size _ _ hlo hhi h
    · rw [if_neg h]
      omega
  · conv_lhs => unfold insert_descend
    rw [if_pos hbr]

/-- Witness for C10 on the concrete two-leaf trie `qp_branch2`, searching
for the key `[2]`: the twig for bit 2 is at position 0 of a vector of
size 2, and the descent step follows it. -/
theorem C10_descent_in_bounds_witness :
    (if branch_has_twig (ref_get qp_branch2 0)
          (branch_keybit (ref_get qp_branch2 0) [2] 1) then
       branch_twig_pos (ref_get qp_branch2 0)
         (branch_keybit (ref_get qp_branch2 0) [2] 1)
     else 0) < branch_twigs_size (ref_get qp_branch2 0) :=
  (C10_descent_in_bounds qp_branch2 [2] 1 1 0 (by decide)
    (by decide) (by decide) (by decide)).1

theorem popcount_split (x k : Nat) :
    popcount x = popcount (x % 2 ^ k) + popcount (x / 2 ^ k) := by
  conv_lhs => rw [← Nat.mod_add_div x (2 ^ k)]
  exact popcount_add_mul_pow k _ _ (Nat.mod_lt _ (Nat.pos_pow_of_pos k (by omega)))

theorem popcount_le_of_subset (x : Nat) :
    ∀ y, (∀ i, x.testBit i = true → y.testBit i = true) →
      popcount x ≤ popcount y := by
  induction x using Nat.strong_induction_on with
  | _ x ih =>
    intro y h
    by_cases hx : x = 0
    · subst hx; simp [popcount_zero]
    · rw [popcount_unfold x, popcount_unfold y]
      have hhalf : popcount (x / 2) ≤ popcount (y / 2) := by
        apply ih (x / 2) (Nat.div_lt_self (by omega) (by omega))
        intro i hi
        have := h (i + 1) (by rwa [Nat.testBit_succ])
        rwa [Nat.testBit_succ] at this
      have hpar : x % 2 ≤ y % 2 := by
        rcases Nat.mod_two_eq_zero_or_one x with hx2 | hx2
        · omega
        · have : x.testBit 0 = true := by
            rw [Nat.testBit_zero]
            simp [hx2]
          have := h 0 this
          rw [Nat.testBit_zero] at this
          simp at this
          omega
      omega

theorem popcount_two_bits (x s t : Nat) (hst : s ≠ t) (hs : x.testBit s = true)
    (ht : x.testBit t = true) : 2 ≤ popcount x := by
  wlog h : s < t generalizing s t
  · exact this t s (Ne.symm hst) ht hs (by omega)
  · have h1 : popcount (x % 2 ^ 0) < popcount (x % 2 ^ (s + 1)) :=
      popcount_mod_lt x 0 (s + 1) s (by omega) (by omega) hs
    have h2 : popcount (x % 2 ^ (s + 1)) < popcount (x % 2 ^ (t + 1)) :=
      popcount_mod_lt x (s + 1) (t + 1) t (by omega) (by omega) ht
    have h3 := popcount_split x (t + 1)
    have h0 : popcount (x % 2 ^ 0) = 0 := by
      have : x % 2 ^ 0 = 0 := by
        simp [Nat.mod_one]
      rw [this, popcount_zero]
    omega

theorem popcount_sub_two_pow (x t : Nat) (h : x.testBit t = true) :
    popcount (x - 2 ^ t) = popcount x - 1 ∧ 2 ^ t ≤ x := by
  have hbit : x / 2 ^ t % 2 = 1 := by
    have hh := @Nat.testBit_to_div_mod t x
    rw [h] at hh
    simpa using hh.symm
  have hsplit1 : x % 2 ^ (t + 1) = x % 2 ^ t + 2 ^ t * (x / 2 ^ t % 2) := by
    have := mod_pow_split x t (t + 1) (by omega)
    simpa using this
  have hx : x = x % 2 ^ t + 2 ^ t + 2 ^ (t + 1) * (x / 2 ^ (t + 1)) := by
    have hd := Nat.mod_add_div x (2 ^ (t + 1))
    rw [hsplit1, hbit] at hd
    omega
  have ha : x % 2 ^ t < 2 ^ t := Nat.mod_lt _ (Nat.pos_pow_of_pos t (by omega))
  have hpow : (2 : Nat) ^ (t + 1) = 2 ^ t * 2 := by ring
  have hxval : popcount x = popcount (x % 2 ^ t) + 1 + popcount (x / 2 ^ (t + 1)) := by
    conv_lhs => rw [hx]
    have : x % 2 ^ t + 2 ^ t + 2 ^ (t + 1) * (x / 2 ^ (t + 1)) =
        x % 2 ^ t + 2 ^ t * (1 + 2 * (x / 2 ^ (t + 1))) := by
      rw [hpow]; ring
    rw [this, popcount_add_mul_pow t _ _ ha]
    have : popcount (1 + 2 * (x / 2 ^ (t + 1))) = 1 + popcount (x / 2 ^ (t + 1)) := by
      rw [popcount_unfold]
      have h1 : (1 + 2 * (x / 2 ^ (t + 1))) % 2 = 1 := by omega
      have h2 : (1 + 2 * (x / 2 ^ (t + 1))) / 2 = x / 2 ^ (t + 1) := by omega
      rw [h1, h2]
    omega
  have hsub : x - 2 ^ t = x % 2 ^ t + 2 ^ t * (2 * (x / 2 ^ (t + 1))) := by
    have hbridge : 2 ^ t * (2 * (x / 2 ^ (t + 1))) =
        2 ^ (t + 1) * (x / 2 ^ (t + 1)) := by ring
    omega
  have hsubval : popcount (x - 2 ^ t) =
      popcount (x % 2 ^ t) + popcount (x / 2 ^ (t + 1)) := by
    rw [hsub, popcount_add_mul_pow t _ _ ha]
    have : popcount (2 * (x / 2 ^ (t + 1))) = popcount (x / 2 ^ (t + 1)) := by
      rw [popcount_unfold]
      have h1 : 2 * (x / 2 ^ (t + 1)) % 2 = 0 := by omega
      have h2 : 2 * (x / 2 ^ (t + 1)) / 2 = x / 2 ^ (t + 1) := by omega
      rw [h1, h2]
      omega
    omega
  constructor
  · omega
  · omega

/-! ### Heap access and `heap_ok` preservation -/

theorem list_getD_set_cases {α : Type} (l : List α) (i j : Nat) (x d : α) :
    (l.set i x).getD j d = x ∨ (l.set i x).getD j d = l.getD j d := by
  by_cases hij : i = j
  · subst hij
    by_cases hlen : i < l.length
    · left
      simp [List.getD, List.getElem?_set, hlen]
    · right
      rw [List.set_eq_of_length_le (by omega)]
  · right
    simp [List.getD, List.getElem?_set_ne hij]

theorem ref_get_eq_of_base {qp qp' : Qp} (h : qp'.base = qp.base) (r : Nat) :
    ref_get qp' r = ref_get qp r := by
  unfold ref_get get_chunk
  rw [h]

theorem heap_ok_of_base {qp qp' : Qp} (h : qp'.base = qp.base) :
    heap_ok qp → heap_ok qp' := by
  intro hok r
  rw [ref_get_eq_of_base h]
  exact hok r

theorem ref_get_set_cases (qp : Qp) (r r' : Nat) (n : QpNode) :
    ref_get (ref_set qp r n) r' = n ∨
    ref_get (ref_set qp r n) r' = ref_get qp r' := by
  unfold ref_set ref_get get_chunk
  dsimp only
  by_cases hc : ref_chunk r = ref_chunk r'
  · rw [← hc]
    rcases list_getD_set_cases qp.base (ref_chunk r)
        (ref_chunk r) (some (((qp.base.getD (ref_chunk r) none).getD []).set
          (ref_cell r) n)) none with hset | hset
    · rw [hset]
      simp only [Option.getD_some]
      rcases list_getD_set_cases ((qp.base.getD (ref_chunk r) none).getD [])
          (ref_cell r) (ref_cell r') n zero_node with h2 | h2
      · left; exact h2
      · right; rw [h2, hc]
    · right; rw [hset, hc]
  · right
    simp [List.getD, List.getElem?_set_ne hc]

theorem node_ok_zero : node_ok zero_node = true := rfl

theorem heap_ok_ref_set {qp : Qp} (h : heap_ok qp) {n : QpNode}
    (hn : node_ok n = true) (r : Nat) : heap_ok (ref_set qp r n) := by
  intro r'
  rcases ref_get_set_cases qp r r' n with he | he <;> rw [he]
  · exact hn
  · exact h r'

theorem heap_ok_foldl_set (l : List Nat) (g : Nat → Nat) (f : Nat → QpNode)
    (hf : ∀ i, node_ok (f i) = true) :
    ∀ qp : Qp, heap_ok qp →
      heap_ok (l.foldl (fun qp i => ref_set qp (g i) (f i)) qp) := by
  induction l with
  | nil => intro qp h; exact h
  | cons a l ih =>
    intro qp h
    exact ih _ (heap_ok_ref_set h (hf a) _)

theorem heap_ok_zero_twigs {qp : Qp} (h : heap_ok qp) (r size : Nat) :
    heap_ok (zero_twigs qp r size) :=
  heap_ok_foldl_set (List.range size) (fun i => r + i) (fun _ => zero_node)
    (fun _ => node_ok_zero) qp h

theorem heap_ok_move_twigs {qp : Qp} (h : heap_ok qp) (dst src size : Nat) :
    heap_ok (move_twigs qp dst src size) := by
  unfold move_twigs
  apply heap_ok_foldl_set (List.range size) (fun i => dst + i)
    (fun i => ((List.range size).map (fun i => ref_get qp (src + i))).getD i
      zero_node) _ qp h
  intro i
  by_cases hi : i < size
  · have he : ((List.range size).map
        (fun i => ref_get qp (src + i))).getD i zero_node =
          ref_get qp (src + i) := by
      simp [List.getD, List.getElem?_map, List.getElem?_range, hi]
    dsimp only
    rw [he]
    exact h _
  · have he : ((List.range size).map
        (fun i => ref_get qp (src + i))).getD i zero_node = zero_node := by
      apply List.getD_eq_default
      simpa using (by omega : size ≤ i)
    dsimp only
    rw [he]
    exact node_ok_zero

theorem heap_ok_base_set_chunk {qp : Qp} (h : heap_ok qp) (c : Nat)
    (ch : List QpNode) (hch : ∀ i, node_ok (ch.getD i zero_node) = true) :
    heap_ok { qp with base := qp.base.set c (some ch) } := by
  intro r
  unfold ref_get get_chunk
  dsimp only
  rcases list_getD_set_cases qp.base c (ref_chunk r) (some ch) none with
    he | he
  · rw [he]
    simpa using hch (ref_cell r)
  · rw [he]
    exact h r

theorem heap_ok_base_set_none {qp : Qp} (h : heap_ok qp) (c : Nat) :
    heap_ok { qp with base := qp.base.set c none } := by
  intro r
  unfold ref_get get_chunk
  dsimp only
  rcases list_getD_set_cases qp.base c (ref_chunk r) none none with he | he
  · rw [he]
    exact node_ok_zero
  · rw [he]
    exact h r

theorem replicate_zero_getD (k i : Nat) :
    (List.replicate k zero_node).getD i zero_node = zero_node := by
  by_cases hi : i < k
  · simp [List.getD, List.getElem?_replicate, hi]
  · apply List.getD_eq_default
    simpa using (by omega : k ≤ i)

theorem heap_ok_chunk_alloc {qp : Qp} (h : heap_ok qp) (c size : Nat) :
    heap_ok (chunk_alloc qp c size).1 := by
  unfold chunk_alloc
  dsimp only
  apply heap_ok_of_base (by rfl)
  apply heap_ok_base_set_chunk h c _ (fun i => by
    rw [replicate_zero_getD]; exact node_ok_zero)

theorem heap_ok_realloc {qp : Qp} (h : heap_ok qp) (newmax : Nat) :
    heap_ok (realloc_chunk_arrays qp newmax) := by
  intro r
  unfold realloc_chunk_arrays ref_get get_chunk
  dsimp only
  by_cases hc : ref_chunk r < qp.base.length
  · rw [List.getD_append _ _ _ _ hc]
    exact h r
  · have he : (qp.base ++
        List.replicate (newmax - qp.chunk_max) none).getD (ref_chunk r)
          none = none := by
      by_cases h2 : ref_chunk r <
          (qp.base ++ List.replicate (newmax - qp.chunk_max) none).length
      · have hlen2 : ref_chunk r < qp.base.length + (newmax - qp.chunk_max) := by
          simpa using h2
        rw [List.getD_append_right _ _ _ _ (by omega)]
        have hlt : ref_chunk r - qp.base.length < newmax - qp.chunk_max := by
          omega
        simp [List.getD, List.getElem?_replicate, hlt]
      · apply List.getD_eq_default
        omega
    rw [he]
    exact node_ok_zero

theorem heap_ok_chunk_free {qp : Qp} (h : heap_ok qp) (c : Nat) :
    heap_ok (chunk_free qp c) := by
  unfold chunk_free
  have hd : heap_ok { chunk_discount qp c with
      base := (chunk_discount qp c).base.set c none } :=
    heap_ok_base_set_none (heap_ok_of_base (chunk_discount_base qp c) h) c
  apply heap_ok_of_base ?_ hd
  simp [chunk_discount_base]

theorem heap_ok_alloc_slow {qp : Qp} (h : heap_ok qp) (size : Nat) :
    heap_ok (alloc_slow qp size).1 := by
  unfold alloc_slow
  cases hfind : (List.range qp.chunk_max).find?
      (fun c => !(usage_get qp c).exists_) with
  | none =>
    dsimp only
    exact heap_ok_chunk_alloc (heap_ok_realloc h _) _ _
  | some c =>
    dsimp only
    exact heap_ok_chunk_alloc h _ _

theorem heap_ok_alloc_reset {qp : Qp} (h : heap_ok qp) :
    heap_ok (alloc_reset qp) :=
  heap_ok_alloc_slow h 0

theorem heap_ok_alloc_twigs {qp : Qp} (h : heap_ok qp) (size : Nat) :
    heap_ok (alloc_twigs qp size).1 := by
  unfold alloc_twigs
  dsimp only
  split
  · exact heap_ok_of_base (by rfl) h
  · exact heap_ok_alloc_slow h size

theorem heap_ok_free_twigs {qp : Qp} (h : heap_ok qp) (twigs size : Nat) :
    heap_ok (free_twigs qp twigs size).1 := by
  unfold free_twigs
  dsimp only
  split
  · exact heap_ok_of_base (by rfl) h
  · exact heap_ok_zero_twigs (heap_ok_of_base (by rfl) h) twigs size

/-! ### Well-formedness of the written index words -/

theorem testBit_zero_of_even (p : Nat) (h : p % 2 = 0) :
    p.testBit 0 = false := by
  rw [Nat.testBit_zero]
  simp [h]

theorem even_of_testBit_zero (p : Nat) (h : p.testBit 0 = false) :
    p % 2 = 0 := by
  rw [Nat.testBit_zero] at h
  simp at h
  omega

theorem node_ok_branch_iff (i r : Nat) :
    node_ok (QpNode.branch i r) = true ↔
      i.testBit 0 = true ∧ 2 ≤ branch_twigs_size (QpNode.branch i r) := by
  simp [node_ok]

theorem node_ok_leaf_iff (p v : Nat) :
    node_ok (QpNode.leaf p v) = true ↔ p % 2 = 0 := by
  simp [node_ok]

theorem branch_twigs_size_index (i r r' : Nat) :
    branch_twigs_size (QpNode.branch i r) =
      branch_twigs_size (QpNode.branch i r') := rfl

theorem node_ok_make_node_keep (n : QpNode) (r : Nat) (h : node_ok n = true) :
    node_ok (make_node (branch_index n) r) = true := by
  cases n with
  | leaf p i =>
    have hp : p % 2 = 0 := (node_ok_leaf_iff p i).mp h
    rw [make_node, branch_index]
    rw [if_neg (by rw [testBit_zero_of_even p hp]; exact Bool.false_ne_true)]
    exact (node_ok_leaf_iff p r).mpr hp
  | branch i ref =>
    obtain ⟨hb, hs⟩ := (node_ok_branch_iff i ref).mp h
    rw [make_node, branch_index]
    rw [if_pos hb]
    exact (node_ok_branch_iff i r).mpr ⟨hb, hs⟩
  | anchor =>
    rw [make_node, branch_index]
    rw [if_neg (by simp [Nat.zero_testBit])]
    exact (node_ok_leaf_iff 0 r).mpr rfl

theorem branch_size_testBit (i j : Nat) :
    ((i >>> 1) % 2 ^ (SHIFT_OFFSET - 1)).testBit j =
      (decide (j < SHIFT_OFFSET - 1) && i.testBit (1 + j)) := by
  rw [Nat.testBit_mod_two_pow, Nat.testBit_shiftRight]

theorem newbranch_index_ok (nb ob off r : Nat) (h1 : 1 ≤ nb)
    (h2 : nb < SHIFT_OFFSET) (h3 : 1 ≤ ob) (h4 : ob < SHIFT_OFFSET)
    (hne : nb ≠ ob) :
    node_ok (make_node (BRANCH_TAG ||| (1 <<< nb) ||| (1 <<< ob) |||
      (off <<< SHIFT_OFFSET)) r) = true := by
  have hsh : ∀ b : Nat, (1 : Nat) <<< b = 2 ^ b := by
    intro b
    rw [Nat.shiftLeft_eq, one_mul]
  have hbit : ∀ j : Nat,
      (BRANCH_TAG ||| (1 <<< nb) ||| (1 <<< ob) |||
        (off <<< SHIFT_OFFSET)).testBit j =
      (Nat.testBit 1 j || (decide (nb = j) || (decide (ob = j) ||
        (decide (j ≥ SHIFT_OFFSET) && off.testBit (j - SHIFT_OFFSET))))) := by
    intro j
    rw [BRANCH_TAG, hsh nb, hsh ob]
    simp [Nat.testBit_lor, Nat.testBit_two_pow, Nat.testBit_shiftLeft,
      Bool.or_assoc]
  have htag : (BRANCH_TAG ||| (1 <<< nb) ||| (1 <<< ob) |||
      (off <<< SHIFT_OFFSET)).testBit 0 = true := by
    rw [hbit 0]
    simp
  rw [make_node, if_pos htag]
  refine (node_ok_branch_iff _ r).mpr ⟨htag, ?_⟩
  unfold branch_twigs_size
  apply popcount_two_bits _ (nb - 1) (ob - 1) (by omega)
  · rw [branch_index, branch_size_testBit, hbit]
    have e1 : 1 + (nb - 1) = nb := by omega
    rw [e1]
    simp only [decide_eq_true_eq] 
    have : nb - 1 < SHIFT_OFFSET - 1 := by unfold SHIFT_OFFSET at *; omega
    simp [this]
  · rw [branch_index, branch_size_testBit, hbit]
    have e1 : 1 + (ob - 1) = ob := by omega
    rw [e1]
    have : ob - 1 < SHIFT_OFFSET - 1 := by unfold SHIFT_OFFSET at *; omega
    simp [this]

theorem grow_index_ok (n : QpNode) (nb r : Nat) (h1 : 1 ≤ nb)
    (hok : node_ok n = true) :
    node_ok (make_node (branch_index n ||| (1 <<< nb)) r) = true := by
  have hsh : (1 : Nat) <<< nb = 2 ^ nb := by
    rw [Nat.shiftLeft_eq, one_mul]
  have hb0 : (2 ^ nb).testBit 0 = false := by
    rw [Nat.testBit_two_pow]
    simp
    omega
  cases n with
  | leaf p i =>
    have hp : p % 2 = 0 := (node_ok_leaf_iff p i).mp hok
    have htag : (p ||| 2 ^ nb).testBit 0 = false := by
      rw [Nat.testBit_lor, testBit_zero_of_even p hp, hb0]
      rfl
    rw [make_node, branch_index, hsh, if_neg (by rw [htag]; exact Bool.false_ne_true)]
    exact (node_ok_leaf_iff _ r).mpr (even_of_testBit_zero _ htag)
  | branch i ref =>
    obtain ⟨hb, hs⟩ := (node_ok_branch_iff i ref).mp hok
    have htag : (i ||| 2 ^ nb).testBit 0 = true := by
      rw [Nat.testBit_lor, hb]
      rfl
    rw [make_node, branch_index, hsh, if_pos htag]
    refine (node_ok_branch_iff _ r).mpr ⟨htag, ?_⟩
    unfold branch_twigs_size at hs ⊢
    refine le_trans hs (popcount_le_of_subset _ _ ?_)
    intro j hj
    rw [branch_size_testBit] at hj ⊢
    rw [branch_index] at hj ⊢
    rcases Bool.and_eq_true_iff.mp hj with ⟨hjlt, hjbit⟩
    rw [hjlt, Nat.testBit_lor, hjbit]
    rfl
  | anchor =>
    have htag : ((0 : Nat) ||| 2 ^ nb).testBit 0 = false := by
      rw [Nat.testBit_lor, Nat.zero_testBit, hb0]
      rfl
    rw [make_node, branch_index, hsh, if_neg (by rw [htag]; exact Bool.false_ne_true)]
    exact (node_ok_leaf_iff _ r).mpr (even_of_testBit_zero _ htag)

theorem sub_two_pow_parity (x t : Nat) (h1 : 1 ≤ t) (hset : x.testBit t = true) :
    (x - 2 ^ t) % 2 = x % 2 := by
  have hle : 2 ^ t ≤ x := Nat.testBit_implies_ge hset
  have : 2 ^ t = 2 * 2 ^ (t - 1) := by
    rw [← pow_succ']
    congr 1
    omega
  omega

theorem sub_mod_of_le (y P T : Nat) (hP : 0 < P) (hT : T ≤ y % P) :
    (y - T) % P = y % P - T := by
  have hsplit := Nat.mod_add_div y P
  have hlt := Nat.mod_lt y hP
  have heq : y - T = (y % P - T) + P * (y / P) := by omega
  rw [heq, Nat.add_mul_mod_self_left]
  exact Nat.mod_eq_of_lt (by omega)

theorem shrink_index_ok (n : QpNode) (bit r : Nat) (h1 : 1 ≤ bit)
    (h2 : bit < SHIFT_OFFSET) (hok : node_ok n = true)
    (hsz : branch_twigs_size n ≠ 2) :
    node_ok (make_node
      (if (branch_index n).testBit bit then branch_index n - 2 ^ bit
       else branch_index n) r) = true := by
  by_cases hset : (branch_index n).testBit bit = true
  · rw [if_pos hset]
    cases n with
    | leaf p i =>
      have hp : p % 2 = 0 := (node_ok_leaf_iff p i).mp hok
      rw [branch_index] at hset ⊢
      have hpar : (p - 2 ^ bit) % 2 = 0 := by
        rw [sub_two_pow_parity p bit h1 hset]
        exact hp
      rw [make_node, if_neg (by rw [testBit_zero_of_even _ hpar]; exact Bool.false_ne_true)]
      exact (node_ok_leaf_iff _ r).mpr hpar
    | branch i ref =>
      obtain ⟨hb, hs⟩ := (node_ok_branch_iff i ref).mp hok
      rw [branch_index] at hset ⊢
      have htag : (i - 2 ^ bit).testBit 0 = true := by
        have hpar := sub_two_pow_parity i bit h1 hset
        rw [Nat.testBit_zero] at hb ⊢
        simp at hb ⊢
        omega
      rw [make_node, if_pos htag]
      refine (node_ok_branch_iff _ r).mpr ⟨htag, ?_⟩
      -- the bitmap loses exactly the bit `bit`
      unfold branch_twigs_size at hs hsz ⊢
      rw [branch_index] at hs hsz ⊢
      have hy : (i - 2 ^ bit) >>> 1 = i >>> 1 - 2 ^ (bit - 1) := by
        have hle : 2 ^ bit ≤ i := Nat.testBit_implies_ge hset
        have hpow : (2 : Nat) ^ bit = 2 * 2 ^ (bit - 1) := by
          rw [← pow_succ']
          congr 1
          omega
        rw [Nat.shiftRight_succ, Nat.shiftRight_zero,
          Nat.shiftRight_succ, Nat.shiftRight_zero]
        omega
      have hyset : ((i >>> 1) % 2 ^ (SHIFT_OFFSET - 1)).testBit (bit - 1) =
          true := by
        rw [branch_size_testBit]
        have e1 : 1 + (bit - 1) = bit := by omega
        rw [e1, hset]
        have : bit - 1 < SHIFT_OFFSET - 1 := by unfold SHIFT_OFFSET at *; omega
        simp [this]
      have hmodle : 2 ^ (bit - 1) ≤ (i >>> 1) % 2 ^ (SHIFT_OFFSET - 1) :=
        Nat.testBit_implies_ge hyset
      have hmod : (i >>> 1 - 2 ^ (bit - 1)) % 2 ^ (SHIFT_OFFSET - 1) =
          (i >>> 1) % 2 ^ (SHIFT_OFFSET - 1) - 2 ^ (bit - 1) :=
        sub_mod_of_le _ _ _ (Nat.pos_pow_of_pos _ (by omega)) hmodle
      rw [hy, hmod]
      obtain ⟨hval, _⟩ := popcount_sub_two_pow _ _ hyset
      rw [hval]
      omega
    | anchor =>
      rw [branch_index] at hset
      rw [Nat.zero_testBit] at hset
      cases hset
  · rw [if_neg hset]
    exact node_ok_make_node_keep n r hok

/-! ### `heap_ok` through the garbage collector and the trie operations -/

theorem heap_ok_evacuate {qp : Qp} (h : heap_ok qp) (n : QpNode) :
    heap_ok (evacuate qp n).1 := by
  simp only [evacuate]
  cases halloc : alloc_twigs qp (branch_twigs_size n) with
  | mk qp1 new_ref =>
    have h1 : heap_ok qp1 := by
      have := heap_ok_alloc_twigs h (branch_twigs_size n)
      rw [halloc] at this
      exact this
    cases hfree : free_twigs
        (move_twigs qp1 new_ref (branch_twigs_ref n) (branch_twigs_size n))
        (branch_twigs_ref n) (branch_twigs_size n) with
    | mk qp2 destroyed =>
      have h2 := heap_ok_move_twigs h1 new_ref (branch_twigs_ref n)
        (branch_twigs_size n)
      have h3 := heap_ok_free_twigs h2 (branch_twigs_ref n)
        (branch_twigs_size n)
      rw [hfree] at h3
      exact h3

theorem heap_ok_make_root_mutable {qp : Qp} (h : heap_ok qp) :
    heap_ok (make_root_mutable qp) := by
  unfold make_root_mutable
  split
  · cases hevac : evacuate qp (MOVABLE_ROOT qp) with
    | mk qp1 r =>
      have := heap_ok_evacuate h (MOVABLE_ROOT qp)
      rw [hevac] at this
      exact @heap_ok_of_base qp1 _ rfl this
  · exact h

theorem heap_ok_make_twigs_mutable {qp : Qp} (h : heap_ok qp) (nref : Nat) :
    heap_ok (make_twigs_mutable qp nref) := by
  dsimp only [make_twigs_mutable]
  split
  · cases hevac : evacuate qp (ref_get qp nref) with
    | mk qp1 r =>
      dsimp only
      have h1 : heap_ok qp1 := by
        have := heap_ok_evacuate h (ref_get qp nref)
        rw [hevac] at this
        exact this
      exact heap_ok_ref_set h1 (node_ok_make_node_keep _ _ (h nref)) nref
  · exact h

theorem heap_ok_foldl_any (l : List Nat) (step : Qp → Nat → Qp)
    (hstep : ∀ qp i, heap_ok qp → heap_ok (step qp i)) :
    ∀ qp, heap_ok qp → heap_ok (l.foldl step qp) := by
  induction l with
  | nil => intro qp h; exact h
  | cons a l ih => intro qp h; exact ih _ (hstep qp a h)

theorem heap_ok_recycle {qp : Qp} (h : heap_ok qp) : heap_ok (recycle qp) := by
  unfold recycle
  apply heap_ok_foldl_any _ _ _ qp h
  intro qp i hq
  split
  · exact heap_ok_chunk_free hq i
  · exact hq

theorem heap_ok_compact_fold (go : Qp → QpNode → Option (Qp × Nat))
    (hgo : ∀ qp n out, heap_ok qp → go qp n = some out → heap_ok out.1)
    (parent : QpNode) :
    ∀ (l : List Nat) (acc : Option (Qp × Nat × Bool)),
      (∀ s, acc = some s → heap_ok s.1) →
      ∀ out, l.foldl (compact_child go parent) acc = some out →
        heap_ok out.1 := by
  intro l
  induction l with
  | nil =>
    intro acc hacc out hout
    exact hacc out hout
  | cons a l ih =>
    intro acc hacc out hout
    rw [List.foldl_cons] at hout
    refine ih _ ?_ out hout
    intro s hs
    unfold compact_child at hs
    cases acc with
    | none => cases hs
    | some t =>
      obtain ⟨qp, twigs_ref, immutable⟩ := t
      have hq : heap_ok qp := hacc _ rfl
      dsimp only at hs
      by_cases hbr : is_branch (ref_get qp (twigs_ref + a)) = true
      · rw [if_neg (by rw [hbr]; simp)] at hs
        cases hrec : go qp (ref_get qp (twigs_ref + a)) with
        | none => rw [hrec] at hs; cases hs
        | some p =>
          obtain ⟨qp2, new_grand⟩ := p
          rw [hrec] at hs
          dsimp only at hs
          have hq2 : heap_ok qp2 := hgo _ _ _ hq hrec
          by_cases hsame : branch_twigs_ref (ref_get qp (twigs_ref + a)) =
              new_grand
          · rw [if_pos hsame] at hs
            cases hs
            exact hq2
          · rw [if_neg hsame] at hs
            by_cases himm : immutable = true
            · subst himm
              rw [if_pos rfl] at hs
              cases hevac : evacuate qp2 parent with
              | mk qp3 r3 =>
                rw [hevac] at hs
                dsimp only at hs
                have hq3 : heap_ok qp3 := by
                  have := heap_ok_evacuate hq2 parent
                  rw [hevac] at this
                  exact this
                cases hs
                exact heap_ok_ref_set hq3
                  (node_ok_make_node_keep _ _ (hq3 _)) _
            · rw [if_neg himm] at hs
              dsimp only at hs
              cases hs
              exact heap_ok_ref_set hq2
                (node_ok_make_node_keep _ _ (hq2 _)) _
      · rw [if_pos (by revert hbr; cases is_branch (ref_get qp (twigs_ref + a)) <;> simp)] at hs
        cases hs
        exact hq

theorem heap_ok_compact_recursive :
    ∀ (fuel : Nat) (qp : Qp) (parent : QpNode) (out : Qp × Nat),
      heap_ok qp → compact_recursive fuel qp parent = some out →
        heap_ok out.1 := by
  intro fuel
  induction fuel with
  | zero => intro qp parent out _ hout; cases hout
  | succ fuel ih =>
    intro qp parent out h hout
    rw [compact_recursive] at hout
    rcases hsel : (if (qp.compact_all ||
          decide (ref_chunk (branch_twigs_ref parent) ≠ qp.bump) &&
            decide (chunk_usage qp (ref_chunk (branch_twigs_ref parent)) <
              QP_MIN_USED)) = true then
        evacuate qp parent
      else (qp, branch_twigs_ref parent)) with ⟨qp1, twigs1⟩
    have h1 : heap_ok qp1 := by
      by_cases hc : (qp.compact_all ||
          decide (ref_chunk (branch_twigs_ref parent) ≠ qp.bump) &&
            decide (chunk_usage qp (ref_chunk (branch_twigs_ref parent)) <
              QP_MIN_USED)) = true
      · rw [if_pos hc] at hsel
        have := heap_ok_evacuate h parent
        rw [hsel] at this
        exact this
      · rw [if_neg hc] at hsel
        cases hsel
        exact h
    rw [hsel] at hout
    dsimp only at hout
    rcases hfold : (List.range (branch_twigs_size parent)).foldl
        (compact_child (compact_recursive fuel) parent)
        (some (qp1, twigs1, cells_immutable qp1 twigs1)) with _ | fout
    · rw [hfold] at hout
      cases hout
    · rw [hfold] at hout
      obtain ⟨qpf, trf, immf⟩ := fout
      dsimp only at hout
      cases hout
      exact heap_ok_compact_fold (compact_recursive fuel)
        (fun qp n out hq hgo => ih qp n out hq hgo) parent _ _
        (fun s hs => by cases hs; exact h1) _ hfold

theorem heap_ok_compact {qp : Qp} (h : heap_ok qp) (fuel : Nat) (out : Qp)
    (hout : compact fuel qp = some out) : heap_ok out := by
  unfold compact at hout
  set qp1 := if (usage_get qp qp.bump).free > QP_MAX_FREE then alloc_reset qp
             else qp with hqp1
  have h1 : heap_ok qp1 := by
    rw [hqp1]
    split
    · exact heap_ok_alloc_reset h
    · exact h
  dsimp only at hout
  by_cases hleaf : qp1.leaf_count > 0
  · rw [if_pos hleaf] at hout
    rcases hrec : compact_recursive fuel qp1 (MOVABLE_ROOT qp1) with _ | p
    · rw [hrec] at hout
      cases hout
    · rw [hrec] at hout
      obtain ⟨qp2, r2⟩ := p
      dsimp only at hout
      cases hout
      exact heap_ok_of_base rfl
        (heap_ok_compact_recursive fuel qp1 (MOVABLE_ROOT qp1) _ h1 hrec)
  · rw [if_neg hleaf] at hout
    cases hout
    exact heap_ok_of_base rfl h1

theorem heap_ok_squash_twigs {qp : Qp} (h : heap_ok qp)
    (fuel twigs size : Nat) (out : Qp × Bool)
    (hout : squash_twigs fuel qp twigs size = some out) : heap_ok out.1 := by
  unfold squash_twigs at hout
  cases hfree : free_twigs qp twigs size with
  | mk qp1 destroyed =>
    rw [hfree] at hout
    have h1 : heap_ok qp1 := by
      have := heap_ok_free_twigs h twigs size
      rw [hfree] at this
      exact this
    dsimp only at hout
    by_cases hgc : (destroyed && QP_AUTOGC qp1) = true
    · rw [if_pos hgc] at hout
      rcases hcomp : compact fuel qp1 with _ | qp2
      · rw [hcomp] at hout
        cases hout
      · rw [hcomp] at hout
        dsimp only at hout
        cases hout
        have h2 := heap_ok_compact h1 fuel qp2 hcomp
        have h3 := heap_ok_recycle h2
        split
        · exact heap_ok_of_base rfl h3
        · exact h3
    · rw [if_neg hgc] at hout
      cases hout
      exact h1

theorem heap_ok_dns_qp_compact {qp : Qp} (h : heap_ok qp)
    (fuel : Nat) (all : Bool) (out : Qp)
    (hout : dns_qp_compact fuel qp all = some out) : heap_ok out := by
  unfold dns_qp_compact at hout
  split at hout
  · cases hout
    exact h
  · set qp1 := if all = true then { qp with compact_all := true } else qp
      with hqp1
    have h1 : heap_ok qp1 := by
      rw [hqp1]
      split
      · exact heap_ok_of_base rfl h
      · exact h
    dsimp only at hout
    rcases hcomp : compact fuel qp1 with _ | qp2
    · rw [hcomp] at hout
      cases hout
    · rw [hcomp] at hout
      dsimp only at hout
      cases hout
      exact heap_ok_recycle (heap_ok_compact h1 fuel qp2 hcomp)

theorem heap_ok_insert_newbranch {qp : Qp} (h : heap_ok qp)
    (new_leaf : QpNode) (hleaf : node_ok new_leaf = true)
    (nb ob off nref : Nat) (h1 : 1 ≤ nb) (h2 : nb < SHIFT_OFFSET)
    (h3 : 1 ≤ ob) (h4 : ob < SHIFT_OFFSET) (hne : nb ≠ ob) :
    heap_ok (insert_newbranch qp new_leaf nb ob off nref) := by
  simp only [insert_newbranch]
  cases halloc : alloc_twigs qp 2 with
  | mk qp1 new_ref =>
    dsimp only
    have hq1 : heap_ok qp1 := by
      have := heap_ok_alloc_twigs h 2
      rw [halloc] at this
      exact this
    apply heap_ok_of_base rfl
    exact heap_ok_ref_set
      (heap_ok_ref_set
        (heap_ok_ref_set hq1
          (newbranch_index_ok nb ob off new_ref h1 h2 h3 h4 hne) nref)
        (hq1 nref) _)
      hleaf _

theorem heap_ok_insert_growbranch {qp : Qp} (h : heap_ok qp)
    (new_leaf : QpNode) (hleaf : node_ok new_leaf = true)
    (fuel nb nref : Nat) (h1 : 1 ≤ nb) (out : Qp)
    (hout : insert_growbranch fuel qp new_leaf nb nref = some out) :
    heap_ok out := by
  simp only [insert_growbranch] at hout
  cases halloc : alloc_twigs qp (branch_twigs_size (ref_get qp nref) + 1) with
  | mk qp1 new_ref =>
    rw [halloc] at hout
    dsimp only at hout
    have hq1 : heap_ok qp1 := by
      have := heap_ok_alloc_twigs h (branch_twigs_size (ref_get qp nref) + 1)
      rw [halloc] at this
      exact this
    have hq2 : heap_ok (ref_set qp1 nref
        (make_node (branch_index (ref_get qp nref) ||| (1 <<< nb)) new_ref)) :=
      heap_ok_ref_set hq1 (grow_index_ok _ nb new_ref h1 (h nref)) nref
    rcases hsq : squash_twigs fuel
        (move_twigs
          (ref_set
            (move_twigs
              (ref_set qp1 nref
                (make_node (branch_index (ref_get qp nref) ||| (1 <<< nb))
                  new_ref))
              new_ref (branch_twigs_ref (ref_get qp nref))
              (branch_twig_pos
                (make_node (branch_index (ref_get qp nref) ||| (1 <<< nb))
                  new_ref) nb))
            (new_ref +
              branch_twig_pos
                (make_node (branch_index (ref_get qp nref) ||| (1 <<< nb))
                  new_ref) nb) new_leaf)
          (new_ref +
              branch_twig_pos
                (make_node (branch_index (ref_get qp nref) ||| (1 <<< nb))
                  new_ref) nb + 1)
          (branch_twigs_ref (ref_get qp nref) +
              branch_twig_pos
                (make_node (branch_index (ref_get qp nref) ||| (1 <<< nb))
                  new_ref) nb)
          (branch_twigs_size (ref_get qp nref) -
              branch_twig_pos
                (make_node (branch_index (ref_get qp nref) ||| (1 <<< nb))
                  new_ref) nb))
        (branch_twigs_ref (ref_get qp nref))
        (branch_twigs_size (ref_get qp nref)) with _ | p
    · rw [hsq] at hout
      cases hout
    · rw [hsq] at hout
      obtain ⟨qps, destroyed⟩ := p
      dsimp only at hout
      cases hout
      apply heap_ok_of_base rfl
      have := heap_ok_squash_twigs
        (heap_ok_move_twigs
          (heap_ok_ref_set
            (heap_ok_move_twigs hq2 _ _ _) hleaf _) _ _ _)
        fuel _ _ _ hsq
      exact this

theorem heap_ok_insert_cow (new_leaf : QpNode) (hleaf : node_ok new_leaf = true)
    (key : List Nat) (keylen nb ob off : Nat) (h1 : 1 ≤ nb)
    (h2 : nb < SHIFT_OFFSET) (h3 : 1 ≤ ob) (h4 : ob < SHIFT_OFFSET)
    (hne : nb ≠ ob) :
    ∀ (fuel : Nat) (qp : Qp) (nref : Nat) (out : Qp), heap_ok qp →
      insert_cow new_leaf key keylen nb ob off fuel qp nref = some out →
      heap_ok out := by
  intro fuel
  induction fuel with
  | zero => intro qp nref out _ hout; cases hout
  | succ fuel ih =>
    intro qp nref out h hout
    rw [insert_cow] at hout
    by_cases hbr : is_branch (ref_get qp nref) = true
    · rw [if_pos hbr] at hout
      by_cases hlt : off < branch_key_offset (ref_get qp nref)
      · rw [if_pos hlt] at hout
        cases hout
        exact heap_ok_insert_newbranch h new_leaf hleaf nb ob off nref
          h1 h2 h3 h4 hne
      · rw [if_neg hlt] at hout
        by_cases heq : off = branch_key_offset (ref_get qp nref)
        · rw [if_pos heq] at hout
          exact heap_ok_insert_growbranch h new_leaf hleaf fuel nb nref h1
            out hout
        · rw [if_neg heq] at hout
          dsimp only at hout
          have hmut : heap_ok (make_twigs_mutable qp nref) :=
            heap_ok_make_twigs_mutable h nref
          rcases Bool.eq_false_or_eq_true (branch_has_twig
              (ref_get (make_twigs_mutable qp nref) nref)
              (branch_keybit (ref_get (make_twigs_mutable qp nref) nref)
                key keylen)) with htw | htw
          · rw [if_neg (by rw [htw]; simp)] at hout
            exact ih _ _ out hmut hout
          · rw [if_pos (by rw [htw]; rfl)] at hout
            cases hout
    · rw [if_neg hbr] at hout
      cases hout
      exact heap_ok_insert_newbranch h new_leaf hleaf nb ob off nref
        h1 h2 h3 h4 hne

theorem heap_ok_dns_qp_insert {qp : Qp} (h : heap_ok qp)
    (hkeys : leafkey_ok qp.leafkey) (fuel pval ival : Nat)
    (hp : pval % 2 = 0) (res : QpResult) (out : Qp)
    (hout : dns_qp_insert fuel qp pval ival = some (res, out)) :
    heap_ok out := by
  unfold dns_qp_insert at hout
  by_cases hempty : qp.leaf_count = 0
  · rw [if_pos hempty] at hout
    cases halloc : alloc_twigs qp 1 with
    | mk qp1 new_ref =>
      rw [halloc] at hout
      dsimp only at hout
      cases hout
      have hq1 : heap_ok qp1 := by
        have := heap_ok_alloc_twigs h 1
        rw [halloc] at this
        exact this
      apply heap_ok_of_base rfl
      exact heap_ok_ref_set hq1 (by simpa [make_leaf, node_ok] using hp) new_ref
  · rw [if_neg hempty] at hout
    rcases hdesc : insert_descend qp (leaf_qpkey qp (make_leaf pval ival))
        (leaf_qpkey qp (make_leaf pval ival)).length fuel qp.root_ref with
      _ | nref
    · rw [hdesc] at hout
      cases hout
    · rw [hdesc] at hout
      dsimp only at hout
      by_cases heq : qpkey_compare (leaf_qpkey qp (make_leaf pval ival))
          (leaf_qpkey qp (make_leaf pval ival)).length
          (leaf_qpkey qp (ref_get qp nref))
          (leaf_qpkey qp (ref_get qp nref)).length = QPKEY_EQUAL
      · rw [if_pos heq] at hout
        cases hout
        exact h
      · rw [if_neg heq] at hout
        set newk := leaf_qpkey qp (make_leaf pval ival) with hnewk
        set oldk := leaf_qpkey qp (ref_get qp nref) with holdk
        set off := qpkey_compare newk newk.length oldk oldk.length with hoff
        have hknew : key_ok newk newk.length := hkeys pval ival
        have hkold : key_ok oldk oldk.length :=
          hkeys (leaf_pval (ref_get qp nref)) (leaf_ival (ref_get qp nref))
        have hdiff : qpkey_bit newk newk.length off ≠
            qpkey_bit oldk oldk.length off := by
          rcases qpkey_compare_spec newk newk.length oldk oldk.length with
            ⟨hceq, _⟩ | ⟨_, hne, _⟩
          · exact absurd (by rw [hoff]; exact hceq) heq
          · rw [← hoff] at hne
            exact hne
        rcases hcow : insert_cow (make_leaf pval ival) newk newk.length
            (qpkey_bit newk newk.length off) (qpkey_bit oldk oldk.length off)
            off fuel (make_root_mutable qp) (make_root_mutable qp).root_ref
          with _ | qpf
        · rw [hcow] at hout
          cases hout
        · rw [hcow] at hout
          dsimp only at hout
          cases hout
          exact heap_ok_insert_cow (make_leaf pval ival)
            (by simpa [make_leaf, node_ok] using hp) newk newk.length _ _ off
            (hknew off).1 (hknew off).2 (hkold off).1 (hkold off).2 hdiff
            fuel (make_root_mutable qp) (make_root_mutable qp).root_ref _
            (heap_ok_make_root_mutable h) hcow

theorem heap_ok_delete_descend (key : List Nat) (keylen : Nat) :
    ∀ (fuel : Nat) (qp : Qp) (parent : Option Nat) (bit nref : Nat)
      (out : Qp × Option (Option Nat × Nat × Nat)),
      heap_ok qp →
      delete_descend key keylen fuel qp parent bit nref = some out →
      heap_ok out.1 := by
  intro fuel
  induction fuel with
  | zero => intro qp parent bit nref out _ hout; cases hout
  | succ fuel ih =>
    intro qp parent bit nref out h hout
    rw [delete_descend] at hout
    by_cases hbr : is_branch (ref_get qp nref) = true
    · rw [if_pos hbr] at hout
      dsimp only at hout
      rcases Bool.eq_false_or_eq_true (branch_has_twig (ref_get qp nref)
          (branch_keybit (ref_get qp nref) key keylen)) with htw | htw
      · rw [if_neg (by rw [htw]; simp)] at hout
        exact ih _ _ _ _ out (heap_ok_make_twigs_mutable h nref) hout
      · rw [if_pos (by rw [htw]; rfl)] at hout
        cases hout
        exact h
    · rw [if_neg hbr] at hout
      cases hout
      exact h

theorem delete_descend_bit (key : List Nat) (keylen : Nat) :
    ∀ (fuel : Nat) (qp : Qp) (parent : Option Nat) (bit nref : Nat)
      (qp1 : Qp) (p : Option Nat) (b lref : Nat),
      delete_descend key keylen fuel qp parent bit nref =
        some (qp1, some (p, b, lref)) →
      (p = parent ∧ b = bit) ∨ (∃ off, b = qpkey_bit key keylen off) := by
  intro fuel
  induction fuel with
  | zero => intro qp parent bit nref qp1 p b lref hout; cases hout
  | succ fuel ih =>
    intro qp parent bit nref qp1 p b lref hout
    rw [delete_descend] at hout
    by_cases hbr : is_branch (ref_get qp nref) = true
    · rw [if_pos hbr] at hout
      dsimp only at hout
      rcases Bool.eq_false_or_eq_true (branch_has_twig (ref_get qp nref)
          (branch_keybit (ref_get qp nref) key keylen)) with htw | htw
      · rw [if_neg (by rw [htw]; simp)] at hout
        rcases ih _ _ _ _ _ _ _ _ hout with ⟨_, hb⟩ | hoff
        · exact Or.inr ⟨branch_key_offset (ref_get qp nref), hb⟩
        · exact Or.inr hoff
      · rw [if_pos (by rw [htw]; rfl)] at hout
        cases hout
    · rw [if_neg hbr] at hout
      cases hout
      exact Or.inl ⟨rfl, rfl⟩

theorem heap_ok_dns_qp_deletekey {qp : Qp} (h : heap_ok qp)
    (fuel : Nat) (key : List Nat) (keylen : Nat) (hkey : key_ok key keylen)
    (res : QpResult) (out : Qp)
    (hout : dns_qp_deletekey fuel qp key keylen = some (res, out)) :
    heap_ok out := by
  unfold dns_qp_deletekey at hout
  by_cases hroot : get_root_valid qp = true
  · rw [if_neg (by rw [hroot]; simp)] at hout
    dsimp only at hout
    have hmut : heap_ok (make_root_mutable qp) := heap_ok_make_root_mutable h
    rcases hdesc : delete_descend key keylen fuel (make_root_mutable qp) none 0
        (make_root_mutable qp).root_ref with _ | dout
    · rw [hdesc] at hout
      cases hout
    · rw [hdesc] at hout
      obtain ⟨qp1, info⟩ := dout
      have hq1 : heap_ok qp1 :=
        heap_ok_delete_descend key keylen fuel _ none 0 _ _ hmut hdesc
      cases info with
      | none =>
        dsimp only at hout
        cases hout
        exact hq1
      | some t =>
        obtain ⟨parent, bit, nref⟩ := t
        dsimp only at hout
        by_cases heq : qpkey_compare key keylen
            (leaf_qpkey qp1 (ref_get qp1 nref))
            (leaf_qpkey qp1 (ref_get qp1 nref)).length ≠ QPKEY_EQUAL
        · rw [if_pos heq] at hout
          cases hout
          exact hq1
        · rw [if_neg heq] at hout
          by_cases hzero : qp1.leaf_count - 1 = 0
          · rw [if_pos hzero] at hout
            cases hfree : free_twigs { qp1 with leaf_count := qp1.leaf_count - 1 }
                { qp1 with leaf_count := qp1.leaf_count - 1 }.root_ref 1 with
            | mk qp2 d2 =>
              rw [hfree] at hout
              dsimp only at hout
              cases hout
              apply heap_ok_of_base rfl
              have hlocal : heap_ok
                  { qp1 with leaf_count := qp1.leaf_count - 1 } :=
                heap_ok_of_base rfl hq1
              have h2 := heap_ok_free_twigs hlocal
                { qp1 with leaf_count := qp1.leaf_count - 1 }.root_ref 1
              rw [hfree] at h2
              exact h2
          · rw [if_neg hzero] at hout
            cases parent with
            | none => cases hout
            | some pref =>
              dsimp only at hout
              have hq1' : heap_ok { qp1 with leaf_count := qp1.leaf_count - 1 } :=
                heap_ok_of_base rfl hq1
              have hbit : 1 ≤ bit ∧ bit < SHIFT_OFFSET := by
                rcases delete_descend_bit key keylen fuel _ none 0 _ _ _ _ _
                    hdesc with ⟨hp, _⟩ | ⟨off, hb⟩
                · cases hp
                · rw [hb]
                  exact ⟨(hkey off).1, (hkey off).2⟩
              by_cases hsz : branch_twigs_size
                  (ref_get { qp1 with leaf_count := qp1.leaf_count - 1 } pref) = 2
              · rw [if_pos hsz] at hout
                rcases hsq : squash_twigs fuel
                    (ref_set { qp1 with leaf_count := qp1.leaf_count - 1 } pref
                      (ref_get { qp1 with leaf_count := qp1.leaf_count - 1 }
                        (branch_twigs_ref
                            (ref_get { qp1 with leaf_count := qp1.leaf_count - 1 }
                              pref) +
                          (if branch_twig_pos
                                (ref_get { qp1 with leaf_count := qp1.leaf_count - 1 }
                                  pref) bit = 0 then 1 else 0))))
                    (branch_twigs_ref
                      (ref_get { qp1 with leaf_count := qp1.leaf_count - 1 } pref))
                    2 with _ | p2
                · rw [hsq] at hout
                  cases hout
                · rw [hsq] at hout
                  obtain ⟨qps, ds⟩ := p2
                  dsimp only at hout
                  cases hout
                  exact heap_ok_squash_twigs
                    (heap_ok_ref_set hq1' (hq1' _) pref) fuel _ _ _ hsq
              · rw [if_neg hsz] at hout
                rcases hsq : squash_twigs fuel
                    (move_twigs
                      (ref_set { qp1 with leaf_count := qp1.leaf_count - 1 } pref
                        (make_node
                          (if (branch_index
                                (ref_get { qp1 with leaf_count := qp1.leaf_count - 1 }
                                  pref)).testBit bit then
                            branch_index
                                (ref_get { qp1 with leaf_count := qp1.leaf_count - 1 }
                                  pref) - 2 ^ bit
                          else
                            branch_index
                              (ref_get { qp1 with leaf_count := qp1.leaf_count - 1 }
                                pref))
                          (branch_twigs_ref
                            (ref_get { qp1 with leaf_count := qp1.leaf_count - 1 }
                              pref))))
                      (branch_twigs_ref
                          (ref_get { qp1 with leaf_count := qp1.leaf_count - 1 }
                            pref) +
                        branch_twig_pos
                          (ref_get { qp1 with leaf_count := qp1.leaf_count - 1 }
                            pref) bit)
                      (branch_twigs_ref
                          (ref_get { qp1 with leaf_count := qp1.leaf_count - 1 }
                            pref) +
                        branch_twig_pos
                          (ref_get { qp1 with leaf_count := qp1.leaf_count - 1 }
                            pref) bit + 1)
                      (branch_twigs_size
                          (ref_get { qp1 with leaf_count := qp1.leaf_count - 1 }
                            pref) -
                        branch_twig_pos
                          (ref_get { qp1 with leaf_count := qp1.leaf_count - 1 }
                            pref) bit - 1))
                    (branch_twigs_ref
                        (ref_get { qp1 with leaf_count := qp1.leaf_count - 1 }
                          pref) +
                      branch_twigs_size
                        (ref_get { qp1 with leaf_count := qp1.leaf_count - 1 }
                          pref) - 1)
                    1 with _ | p2
                · rw [hsq] at hout
                  cases hout
                · rw [hsq] at hout
                  obtain ⟨qps, ds⟩ := p2
                  dsimp only at hout
                  cases hout
                  refine heap_ok_squash_twigs
                    (heap_ok_move_twigs
                      (heap_ok_ref_set hq1' ?_ pref) _ _ _) fuel _ _ _ hsq
                  exact shrink_index_ok _ bit _ hbit.1 hbit.2 (hq1' pref) hsz
  · rw [if_pos (by revert hroot; cases get_root_valid qp <;> simp)] at hout
    cases hout
    exact h

/-! ### The vtable never changes -/

theorem lk_foldl (l : List Nat) (step : Qp → Nat → Qp)
    (hstep : ∀ qp i, (step qp i).leafkey = qp.leafkey) :
    ∀ qp : Qp, (l.foldl step qp).leafkey = qp.leafkey := by
  induction l with
  | nil => intro qp; rfl
  | cons a l ih => intro qp; rw [List.foldl_cons, ih, hstep]

theorem lk_ref_set (qp : Qp) (r : Nat) (n : QpNode) :
    (ref_set qp r n).leafkey = qp.leafkey := rfl

theorem lk_zero_twigs (qp : Qp) (r s : Nat) :
    (zero_twigs qp r s).leafkey = qp.leafkey := by
  unfold zero_twigs
  exact lk_foldl (List.range s) (fun qp i => ref_set qp (r + i) zero_node)
    (fun qp i => lk_ref_set qp (r + i) zero_node) qp

theorem lk_move_twigs (qp : Qp) (d s k : Nat) :
    (move_twigs qp d s k).leafkey = qp.leafkey := by
  unfold move_twigs
  dsimp only
  exact lk_foldl (List.range k) _
    (fun qp' i => lk_ref_set qp' (d + i) _) qp

theorem lk_chunk_alloc (qp : Qp) (c s : Nat) :
    (chunk_alloc qp c s).1.leafkey = qp.leafkey := rfl

theorem lk_alloc_slow (qp : Qp) (s : Nat) :
    (alloc_slow qp s).1.leafkey = qp.leafkey := by
  unfold alloc_slow
  cases (List.range qp.chunk_max).find? (fun c => !(usage_get qp c).exists_) <;>
    rfl

theorem lk_alloc_twigs (qp : Qp) (s : Nat) :
    (alloc_twigs qp s).1.leafkey = qp.leafkey := by
  unfold alloc_twigs
  dsimp only
  split
  · rfl
  · exact lk_alloc_slow qp s

theorem lk_free_twigs (qp : Qp) (t s : Nat) :
    (free_twigs qp t s).1.leafkey = qp.leafkey := by
  unfold free_twigs
  dsimp only
  split
  · rfl
  · exact lk_zero_twigs _ t s

theorem lk_chunk_free (qp : Qp) (c : Nat) :
    (chunk_free qp c).leafkey = qp.leafkey := by
  unfold chunk_free chunk_discount
  split <;> rfl

theorem lk_recycle (qp : Qp) : (recycle qp).leafkey = qp.leafkey := by
  unfold recycle
  apply lk_foldl
  intro qp i
  split
  · exact lk_chunk_free qp i
  · rfl

theorem lk_evacuate (qp : Qp) (n : QpNode) :
    (evacuate qp n).1.leafkey = qp.leafkey := by
  simp only [evacuate]
  cases halloc : alloc_twigs qp (branch_twigs_size n) with
  | mk qp1 r1 =>
    cases hfree : free_twigs (move_twigs qp1 r1 (branch_twigs_ref n)
        (branch_twigs_size n)) (branch_twigs_ref n) (branch_twigs_size n) with
    | mk qp2 d2 =>
      have e1 : qp1.leafkey = qp.leafkey := by
        have := lk_alloc_twigs qp (branch_twigs_size n)
        rw [halloc] at this
        exact this
      have e2 := lk_free_twigs (move_twigs qp1 r1 (branch_twigs_ref n)
        (branch_twigs_size n)) (branch_twigs_ref n) (branch_twigs_size n)
      rw [hfree] at e2
      dsimp only
      rw [e2, lk_move_twigs, e1]

theorem lk_make_root_mutable (qp : Qp) :
    (make_root_mutable qp).leafkey = qp.leafkey := by
  unfold make_root_mutable
  split
  · cases hevac : evacuate qp (MOVABLE_ROOT qp) with
    | mk qp1 r =>
      have := lk_evacuate qp (MOVABLE_ROOT qp)
      rw [hevac] at this
      exact this
  · rfl

theorem lk_make_twigs_mutable (qp : Qp) (nref : Nat) :
    (make_twigs_mutable qp nref).leafkey = qp.leafkey := by
  dsimp only [make_twigs_mutable]
  split
  · cases hevac : evacuate qp (ref_get qp nref) with
    | mk qp1 r =>
      have := lk_evacuate qp (ref_get qp nref)
      rw [hevac] at this
      exact this
  · rfl

theorem lk_compact_fold (go : Qp → QpNode → Option (Qp × Nat))
    (hgo : ∀ qp n out, go qp n = some out → out.1.leafkey = qp.leafkey)
    (parent : QpNode) :
    ∀ (l : List Nat) (acc : Option (Qp × Nat × Bool)) (qp0 : Qp),
      (∀ s, acc = some s → s.1.leafkey = qp0.leafkey) →
      ∀ out, l.foldl (compact_child go parent) acc = some out →
        out.1.leafkey = qp0.leafkey := by
  intro l
  induction l with
  | nil => intro acc qp0 hacc out hout; exact hacc out hout
  | cons a l ih =>
    intro acc qp0 hacc out hout
    rw [List.foldl_cons] at hout
    refine ih _ qp0 ?_ out hout
    intro s hs
    unfold compact_child at hs
    cases acc with
    | none => cases hs
    | some t =>
      obtain ⟨qp, twigs_ref, immutable⟩ := t
      have hq : qp.leafkey = qp0.leafkey := hacc _ rfl
      dsimp only at hs
      by_cases hbr : is_branch (ref_get qp (twigs_ref + a)) = true
      · rw [if_neg (by rw [hbr]; simp)] at hs
        cases hrec : go qp (ref_get qp (twigs_ref + a)) with
        | none => rw [hrec] at hs; cases hs
        | some p =>
          obtain ⟨qp2, ng⟩ := p
          rw [hrec] at hs
          dsimp only at hs
          have hq2 : qp2.leafkey = qp0.leafkey := by
            rw [hgo _ _ _ hrec]; exact hq
          by_cases hsame : branch_twigs_ref (ref_get qp (twigs_ref + a)) = ng
          · rw [if_pos hsame] at hs
            cases hs
            exact hq2
          · rw [if_neg hsame] at hs
            by_cases himm : immutable = true
            · subst himm
              rw [if_pos rfl] at hs
              cases hevac : evacuate qp2 parent with
              | mk qp3 r3 =>
                rw [hevac] at hs
                dsimp only at hs
                cases hs
                have := lk_evacuate qp2 parent
                rw [hevac] at this
                rw [lk_ref_set, this]
                exact hq2
            · rw [if_neg himm] at hs
              dsimp only at hs
              cases hs
              rw [lk_ref_set]
              exact hq2
      · rw [if_pos (by revert hbr; cases is_branch (ref_get qp (twigs_ref + a)) <;> simp)] at hs
        cases hs
        exact hq

theorem lk_compact_recursive :
    ∀ (fuel : Nat) (qp : Qp) (parent : QpNode) (out : Qp × Nat),
      compact_recursive fuel qp parent = some out →
        out.1.leafkey = qp.leafkey := by
  intro fuel
  induction fuel with
  | zero => intro qp parent out hout; cases hout
  | succ fuel ih =>
    intro qp parent out hout
    rw [compact_recursive] at hout
    rcases hsel : (if (qp.compact_all ||
          decide (ref_chunk (branch_twigs_ref parent) ≠ qp.bump) &&
            decide (chunk_usage qp (ref_chunk (branch_twigs_ref parent)) <
              QP_MIN_USED)) = true then
        evacuate qp parent
      else (qp, branch_twigs_ref parent)) with ⟨qp1, twigs1⟩
    have h1 : qp1.leafkey = qp.leafkey := by
      by_cases hc : (qp.compact_all ||
          decide (ref_chunk (branch_twigs_ref parent) ≠ qp.bump) &&
            decide (chunk_usage qp (ref_chunk (branch_twigs_ref parent)) <
              QP_MIN_USED)) = true
      · rw [if_pos hc] at hsel
        have := lk_evacuate qp parent
        rw [hsel] at this
        exact this
      · rw [if_neg hc] at hsel
        cases hsel
        rfl
    rw [hsel] at hout
    dsimp only at hout
    rcases hfold : (List.range (branch_twigs_size parent)).foldl
        (compact_child (compact_recursive fuel) parent)
        (some (qp1, twigs1, cells_immutable qp1 twigs1)) with _ | fout
    · rw [hfold] at hout
      cases hout
    · rw [hfold] at hout
      obtain ⟨qpf, trf, immf⟩ := fout
      dsimp only at hout
      cases hout
      exact lk_compact_fold (compact_recursive fuel)
        (fun qp n out hgo => ih qp n out hgo) parent _ _ qp
        (fun s hs => by cases hs; exact h1) _ hfold

theorem lk_compact (fuel : Nat) (qp : Qp) (out : Qp)
    (hout : compact fuel qp = some out) : out.leafkey = qp.leafkey := by
  unfold compact at hout
  set qp1 := if (usage_get qp qp.bump).free > QP_MAX_FREE then alloc_reset qp
             else qp with hqp1
  have h1 : qp1.leafkey = qp.leafkey := by
    rw [hqp1]
    split
    · exact lk_alloc_slow qp 0
    · rfl
  dsimp only at hout
  by_cases hleaf : qp1.leaf_count > 0
  · rw [if_pos hleaf] at hout
    rcases hrec : compact_recursive fuel qp1 (MOVABLE_ROOT qp1) with _ | p
    · rw [hrec] at hout
      cases hout
    · rw [hrec] at hout
      obtain ⟨qp2, r2⟩ := p
      dsimp only at hout
      cases hout
      have := lk_compact_recursive fuel qp1 (MOVABLE_ROOT qp1) _ hrec
      dsimp only
      rw [this]
      exact h1
  · rw [if_neg hleaf] at hout
    cases hout
    exact h1

theorem lk_squash_twigs (fuel : Nat) (qp : Qp) (t s : Nat) (out : Qp × Bool)
    (hout : squash_twigs fuel qp t s = some out) :
    out.1.leafkey = qp.leafkey := by
  unfold squash_twigs at hout
  cases hfree : free_twigs qp t s with
  | mk qp1 destroyed =>
    rw [hfree] at hout
    have h1 : qp1.leafkey = qp.leafkey := by
      have := lk_free_twigs qp t s
      rw [hfree] at this
      exact this
    dsimp only at hout
    by_cases hgc : (destroyed && QP_AUTOGC qp1) = true
    · rw [if_pos hgc] at hout
      rcases hcomp : compact fuel qp1 with _ | qp2
      · rw [hcomp] at hout
        cases hout
      · rw [hcomp] at hout
        dsimp only at hout
        cases hout
        have h2 := lk_compact fuel qp1 qp2 hcomp
        split
        · dsimp only
          rw [lk_recycle, h2, h1]
        · rw [lk_recycle, h2, h1]
    · rw [if_neg hgc] at hout
      cases hout
      exact h1

theorem lk_insert_newbranch (qp : Qp) (new_leaf : QpNode)
    (nb ob off nref : Nat) :
    (insert_newbranch qp new_leaf nb ob off nref).leafkey = qp.leafkey := by
  simp only [insert_newbranch]
  cases halloc : alloc_twigs qp 2 with
  | mk qp1 new_ref =>
    dsimp only
    have hq1 : qp1.leafkey = qp.leafkey := by
      have := lk_alloc_twigs qp 2
      rw [halloc] at this
      exact this
    rw [lk_ref_set, lk_ref_set, lk_ref_set]
    exact hq1

theorem lk_insert_growbranch (fuel : Nat) (qp : Qp) (new_leaf : QpNode)
    (nb nref : Nat) (out : Qp)
    (hout : insert_growbranch fuel qp new_leaf nb nref = some out) :
    out.leafkey = qp.leafkey := by
  simp only [insert_growbranch] at hout
  cases halloc : alloc_twigs qp (branch_twigs_size (ref_get qp nref) + 1) with
  | mk qp1 new_ref =>
    rw [halloc] at hout
    dsimp only at hout
    have hq1 : qp1.leafkey = qp.leafkey := by
      have := lk_alloc_twigs qp (branch_twigs_size (ref_get qp nref) + 1)
      rw [halloc] at this
      exact this
    rcases hsq : squash_twigs fuel
        (move_twigs
          (ref_set
            (move_twigs
              (ref_set qp1 nref
                (make_node (branch_index (ref_get qp nref) ||| (1 <<< nb))
                  new_ref))
              new_ref (branch_twigs_ref (ref_get qp nref))
              (branch_twig_pos
                (make_node (branch_index (ref_get qp nref) ||| (1 <<< nb))
                  new_ref) nb))
            (new_ref +
              branch_twig_pos
                (make_node (branch_index (ref_get qp nref) ||| (1 <<< nb))
                  new_ref) nb) new_leaf)
          (new_ref +
              branch_twig_pos
                (make_node (branch_index (ref_get qp nref) ||| (1 <<< nb))
                  new_ref) nb + 1)
          (branch_twigs_ref (ref_get qp nref) +
              branch_twig_pos
                (make_node (branch_index (ref_get qp nref) ||| (1 <<< nb))
                  new_ref) nb)
          (branch_twigs_size (ref_get qp nref) -
              branch_twig_pos
                (make_node (branch_index (ref_get qp nref) ||| (1 <<< nb))
                  new_ref) nb))
        (branch_twigs_ref (ref_get qp nref))
        (branch_twigs_size (ref_get qp nref)) with _ | p
    · rw [hsq] at hout
      cases hout
    · rw [hsq] at hout
      obtain ⟨qps, destroyed⟩ := p
      dsimp only at hout
      cases hout
      dsimp only
      have := lk_squash_twigs fuel _ _ _ _ hsq
      dsimp only at this
      rw [this, lk_move_twigs, lk_ref_set, lk_move_twigs, lk_ref_set]
      exact hq1

theorem lk_insert_cow (new_leaf : QpNode) (key : List Nat)
    (keylen nb ob off : Nat) :
    ∀ (fuel : Nat) (qp : Qp) (nref : Nat) (out : Qp),
      insert_cow new_leaf key keylen nb ob off fuel qp nref = some out →
      out.leafkey = qp.leafkey := by
  intro fuel
  induction fuel with
  | zero => intro qp nref out hout; cases hout
  | succ fuel ih =>
    intro qp nref out hout
    rw [insert_cow] at hout
    by_cases hbr : is_branch (ref_get qp nref) = true
    · rw [if_pos hbr] at hout
      by_cases hlt : off < branch_key_offset (ref_get qp nref)
      · rw [if_pos hlt] at hout
        cases hout
        exact lk_insert_newbranch qp new_leaf nb ob off nref
      · rw [if_neg hlt] at hout
        by_cases heq : off = branch_key_offset (ref_get qp nref)
        · rw [if_pos heq] at hout
          exact lk_insert_growbranch fuel qp new_leaf nb nref out hout
        · rw [if_neg heq] at hout
          dsimp only at hout
          rcases Bool.eq_false_or_eq_true (branch_has_twig
              (ref_get (make_twigs_mutable qp nref) nref)
              (branch_keybit (ref_get (make_twigs_mutable qp nref) nref)
                key keylen)) with htw | htw
          · rw [if_neg (by rw [htw]; simp)] at hout
            rw [ih _ _ out hout, lk_make_twigs_mutable]
          · rw [if_pos (by rw [htw]; rfl)] at hout
            cases hout
    · rw [if_neg hbr] at hout
      cases hout
      exact lk_insert_newbranch qp new_leaf nb ob off nref

theorem lk_dns_qp_insert (fuel : Nat) (qp : Qp) (pval ival : Nat)
    (res : QpResult) (out : Qp)
    (hout : dns_qp_insert fuel qp pval ival = some (res, out)) :
    out.leafkey = qp.leafkey := by
  unfold dns_qp_insert at hout
  by_cases hempty : qp.leaf_count = 0
  · rw [if_pos hempty] at hout
    cases halloc : alloc_twigs qp 1 with
    | mk qp1 new_ref =>
      rw [halloc] at hout
      dsimp only at hout
      cases hout
      dsimp only
      rw [lk_ref_set]
      have := lk_alloc_twigs qp 1
      rw [halloc] at this
      exact this
  · rw [if_neg hempty] at hout
    rcases hdesc : insert_descend qp (leaf_qpkey qp (make_leaf pval ival))
        (leaf_qpkey qp (make_leaf pval ival)).length fuel qp.root_ref with
      _ | nref
    · rw [hdesc] at hout
      cases hout
    · rw [hdesc] at hout
      dsimp only at hout
      by_cases heq : qpkey_compare (leaf_qpkey qp (make_leaf pval ival))
          (leaf_qpkey qp (make_leaf pval ival)).length
          (leaf_qpkey qp (ref_get qp nref))
          (leaf_qpkey qp (ref_get qp nref)).length = QPKEY_EQUAL
      · rw [if_pos heq] at hout
        cases hout
        rfl
      · rw [if_neg heq] at hout
        rcases hcow : insert_cow (make_leaf pval ival)
            (leaf_qpkey qp (make_leaf pval ival))
            (leaf_qpkey qp (make_leaf pval ival)).length
            (qpkey_bit (leaf_qpkey qp (make_leaf pval ival))
              (leaf_qpkey qp (make_leaf pval ival)).length
              (qpkey_compare (leaf_qpkey qp (make_leaf pval ival))
                (leaf_qpkey qp (make_leaf pval ival)).length
                (leaf_qpkey qp (ref_get qp nref))
                (leaf_qpkey qp (ref_get qp nref)).length))
            (qpkey_bit (leaf_qpkey qp (ref_get qp nref))
              (leaf_qpkey qp (ref_get qp nref)).length
              (qpkey_compare (leaf_qpkey qp (make_leaf pval ival))
                (leaf_qpkey qp (make_leaf pval ival)).length
                (leaf_qpkey qp (ref_get qp nref))
                (leaf_qpkey qp (ref_get qp nref)).length))
            (qpkey_compare (leaf_qpkey qp (make_leaf pval ival))
              (leaf_qpkey qp (make_leaf pval ival)).length
              (leaf_qpkey qp (ref_get qp nref))
              (leaf_qpkey qp (ref_get qp nref)).length)
            fuel (make_root_mutable qp) (make_root_mutable qp).root_ref
          with _ | qpf
        · rw [hcow] at hout
          cases hout
        · rw [hcow] at hout
          dsimp only at hout
          cases hout
          rw [lk_insert_cow _ _ _ _ _ _ fuel _ _ _ hcow,
            lk_make_root_mutable]

theorem lk_delete_descend (key : List Nat) (keylen : Nat) :
    ∀ (fuel : Nat) (qp : Qp) (parent : Option Nat) (bit nref : Nat)
      (out : Qp × Option (Option Nat × Nat × Nat)),
      delete_descend key keylen fuel qp parent bit nref = some out →
      out.1.leafkey = qp.leafkey := by
  intro fuel
  induction fuel with
  | zero => intro qp parent bit nref out hout; cases hout
  | succ fuel ih =>
    intro qp parent bit nref out hout
    rw [delete_descend] at hout
    by_cases hbr : is_branch (ref_get qp nref) = true
    · rw [if_pos hbr] at hout
      dsimp only at hout
      rcases Bool.eq_false_or_eq_true (branch_has_twig (ref_get qp nref)
          (branch_keybit (ref_get qp nref) key keylen)) with htw | htw
      · rw [if_neg (by rw [htw]; simp)] at hout
        rw [ih _ _ _ _ out hout, lk_make_twigs_mutable]
      · rw [if_pos (by rw [htw]; rfl)] at hout
        cases hout
        rfl
    · rw [if_neg hbr] at hout
      cases hout
      rfl

theorem lk_dns_qp_deletekey (fuel : Nat) (qp : Qp) (key : List Nat)
    (keylen : Nat) (res : QpResult) (out : Qp)
    (hout : dns_qp_deletekey fuel qp key keylen = some (res, out)) :
    out.leafkey = qp.leafkey := by
  unfold dns_qp_deletekey at hout
  by_cases hroot : get_root_valid qp = true
  · rw [if_neg (by rw [hroot]; simp)] at hout
    dsimp only at hout
    rcases hdesc : delete_descend key keylen fuel (make_root_mutable qp) none 0
        (make_root_mutable qp).root_ref with _ | dout
    · rw [hdesc] at hout
      cases hout
    · rw [hdesc] at hout
      obtain ⟨qp1, info⟩ := dout
      have hq1 : qp1.leafkey = qp.leafkey := by
        have := lk_delete_descend key keylen fuel _ none 0 _ _ hdesc
        rw [lk_make_root_mutable] at this
        exact this
      cases info with
      | none =>
        dsimp only at hout
        cases hout
        exact hq1
      | some t =>
        obtain ⟨parent, bit, nref⟩ := t
        dsimp only at hout
        by_cases heq : qpkey_compare key keylen
            (leaf_qpkey qp1 (ref_get qp1 nref))
            (leaf_qpkey qp1 (ref_get qp1 nref)).length ≠ QPKEY_EQUAL
        · rw [if_pos heq] at hout
          cases hout
          exact hq1
        · rw [if_neg heq] at hout
          by_cases hzero : qp1.leaf_count - 1 = 0
          · rw [if_pos hzero] at hout
            cases hfree : free_twigs { qp1 with leaf_count := qp1.leaf_count - 1 }
                { qp1 with leaf_count := qp1.leaf_count - 1 }.root_ref 1 with
            | mk qp2 d2 =>
              rw [hfree] at hout
              dsimp only at hout
              cases hout
              dsimp only
              have := lk_free_twigs { qp1 with leaf_count := qp1.leaf_count - 1 }
                { qp1 with leaf_count := qp1.leaf_count - 1 }.root_ref 1
              rw [hfree] at this
              dsimp only at this
              rw [this]
              exact hq1
          · rw [if_neg hzero] at hout
            cases parent with
            | none => cases hout
            | some pref =>
              dsimp only at hout
              by_cases hsz : branch_twigs_size
                  (ref_get { qp1 with leaf_count := qp1.leaf_count - 1 } pref) = 2
              · rw [if_pos hsz] at hout
                rcases hsq : squash_twigs fuel
                    (ref_set { qp1 with leaf_count := qp1.leaf_count - 1 } pref
                      (ref_get { qp1 with leaf_count := qp1.leaf_count - 1 }
                        (branch_twigs_ref
                            (ref_get { qp1 with leaf_count := qp1.leaf_count - 1 }
                              pref) +
                          (if branch_twig_pos
                                (ref_get { qp1 with leaf_count := qp1.leaf_count - 1 }
                                  pref) bit = 0 then 1 else 0))))
                    (branch_twigs_ref
                      (ref_get { qp1 with leaf_count := qp1.leaf_count - 1 } pref))
                    2 with _ | p2
                · rw [hsq] at hout
                  cases hout
                · rw [hsq] at hout
                  obtain ⟨qps, ds⟩ := p2
                  dsimp only at hout
                  cases hout
                  have := lk_squash_twigs fuel _ _ _ _ hsq
                  dsimp only at this
                  rw [this, lk_ref_set]
                  exact hq1
              · rw [if_neg hsz] at hout
                rcases hsq : squash_twigs fuel
                    (move_twigs
                      (ref_set { qp1 with leaf_count := qp1.leaf_count - 1 } pref
                        (make_node
                          (if (branch_index
                                (ref_get { qp1 with leaf_count := qp1.leaf_count - 1 }
                                  pref)).testBit bit then
                            branch_index
                                (ref_get { qp1 with leaf_count := qp1.leaf_count - 1 }
                                  pref) - 2 ^ bit
                          else
                            branch_index
                              (ref_get { qp1 with leaf_count := qp1.leaf_count - 1 }
                                pref))
                          (branch_twigs_ref
                            (ref_get { qp1 with leaf_count := qp1.leaf_count - 1 }
                              pref))))
                      (branch_twigs_ref
                          (ref_get { qp1 with leaf_count := qp1.leaf_count - 1 }
                            pref) +
                        branch_twig_pos
                          (ref_get { qp1 with leaf_count := qp1.leaf_count - 1 }
                            pref) bit)
                      (branch_twigs_ref
                          (ref_get { qp1 with leaf_count := qp1.leaf_count - 1 }
                            pref) +
                        branch_twig_pos
                          (ref_get { qp1 with leaf_count := qp1.leaf_count - 1 }
                            pref) bit + 1)
                      (branch_twigs_size
                          (ref_get { qp1 with leaf_count := qp1.leaf_count - 1 }
                            pref) -
                        branch_twig_pos
                          (ref_get { qp1 with leaf_count := qp1.leaf_count - 1 }
                            pref) bit - 1))
                    (branch_twigs_ref
                        (ref_get { qp1 with leaf_count := qp1.leaf_count - 1 }
                          pref) +
                      branch_twigs_size
                        (ref_get { qp1 with leaf_count := qp1.leaf_count - 1 }
                          pref) - 1)
                    1 with _ | p2
                · rw [hsq] at hout
                  cases hout
                · rw [hsq] at hout
                  obtain ⟨qps, ds⟩ := p2
                  dsimp only at hout
                  cases hout
                  have := lk_squash_twigs fuel _ _ _ _ hsq
                  dsimp only at this
                  rw [this, lk_move_twigs, lk_ref_set]
                  exact hq1
  · rw [if_pos (by revert hroot; cases get_root_valid qp <;> simp)] at hout
    cases hout
    rfl

/-! ### Reachable-state branch invariant (claim C3) -/

theorem heap_ok_QP_INIT (f : Nat → Nat → List Nat) : heap_ok (QP_INIT f) :=
  fun _ => rfl

theorem heap_ok_dns_qp_create (f : Nat → Nat → List Nat) :
    heap_ok (dns_qp_create f) :=
  heap_ok_alloc_slow (heap_ok_QP_INIT f) 0

theorem lk_dns_qp_create (f : Nat → Nat → List Nat) :
    (dns_qp_create f).leafkey = f := by
  unfold dns_qp_create alloc_reset
  rw [lk_alloc_slow]
  rfl

theorem heap_ok_run_ops (f : Nat → Nat → List Nat) (hf : leafkey_ok f) :
    ∀ (ops : List QpOp) (qp : Qp), heap_ok qp → qp.leafkey = f →
      ops_ok ops → ∀ out, run_ops qp ops = some out →
      heap_ok out ∧ out.leafkey = f := by
  intro ops
  induction ops with
  | nil =>
    intro qp h hlk _ out hout
    cases hout
    exact ⟨h, hlk⟩
  | cons op rest ih =>
    intro qp h hlk hops out hout
    rw [run_ops] at hout
    cases op with
    | insert fuel pval ival =>
      obtain ⟨hp, hrest⟩ := hops
      simp only [apply_op] at hout
      rcases hins : dns_qp_insert fuel qp pval ival with _ | p
      · rw [hins] at hout
        cases hout
      · rw [hins] at hout
        obtain ⟨res, qp1⟩ := p
        dsimp only at hout
        have hq1 : heap_ok qp1 :=
          heap_ok_dns_qp_insert h (hlk ▸ hf) fuel pval ival hp res qp1 hins
        have hl1 : qp1.leafkey = f := by
          rw [lk_dns_qp_insert fuel qp pval ival res qp1 hins, hlk]
        exact ih qp1 hq1 hl1 hrest out hout
    | deletekey fuel key keylen =>
      obtain ⟨hk, hrest⟩ := hops
      simp only [apply_op] at hout
      rcases hdel : dns_qp_deletekey fuel qp key keylen with _ | p
      · rw [hdel] at hout
        cases hout
      · rw [hdel] at hout
        obtain ⟨res, qp1⟩ := p
        dsimp only at hout
        have hq1 : heap_ok qp1 :=
          heap_ok_dns_qp_deletekey h fuel key keylen hk res qp1 hdel
        have hl1 : qp1.leafkey = f := by
          rw [lk_dns_qp_deletekey fuel qp key keylen res qp1 hdel, hlk]
        exact ih qp1 hq1 hl1 hrest out hout

theorem node_ok_branch_size {n : QpNode} (hb : is_branch n = true)
    (h : node_ok n = true) : 2 ≤ branch_twigs_size n := by
  cases n with
  | leaf p i => cases hb
  | anchor => cases hb
  | branch i r =>
    simp only [node_ok, Bool.and_eq_true, decide_eq_true_eq] at h
    exact h.2

/-- **C3.** In every trie state reachable from the empty trie
(`dns_qp_create`) by a sequence of `dns_qp_insert` and `dns_qp_deletekey`
operations — with a `leaf_qpkey` method producing well-formed keys, inserted
pvals pointer-aligned and delete search keys well-formed — every cell that
holds a branch node has a bitmap of popcount at least 2 (the twig vector of
a branch has `popcount(bitmap)` twigs by the branch accessor definitions, so
no branch with fewer than two twigs ever remains; in particular the
two-twig delete path of `dns_qp_deletekey` replaced parents by their
surviving twig rather than leave a one-twig branch). -/
theorem C3_branch_invariant (f : Nat → Nat → List Nat) (hf : leafkey_ok f)
    (ops : List QpOp) (hops : ops_ok ops) (out : Qp)
    (hout : run_ops (dns_qp_create f) ops = some out) :
    ∀ r, is_branch (ref_get out r) = true →
      2 ≤ branch_twigs_size (ref_get out r) := by
  intro r hb
  have h := (heap_ok_run_ops f hf ops (dns_qp_create f)
    (heap_ok_dns_qp_create f) (lk_dns_qp_create f) hops out hout).1
  exact node_ok_branch_size hb (h r)

theorem C3_branch_invariant_witness :
    is_branch (ref_get qp_c3 qp_c3.root_ref) = true ∧
    2 ≤ branch_twigs_size (ref_get qp_c3 qp_c3.root_ref) := by
  have hf : leafkey_ok c3_key := by
    intro p i off
    have h4 := Nat.mod_lt p (show 0 < 4 by omega)
    simp only [c3_key, qpkey_bit, SHIFT_NOBYTE, SHIFT_OFFSET]
    rw [show [2 + p % 4].length = 1 from rfl]
    rcases off with _ | k
    · rw [if_pos (by omega)]
      rw [show [2 + p % 4].getD 0 0 = 2 + p % 4 from rfl]
      omega
    · rw [if_neg (by omega)]
      omega
  have hops : ops_ok c3_ops := ⟨rfl, rfl, trivial⟩
  have hrun : run_ops (dns_qp_create c3_key) c3_ops = some qp_c3 := rfl
  have hb : is_branch (ref_get qp_c3 qp_c3.root_ref) = true := by decide
  exact ⟨hb,
    C3_branch_invariant c3_key hf c3_ops hops qp_c3 hrun qp_c3.root_ref hb⟩

/-! ### The transaction mode never changes inside a transaction -/

theorem tm_foldl (l : List Nat) (step : Qp → Nat → Qp)
    (hstep : ∀ qp i, (step qp i).transaction_mode = qp.transaction_mode) :
    ∀ qp : Qp, (l.foldl step qp).transaction_mode = qp.transaction_mode := by
  induction l with
  | nil => intro qp; rfl
  | cons a l ih => intro qp; rw [List.foldl_cons, ih, hstep]

theorem tm_ref_set (qp : Qp) (r : Nat) (n : QpNode) :
    (ref_set qp r n).transaction_mode = qp.transaction_mode := rfl

theorem tm_zero_twigs (qp : Qp) (r s : Nat) :
    (zero_twigs qp r s).transaction_mode = qp.transaction_mode := by
  unfold zero_twigs
  exact tm_foldl (List.range s) (fun qp i => ref_set qp (r + i) zero_node)
    (fun qp i => tm_ref_set qp (r + i) zero_node) qp

theorem tm_move_twigs (qp : Qp) (d s k : Nat) :
    (move_twigs qp d s k).transaction_mode = qp.transaction_mode := by
  unfold move_twigs
  dsimp only
  exact tm_foldl (List.range k) _
    (fun qp' i => tm_ref_set qp' (d + i) _) qp

theorem tm_chunk_alloc (qp : Qp) (c s : Nat) :
    (chunk_alloc qp c s).1.transaction_mode = qp.transaction_mode := rfl

theorem tm_alloc_slow (qp : Qp) (s : Nat) :
    (alloc_slow qp s).1.transaction_mode = qp.transaction_mode := by
  unfold alloc_slow
  cases (List.range qp.chunk_max).find? (fun c => !(usage_get qp c).exists_) <;>
    rfl

theorem tm_alloc_twigs (qp : Qp) (s : Nat) :
    (alloc_twigs qp s).1.transaction_mode = qp.transaction_mode := by
  unfold alloc_twigs
  dsimp only
  split
  · rfl
  · exact tm_alloc_slow qp s

theorem tm_free_twigs (qp : Qp) (t s : Nat) :
    (free_twigs qp t s).1.transaction_mode = qp.transaction_mode := by
  unfold free_twigs
  dsimp only
  split
  · rfl
  · exact tm_zero_twigs _ t s

theorem tm_chunk_free (qp : Qp) (c : Nat) :
    (chunk_free qp c).transaction_mode = qp.transaction_mode := by
  unfold chunk_free chunk_discount
  split <;> rfl

theorem tm_recycle (qp : Qp) : (recycle qp).transaction_mode = qp.transaction_mode := by
  unfold recycle
  apply tm_foldl
  intro qp i
  split
  · exact tm_chunk_free qp i
  · rfl

theorem tm_evacuate (qp : Qp) (n : QpNode) :
    (evacuate qp n).1.transaction_mode = qp.transaction_mode := by
  simp only [evacuate]
  cases halloc : alloc_twigs qp (branch_twigs_size n) with
  | mk qp1 r1 =>
    cases hfree : free_twigs (move_twigs qp1 r1 (branch_twigs_ref n)
        (branch_twigs_size n)) (branch_twigs_ref n) (branch_twigs_size n) with
    | mk qp2 d2 =>
      have e1 : qp1.transaction_mode = qp.transaction_mode := by
        have := tm_alloc_twigs qp (branch_twigs_size n)
        rw [halloc] at this
        exact this
      have e2 := tm_free_twigs (move_twigs qp1 r1 (branch_twigs_ref n)
        (branch_twigs_size n)) (branch_twigs_ref n) (branch_twigs_size n)
      rw [hfree] at e2
      dsimp only
      rw [e2, tm_move_twigs, e1]

theorem tm_make_root_mutable (qp : Qp) :
    (make_root_mutable qp).transaction_mode = qp.transaction_mode := by
  unfold make_root_mutable
  split
  · cases hevac : evacuate qp (MOVABLE_ROOT qp) with
    | mk qp1 r =>
      have := tm_evacuate qp (MOVABLE_ROOT qp)
      rw [hevac] at this
      exact this
  · rfl

theorem tm_make_twigs_mutable (qp : Qp) (nref : Nat) :
    (make_twigs_mutable qp nref).transaction_mode = qp.transaction_mode := by
  dsimp only [make_twigs_mutable]
  split
  · cases hevac : evacuate qp (ref_get qp nref) with
    | mk qp1 r =>
      have := tm_evacuate qp (ref_get qp nref)
      rw [hevac] at this
      exact this
  · rfl

theorem tm_compact_fold (go : Qp → QpNode → Option (Qp × Nat))
    (hgo : ∀ qp n out, go qp n = some out → out.1.transaction_mode = qp.transaction_mode)
    (parent : QpNode) :
    ∀ (l : List Nat) (acc : Option (Qp × Nat × Bool)) (qp0 : Qp),
      (∀ s, acc = some s → s.1.transaction_mode = qp0.transaction_mode) →
      ∀ out, l.foldl (compact_child go parent) acc = some out →
        out.1.transaction_mode = qp0.transaction_mode := by
  intro l
  induction l with
  | nil => intro acc qp0 hacc out hout; exact hacc out hout
  | cons a l ih =>
    intro acc qp0 hacc out hout
    rw [List.foldl_cons] at hout
    refine ih _ qp0 ?_ out hout
    intro s hs
    unfold compact_child at hs
    cases acc with
    | none => cases hs
    | some t =>
      obtain ⟨qp, twigs_ref, immutable⟩ := t
      have hq : qp.transaction_mode = qp0.transaction_mode := hacc _ rfl
      dsimp only at hs
      by_cases hbr : is_branch (ref_get qp (twigs_ref + a)) = true
      · rw [if_neg (by rw [hbr]; simp)] at hs
        cases hrec : go qp (ref_get qp (twigs_ref + a)) with
        | none => rw [hrec] at hs; cases hs
        | some p =>
          obtain ⟨qp2, ng⟩ := p
          rw [hrec] at hs
          dsimp only at hs
          have hq2 : qp2.transaction_mode = qp0.transaction_mode := by
            rw [hgo _ _ _ hrec]; exact hq
          by_cases hsame : branch_twigs_ref (ref_get qp (twigs_ref + a)) = ng
          · rw [if_pos hsame] at hs
            cases hs
            exact hq2
          · rw [if_neg hsame] at hs
            by_cases himm : immutable = true
            · subst himm
              rw [if_pos rfl] at hs
              cases hevac : evacuate qp2 parent with
              | mk qp3 r3 =>
                rw [hevac] at hs
                dsimp only at hs
                cases hs
                have := tm_evacuate qp2 parent
                rw [hevac] at this
                rw [tm_ref_set, this]
                exact hq2
            · rw [if_neg himm] at hs
              dsimp only at hs
              cases hs
              rw [tm_ref_set]
              exact hq2
      · rw [if_pos (by revert hbr; cases is_branch (ref_get qp (twigs_ref + a)) <;> simp)] at hs
        cases hs
        exact hq

theorem tm_compact_recursive :
    ∀ (fuel : Nat) (qp : Qp) (parent : QpNode) (out : Qp × Nat),
      compact_recursive fuel qp parent = some out →
        out.1.transaction_mode = qp.transaction_mode := by
  intro fuel
  induction fuel with
  | zero => intro qp parent out hout; cases hout
  | succ fuel ih =>
    intro qp parent out hout
    rw [compact_recursive] at hout
    rcases hsel : (if (qp.compact_all ||
          decide (ref_chunk (branch_twigs_ref parent) ≠ qp.bump) &&
            decide (chunk_usage qp (ref_chunk (branch_twigs_ref parent)) <
              QP_MIN_USED)) = true then
        evacuate qp parent
      else (qp, branch_twigs_ref parent)) with ⟨qp1, twigs1⟩
    have h1 : qp1.transaction_mode = qp.transaction_mode := by
      by_cases hc : (qp.compact_all ||
          decide (ref_chunk (branch_twigs_ref parent) ≠ qp.bump) &&
            decide (chunk_usage qp (ref_chunk (branch_twigs_ref parent)) <
              QP_MIN_USED)) = true
      · rw [if_pos hc] at hsel
        have := tm_evacuate qp parent
        rw [hsel] at this
        exact this
      · rw [if_neg hc] at hsel
        cases hsel
        rfl
    rw [hsel] at hout
    dsimp only at hout
    rcases hfold : (List.range (branch_twigs_size parent)).foldl
        (compact_child (compact_recursive fuel) parent)
        (some (qp1, twigs1, cells_immutable qp1 twigs1)) with _ | fout
    · rw [hfold] at hout
      cases hout
    · rw [hfold] at hout
      obtain ⟨qpf, trf, immf⟩ := fout
      dsimp only at hout
      cases hout
      exact tm_compact_fold (compact_recursive fuel)
        (fun qp n out hgo => ih qp n out hgo) parent _ _ qp
        (fun s hs => by cases hs; exact h1) _ hfold

theorem tm_compact (fuel : Nat) (qp : Qp) (out : Qp)
    (hout : compact fuel qp = some out) : out.transaction_mode = qp.transaction_mode := by
  unfold compact at hout
  set qp1 := if (usage_get qp qp.bump).free > QP_MAX_FREE then alloc_reset qp
             else qp with hqp1
  have h1 : qp1.transaction_mode = qp.transaction_mode := by
    rw [hqp1]
    split
    · exact tm_alloc_slow qp 0
    · rfl
  dsimp only at hout
  by_cases hleaf : qp1.leaf_count > 0
  · rw [if_pos hleaf] at hout
    rcases hrec : compact_recursive fuel qp1 (MOVABLE_ROOT qp1) with _ | p
    · rw [hrec] at hout
      cases hout
    · rw [hrec] at hout
      obtain ⟨qp2, r2⟩ := p
      dsimp only at hout
      cases hout
      have := tm_compact_recursive fuel qp1 (MOVABLE_ROOT qp1) _ hrec
      dsimp only
      rw [this]
      exact h1
  · rw [if_neg hleaf] at hout
    cases hout
    exact h1

theorem tm_squash_twigs (fuel : Nat) (qp : Qp) (t s : Nat) (out : Qp × Bool)
    (hout : squash_twigs fuel qp t s = some out) :
    out.1.transaction_mode = qp.transaction_mode := by
  unfold squash_twigs at hout
  cases hfree : free_twigs qp t s with
  | mk qp1 destroyed =>
    rw [hfree] at hout
    have h1 : qp1.transaction_mode = qp.transaction_mode := by
      have := tm_free_twigs qp t s
      rw [hfree] at this
      exact this
    dsimp only at hout
    by_cases hgc : (destroyed && QP_AUTOGC qp1) = true
    · rw [if_pos hgc] at hout
      rcases hcomp : compact fuel qp1 with _ | qp2
      · rw [hcomp] at hout
        cases hout
      · rw [hcomp] at hout
        dsimp only at hout
        cases hout
        have h2 := tm_compact fuel qp1 qp2 hcomp
        split
        · dsimp only
          rw [tm_recycle, h2, h1]
        · rw [tm_recycle, h2, h1]
    · rw [if_neg hgc] at hout
      cases hout
      exact h1

theorem tm_insert_newbranch (qp : Qp) (new_leaf : QpNode)
    (nb ob off nref : Nat) :
    (insert_newbranch qp new_leaf nb ob off nref).transaction_mode = qp.transaction_mode := by
  simp only [insert_newbranch]
  cases halloc : alloc_twigs qp 2 with
  | mk qp1 new_ref =>
    dsimp only
    have hq1 : qp1.transaction_mode = qp.transaction_mode := by
      have := tm_alloc_twigs qp 2
      rw [halloc] at this
      exact this
    rw [tm_ref_set, tm_ref_set, tm_ref_set]
    exact hq1

theorem tm_insert_growbranch (fuel : Nat) (qp : Qp) (new_leaf : QpNode)
    (nb nref : Nat) (out : Qp)
    (hout : insert_growbranch fuel qp new_leaf nb nref = some out) :
    out.transaction_mode = qp.transaction_mode := by
  simp only [insert_growbranch] at hout
  cases halloc : alloc_twigs qp (branch_twigs_size (ref_get qp nref) + 1) with
  | mk qp1 new_ref =>
    rw [halloc] at hout
    dsimp only at hout
    have hq1 : qp1.transaction_mode = qp.transaction_mode := by
      have := tm_alloc_twigs qp (branch_twigs_size (ref_get qp nref) + 1)
      rw [halloc] at this
      exact this
    rcases hsq : squash_twigs fuel
        (move_twigs
          (ref_set
            (move_twigs
              (ref_set qp1 nref
                (make_node (branch_index (ref_get qp nref) ||| (1 <<< nb))
                  new_ref))
              new_ref (branch_twigs_ref (ref_get qp nref))
              (branch_twig_pos
                (make_node (branch_index (ref_get qp nref) ||| (1 <<< nb))
                  new_ref) nb))
            (new_ref +
              branch_twig_pos
                (make_node (branch_index (ref_get qp nref) ||| (1 <<< nb))
                  new_ref) nb) new_leaf)
          (new_ref +
              branch_twig_pos
                (make_node (branch_index (ref_get qp nref) ||| (1 <<< nb))
                  new_ref) nb + 1)
          (branch_twigs_ref (ref_get qp nref) +
              branch_twig_pos
                (make_node (branch_index (ref_get qp nref) ||| (1 <<< nb))
                  new_ref) nb)
          (branch_twigs_size (ref_get qp nref) -
              branch_twig_pos
                (make_node (branch_index (ref_get qp nref) ||| (1 <<< nb))
                  new_ref) nb))
        (branch_twigs_ref (ref_get qp nref))
        (branch_twigs_size (ref_get qp nref)) with _ | p
    · rw [hsq] at hout
      cases hout
    · rw [hsq] at hout
      obtain ⟨qps, destroyed⟩ := p
      dsimp only at hout
      cases hout
      dsimp only
      have := tm_squash_twigs fuel _ _ _ _ hsq
      dsimp only at this
      rw [this, tm_move_twigs, tm_ref_set, tm_move_twigs, tm_ref_set]
      exact hq1

theorem tm_insert_cow (new_leaf : QpNode) (key : List Nat)
    (keylen nb ob off : Nat) :
    ∀ (fuel : Nat) (qp : Qp) (nref : Nat) (out : Qp),
      insert_cow new_leaf key keylen nb ob off fuel qp nref = some out →
      out.transaction_mode = qp.transaction_mode := by
  intro fuel
  induction fuel with
  | zero => intro qp nref out hout; cases hout
  | succ fuel ih =>
    intro qp nref out hout
    rw [insert_cow] at hout
    by_cases hbr : is_branch (ref_get qp nref) = true
    · rw [if_pos hbr] at hout
      by_cases hlt : off < branch_key_offset (ref_get qp nref)
      · rw [if_pos hlt] at hout
        cases hout
        exact tm_insert_newbranch qp new_leaf nb ob off nref
      · rw [if_neg hlt] at hout
        by_cases heq : off = branch_key_offset (ref_get qp nref)
        · rw [if_pos heq] at hout
          exact tm_insert_growbranch fuel qp new_leaf nb nref out hout
        · rw [if_neg heq] at hout
          dsimp only at hout
          rcases Bool.eq_false_or_eq_true (branch_has_twig
              (ref_get (make_twigs_mutable qp nref) nref)
              (branch_keybit (ref_get (make_twigs_mutable qp nref) nref)
                key keylen)) with htw | htw
          · rw [if_neg (by rw [htw]; simp)] at hout
            rw [ih _ _ out hout, tm_make_twigs_mutable]
          · rw [if_pos (by rw [htw]; rfl)] at hout
            cases hout
    · rw [if_neg hbr] at hout
      cases hout
      exact tm_insert_newbranch qp new_leaf nb ob off nref

theorem tm_dns_qp_insert (fuel : Nat) (qp : Qp) (pval ival : Nat)
    (res : QpResult) (out : Qp)
    (hout : dns_qp_insert fuel qp pval ival = some (res, out)) :
    out.transaction_mode = qp.transaction_mode := by
  unfold dns_qp_insert at hout
  by_cases hempty : qp.leaf_count = 0
  · rw [if_pos hempty] at hout
    cases halloc : alloc_twigs qp 1 with
    | mk qp1 new_ref =>
      rw [halloc] at hout
      dsimp only at hout
      cases hout
      dsimp only
      rw [tm_ref_set]
      have := tm_alloc_twigs qp 1
      rw [halloc] at this
      exact this
  · rw [if_neg hempty] at hout
    rcases hdesc : insert_descend qp (leaf_qpkey qp (make_leaf pval ival))
        (leaf_qpkey qp (make_leaf pval ival)).length fuel qp.root_ref with
      _ | nref
    · rw [hdesc] at hout
      cases hout
    · rw [hdesc] at hout
      dsimp only at hout
      by_cases heq : qpkey_compare (leaf_qpkey qp (make_leaf pval ival))
          (leaf_qpkey qp (make_leaf pval ival)).length
          (leaf_qpkey qp (ref_get qp nref))
          (leaf_qpkey qp (ref_get qp nref)).length = QPKEY_EQUAL
      · rw [if_pos heq] at hout
        cases hout
        rfl
      · rw [if_neg heq] at hout
        rcases hcow : insert_cow (make_leaf pval ival)
            (leaf_qpkey qp (make_leaf pval ival))
            (leaf_qpkey qp (make_leaf pval ival)).length
            (qpkey_bit (leaf_qpkey qp (make_leaf pval ival))
              (leaf_qpkey qp (make_leaf pval ival)).length
              (qpkey_compare (leaf_qpkey qp (make_leaf pval ival))
                (leaf_qpkey qp (make_leaf pval ival)).length
                (leaf_qpkey qp (ref_get qp nref))
                (leaf_qpkey qp (ref_get qp nref)).length))
            (qpkey_bit (leaf_qpkey qp (ref_get qp nref))
              (leaf_qpkey qp (ref_get qp nref)).length
              (qpkey_compare (leaf_qpkey qp (make_leaf pval ival))
                (leaf_qpkey qp (make_leaf pval ival)).length
                (leaf_qpkey qp (ref_get qp nref))
                (leaf_qpkey qp (ref_get qp nref)).length))
            (qpkey_compare (leaf_qpkey qp (make_leaf pval ival))
              (leaf_qpkey qp (make_leaf pval ival)).length
              (leaf_qpkey qp (ref_get qp nref))
              (leaf_qpkey qp (ref_get qp nref)).length)
            fuel (make_root_mutable qp) (make_root_mutable qp).root_ref
          with _ | qpf
        · rw [hcow] at hout
          cases hout
        · rw [hcow] at hout
          dsimp only at hout
          cases hout
          rw [tm_insert_cow _ _ _ _ _ _ fuel _ _ _ hcow,
            tm_make_root_mutable]

theorem tm_delete_descend (key : List Nat) (keylen : Nat) :
    ∀ (fuel : Nat) (qp : Qp) (parent : Option Nat) (bit nref : Nat)
      (out : Qp × Option (Option Nat × Nat × Nat)),
      delete_descend key keylen fuel qp parent bit nref = some out →
      out.1.transaction_mode = qp.transaction_mode := by
  intro fuel
  induction fuel with
  | zero => intro qp parent bit nref out hout; cases hout
  | succ fuel ih =>
    intro qp parent bit nref out hout
    rw [delete_descend] at hout
    by_cases hbr : is_branch (ref_get qp nref) = true
    · rw [if_pos hbr] at hout
      dsimp only at hout
      rcases Bool.eq_false_or_eq_true (branch_has_twig (ref_get qp nref)
          (branch_keybit (ref_get qp nref) key keylen)) with htw | htw
      · rw [if_neg (by rw [htw]; simp)] at hout
        rw [ih _ _ _ _ out hout, tm_make_twigs_mutable]
      · rw [if_pos (by rw [htw]; rfl)] at hout
        cases hout
        rfl
    · rw [if_neg hbr] at hout
      cases hout
      rfl

theorem tm_dns_qp_deletekey (fuel : Nat) (qp : Qp) (key : List Nat)
    (keylen : Nat) (res : QpResult) (out : Qp)
    (hout : dns_qp_deletekey fuel qp key keylen = some (res, out)) :
    out.transaction_mode = qp.transaction_mode := by
  unfold dns_qp_deletekey at hout
  by_cases hroot : get_root_valid qp = true
  · rw [if_neg (by rw [hroot]; simp)] at hout
    dsimp only at hout
    rcases hdesc : delete_descend key keylen fuel (make_root_mutable qp) none 0
        (make_root_mutable qp).root_ref with _ | dout
    · rw [hdesc] at hout
      cases hout
    · rw [hdesc] at hout
      obtain ⟨qp1, info⟩ := dout
      have hq1 : qp1.transaction_mode = qp.transaction_mode := by
        have := tm_delete_descend key keylen fuel _ none 0 _ _ hdesc
        rw [tm_make_root_mutable] at this
        exact this
      cases info with
      | none =>
        dsimp only at hout
        cases hout
        exact hq1
      | some t =>
        obtain ⟨parent, bit, nref⟩ := t
        dsimp only at hout
        by_cases heq : qpkey_compare key keylen
            (leaf_qpkey qp1 (ref_get qp1 nref))
            (leaf_qpkey qp1 (ref_get qp1 nref)).length ≠ QPKEY_EQUAL
        · rw [if_pos heq] at hout
          cases hout
          exact hq1
        · rw [if_neg heq] at hout
          by_cases hzero : qp1.leaf_count - 1 = 0
          · rw [if_pos hzero] at hout
            cases hfree : free_twigs { qp1 with leaf_count := qp1.leaf_count - 1 }
                { qp1 with leaf_count := qp1.leaf_count - 1 }.root_ref 1 with
            | mk qp2 d2 =>
              rw [hfree] at hout
              dsimp only at hout
              cases hout
              dsimp only
              have := tm_free_twigs { qp1 with leaf_count := qp1.leaf_count - 1 }
                { qp1 with leaf_count := qp1.leaf_count - 1 }.root_ref 1
              rw [hfree] at this
              dsimp only at this
              rw [this]
              exact hq1
          · rw [if_neg hzero] at hout
            cases parent with
            | none => cases hout
            | some pref =>
              dsimp only at hout
              by_cases hsz : branch_twigs_size
                  (ref_get { qp1 with leaf_count := qp1.leaf_count - 1 } pref) = 2
              · rw [if_pos hsz] at hout
                rcases hsq : squash_twigs fuel
                    (ref_set { qp1 with leaf_count := qp1.leaf_count - 1 } pref
                      (ref_get { qp1 with leaf_count := qp1.leaf_count - 1 }
                        (branch_twigs_ref
                            (ref_get { qp1 with leaf_count := qp1.leaf_count - 1 }
                              pref) +
                          (if branch_twig_pos
                                (ref_get { qp1 with leaf_count := qp1.leaf_count - 1 }
                                  pref) bit = 0 then 1 else 0))))
                    (branch_twigs_ref
                      (ref_get { qp1 with leaf_count := qp1.leaf_count - 1 } pref))
                    2 with _ | p2
                · rw [hsq] at hout
                  cases hout
                · rw [hsq] at hout
                  obtain ⟨qps, ds⟩ := p2
                  dsimp only at hout
                  cases hout
                  have := tm_squash_twigs fuel _ _ _ _ hsq
                  dsimp only at this
                  rw [this, tm_ref_set]
                  exact hq1
              · rw [if_neg hsz] at hout
                rcases hsq : squash_twigs fuel
                    (move_twigs
                      (ref_set { qp1 with leaf_count := qp1.leaf_count - 1 } pref
                        (make_node
                          (if (branch_index
                                (ref_get { qp1 with leaf_count := qp1.leaf_count - 1 }
                                  pref)).testBit bit then
                            branch_index
                                (ref_get { qp1 with leaf_count := qp1.leaf_count - 1 }
                                  pref) - 2 ^ bit
                          else
                            branch_index
                              (ref_get { qp1 with leaf_count := qp1.leaf_count - 1 }
                                pref))
                          (branch_twigs_ref
                            (ref_get { qp1 with leaf_count := qp1.leaf_count - 1 }
                              pref))))
                      (branch_twigs_ref
                          (ref_get { qp1 with leaf_count := qp1.leaf_count - 1 }
                            pref) +
                        branch_twig_pos
                          (ref_get { qp1 with leaf_count := qp1.leaf_count - 1 }
                            pref) bit)
                      (branch_twigs_ref
                          (ref_get { qp1 with leaf_count := qp1.leaf_count - 1 }
                            pref) +
                        branch_twig_pos
                          (ref_get { qp1 with leaf_count := qp1.leaf_count - 1 }
                            pref) bit + 1)
                      (branch_twigs_size
                          (ref_get { qp1 with leaf_count := qp1.leaf_count - 1 }
                            pref) -
                        branch_twig_pos
                          (ref_get { qp1 with leaf_count := qp1.leaf_count - 1 }
                            pref) bit - 1))
                    (branch_twigs_ref
                        (ref_get { qp1 with leaf_count := qp1.leaf_count - 1 }
                          pref) +
                      branch_twigs_size
                        (ref_get { qp1 with leaf_count := qp1.leaf_count - 1 }
                          pref) - 1)
                    1 with _ | p2
                · rw [hsq] at hout
                  cases hout
                · rw [hsq] at hout
                  obtain ⟨qps, ds⟩ := p2
                  dsimp only at hout
                  cases hout
                  have := tm_squash_twigs fuel _ _ _ _ hsq
                  dsimp only at this
                  rw [this, tm_move_twigs, tm_ref_set]
                  exact hq1
  · rw [if_pos (by revert hroot; cases get_root_valid qp <;> simp)] at hout
    cases hout
    rfl


/-! ### Rollback (claim C7) -/

theorem tm_run_ops :
    ∀ (ops : List QpOp) (qp out : Qp), run_ops qp ops = some out →
      out.transaction_mode = qp.transaction_mode := by
  intro ops
  induction ops with
  | nil =>
    intro qp out hout
    cases hout
    rfl
  | cons op rest ih =>
    intro qp out hout
    rw [run_ops] at hout
    cases op with
    | insert fuel pval ival =>
      simp only [apply_op] at hout
      rcases hins : dns_qp_insert fuel qp pval ival with _ | p
      · rw [hins] at hout
        cases hout
      · rw [hins] at hout
        obtain ⟨res, qp1⟩ := p
        dsimp only at hout
        rw [ih qp1 out hout, tm_dns_qp_insert fuel qp pval ival res qp1 hins]
    | deletekey fuel key keylen =>
      simp only [apply_op] at hout
      rcases hdel : dns_qp_deletekey fuel qp key keylen with _ | p
      · rw [hdel] at hout
        cases hout
      · rw [hdel] at hout
        obtain ⟨res, qp1⟩ := p
        dsimp only at hout
        rw [ih qp1 out hout, tm_dns_qp_deletekey fuel qp key keylen res qp1 hdel]

theorem foldl_proj {α : Sort _} (g : Qp → α) (l : List Nat)
    (step : Qp → Nat → Qp) (hstep : ∀ qp i, g (step qp i) = g qp) :
    ∀ qp, g (l.foldl step qp) = g qp := by
  induction l with
  | nil => intro qp; rfl
  | cons a l ih => intro qp; rw [List.foldl_cons, ih, hstep]

theorem transaction_open_base (qp : Qp) :
    (transaction_open qp).base = qp.base := by
  unfold transaction_open
  exact foldl_proj Qp.base _ _ (fun qp i => by split <;> rfl) qp

theorem transaction_open_root_ref (qp : Qp) :
    (transaction_open qp).root_ref = qp.root_ref := by
  unfold transaction_open
  exact foldl_proj Qp.root_ref _ _ (fun qp i => by split <;> rfl) qp

theorem transaction_open_used_count (qp : Qp) :
    (transaction_open qp).used_count = qp.used_count := by
  unfold transaction_open
  exact foldl_proj Qp.used_count _ _ (fun qp i => by split <;> rfl) qp

theorem transaction_open_free_count (qp : Qp) :
    (transaction_open qp).free_count = qp.free_count := by
  unfold transaction_open
  exact foldl_proj Qp.free_count _ _ (fun qp i => by split <;> rfl) qp

theorem transaction_open_leaf_count (qp : Qp) :
    (transaction_open qp).leaf_count = qp.leaf_count := by
  unfold transaction_open
  exact foldl_proj Qp.leaf_count _ _ (fun qp i => by split <;> rfl) qp

theorem transaction_open_hold_count (qp : Qp) :
    (transaction_open qp).hold_count = qp.free_count := by
  unfold transaction_open
  exact foldl_proj Qp.free_count _ _ (fun qp i => by split <;> rfl) qp

theorem tm_dns_qp_compact (fuel : Nat) (qp : Qp) (all : Bool) (out : Qp)
    (hout : dns_qp_compact fuel qp all = some out) :
    out.transaction_mode = qp.transaction_mode := by
  unfold dns_qp_compact at hout
  by_cases hgc : (!all && !QP_NEEDGC qp) = true
  · rw [if_pos hgc] at hout
    cases hout
    rfl
  · rw [if_neg hgc] at hout
    dsimp only at hout
    set qp1 := if all then { qp with compact_all := true } else qp with hqp1
    have h1 : qp1.transaction_mode = qp.transaction_mode := by
      rw [hqp1]
      split <;> rfl
    rcases hc : compact fuel qp1 with _ | qp2
    · rw [hc] at hout
      cases hout
    · rw [hc] at hout
      dsimp only at hout
      cases hout
      rw [tm_recycle, tm_compact fuel qp1 qp2 hc, h1]

theorem tm_run_tx_ops :
    ∀ (ops : List QpTxOp) (qp out : Qp), run_tx_ops qp ops = some out →
      out.transaction_mode = qp.transaction_mode := by
  intro ops
  induction ops with
  | nil =>
    intro qp out hout
    cases hout
    rfl
  | cons op rest ih =>
    intro qp out hout
    rw [run_tx_ops] at hout
    cases op with
    | insert fuel pval ival =>
      simp only [apply_tx_op] at hout
      rcases hins : dns_qp_insert fuel qp pval ival with _ | p
      · rw [hins] at hout
        cases hout
      · rw [hins] at hout
        obtain ⟨res, qp1⟩ := p
        dsimp only at hout
        rw [ih qp1 out hout, tm_dns_qp_insert fuel qp pval ival res qp1 hins]
    | deletekey fuel key keylen =>
      simp only [apply_tx_op] at hout
      rcases hdel : dns_qp_deletekey fuel qp key keylen with _ | p
      · rw [hdel] at hout
        cases hout
      · rw [hdel] at hout
        obtain ⟨res, qp1⟩ := p
        dsimp only at hout
        rw [ih qp1 out hout,
          tm_dns_qp_deletekey fuel qp key keylen res qp1 hdel]
    | compact fuel all =>
      simp only [apply_tx_op] at hout
      rcases hcomp : dns_qp_compact fuel qp all with _ | qp1
      · rw [hcomp] at hout
        cases hout
      · rw [hcomp] at hout
        dsimp only at hout
        rw [ih qp1 out hout, tm_dns_qp_compact fuel qp all qp1 hcomp]

/-! ### Counter invariants (claim C4) -/

theorem zero_twigs_proj (qp : Qp) (r s : Nat) :
    (zero_twigs qp r s).usage = qp.usage ∧
    (zero_twigs qp r s).chunk_max = qp.chunk_max ∧
    (zero_twigs qp r s).used_count = qp.used_count ∧
    (zero_twigs qp r s).free_count = qp.free_count ∧
    (zero_twigs qp r s).hold_count = qp.hold_count := by
  unfold zero_twigs
  have h := foldl_proj
    (fun qp => (qp.usage, qp.chunk_max, qp.used_count, qp.free_count,
                qp.hold_count))
    (List.range s) (fun qp i => ref_set qp (r + i) zero_node)
    (fun qp i => rfl) qp
  exact ⟨congrArg Prod.fst h,
         congrArg (fun p => p.2.1) h,
         congrArg (fun p => p.2.2.1) h,
         congrArg (fun p => p.2.2.2.1) h,
         congrArg (fun p => p.2.2.2.2) h⟩

theorem mem_binds_list (pi : Nat × Nat) :
    ∀ cs : List (Nat × QpT),
      pi ∈ binds_list cs ↔ ∃ bc ∈ cs, pi ∈ (bc.2).binds := by
  intro cs
  induction cs with
  | nil =>
    simp [binds_list]
  | cons bc rest ih =>
    obtain ⟨b, c⟩ := bc
    simp only [binds_list, List.mem_append, ih, List.mem_cons]
    constructor
    · rintro (h | ⟨bc2, hmem, hbc2⟩)
      · exact ⟨(b, c), Or.inl rfl, h⟩
      · exact ⟨bc2, Or.inr hmem, hbc2⟩
    · rintro ⟨bc2, hmem | hmem, hbc2⟩
      · subst hmem
        exact Or.inl hbc2
      · exact Or.inr ⟨bc2, hmem, hbc2⟩

theorem binds_list_length_ge :
    ∀ cs : List (Nat × QpT), (∀ bc ∈ cs, 1 ≤ (bc.2).binds.length) →
      cs.length ≤ (binds_list cs).length := by
  intro cs
  induction cs with
  | nil => intro _; simp [binds_list]
  | cons bc rest ih =>
    intro h
    obtain ⟨b, c⟩ := bc
    have h1 := h (b, c) (List.mem_cons_self _ _)
    simp only [binds_list, List.length_append, List.length_cons]
    have h2 := ih (fun bc hbc => h bc (List.mem_cons_of_mem _ hbc))
    dsimp only at h1
    omega

theorem twf_binds_nonempty (f : Nat → Nat → List Nat) :
    ∀ t : QpT, TWF f t → 1 ≤ t.binds.length := by
  intro t htwf
  induction htwf with
  | leaf p i hp => simp [QpT.binds]
  | branch off cs hlen hnodup hbits hchild htagbit hagree hsub ih =>
    show 1 ≤ (binds_list cs).length
    have := binds_list_length_ge cs ih
    omega

theorem depth_list_bound :
    ∀ cs : List (Nat × QpT),
      (∀ bc ∈ cs, (bc.2).depth < (bc.2).binds.length) →
      (∀ bc ∈ cs, 1 ≤ (bc.2).binds.length) →
      depth_list cs + cs.length ≤ (binds_list cs).length := by
  intro cs
  induction cs with
  | nil => intro _ _; simp [depth_list, binds_list]
  | cons bc rest ih =>
    intro hd hn
    obtain ⟨b, c⟩ := bc
    have h1 := hd (b, c) (List.mem_cons_self _ _)
    have h2 := hn (b, c) (List.mem_cons_self _ _)
    have h3 := ih (fun bc hbc => hd bc (List.mem_cons_of_mem _ hbc))
      (fun bc hbc => hn bc (List.mem_cons_of_mem _ hbc))
    have h4 := binds_list_length_ge rest
      (fun bc hbc => hn bc (List.mem_cons_of_mem _ hbc))
    simp only [depth_list, binds_list, List.length_append, List.length_cons]
    dsimp only at h1 h2
    omega

theorem twf_depth_lt (f : Nat → Nat → List Nat) :
    ∀ t : QpT, TWF f t → t.depth < t.binds.length := by
  intro t htwf
  induction htwf with
  | leaf p i hp => simp [QpT.binds, QpT.depth]
  | branch off cs hlen hnodup hbits hchild htagbit hagree hsub ih =>
    show depth_list cs + 1 < (binds_list cs).length
    have hne : ∀ bc ∈ cs, 1 ≤ (bc.2).binds.length := by
      intro bc hbc
      exact twf_binds_nonempty f _ (hchild bc hbc)
    have := depth_list_bound cs ih hne
    omega

/-! ### Frame lemmas for the representation predicate -/

theorem mem_vec_cells {tref size r : Nat} :
    r ∈ vec_cells tref size ↔ ∃ j, j < size ∧ r = tref + j := by
  unfold vec_cells
  simp only [Finset.mem_image, Finset.mem_range]
  constructor
  · rintro ⟨j, hj, rfl⟩
    exact ⟨j, hj, rfl⟩
  · rintro ⟨j, hj, rfl⟩
    exact ⟨j, hj, rfl⟩

theorem NRep_frame {qp qp' : Qp} {n : QpNode} {t : QpT} {S : Finset Nat}
    (h : NRep qp n t S) :
    (∀ r ∈ S, ref_get qp' r = ref_get qp r) → NRep qp' n t S := by
  induction h with
  | leaf p i =>
    intro _
    exact NRep.leaf p i
  | branch idx tref off cs Ss S htag hoff hsz hSs hfit hpos hcomp hchild hS
      hdv hdc ih =>
    intro hagree
    have hsub : ∀ j, j < cs.length → (Ss.getD j ∅) ⊆ S := by
      intro j hj
      rw [hS]
      intro r hr
      exact Finset.mem_union_right _
        (Finset.mem_biUnion.mpr ⟨j, Finset.mem_range.mpr hj, hr⟩)
    have hvec : ∀ j, j < cs.length → tref + j ∈ S := by
      intro j hj
      rw [hS]
      exact Finset.mem_union_left _
        (mem_vec_cells.mpr ⟨j, hj, rfl⟩)
    refine NRep.branch idx tref off cs Ss S htag hoff hsz hSs hfit hpos
      hcomp ?_ hS hdv hdc
    intro j hj
    rw [hagree _ (hvec j hj)]
    exact ih j hj (fun r hr => hagree r (hsub j hj hr))

theorem ref_get_of_base {qp qp' : Qp} (h : qp'.base = qp.base) (r : Nat) :
    ref_get qp' r = ref_get qp r := by
  unfold ref_get get_chunk
  rw [h]

theorem NRep_of_base {qp qp' : Qp} {n : QpNode} {t : QpT} {S : Finset Nat}
    (hb : qp'.base = qp.base) (h : NRep qp n t S) : NRep qp' n t S :=
  NRep_frame h (fun r _ => ref_get_of_base hb r)

/-! ### Search correctness over a represented trie -/

theorem depth_le_of_mem :
    ∀ (cs : List (Nat × QpT)) (bc : Nat × QpT), bc ∈ cs →
      (bc.2).depth ≤ depth_list cs := by
  intro cs
  induction cs with
  | nil => intro bc h; cases h
  | cons hd rest ih =>
    intro bc h
    obtain ⟨b, c⟩ := hd
    rcases List.mem_cons.mp h with h | h
    · subst h
      simp only [depth_list]
      omega
    · have := ih bc h
      simp only [depth_list]
      omega

theorem getkey_descend_found {f : Nat → Nat → List Nat} {qp : Qp}
    (k : List Nat) (klen : Nat) :
    ∀ {n : QpNode} {t : QpT} {S : Finset Nat}, NRep qp n t S → TWF f t →
      ∀ p i, (p, i) ∈ t.binds →
        keybits_eq k klen (f p i) (f p i).length →
        ∀ fuel nref, t.depth < fuel → ref_get qp nref = n →
          ∃ lref, getkey_descend qp k klen fuel nref = some (some lref) ∧
            ref_get qp lref = QpNode.leaf p i := by
  intro n t S hrep
  induction hrep with
  | leaf p0 i0 =>
    intro htwf p i hmem hkeq fuel nref hfuel hget
    simp only [QpT.binds, List.mem_singleton] at hmem
    cases hmem
    cases fuel with
    | zero => omega
    | succ fl =>
      refine ⟨nref, ?_, hget⟩
      rw [getkey_descend]
      rw [hget]
      rfl
  | branch idx tref off cs Ss S htag hoff hsz hSs hfit hpos hcomp hchild hS
      hdv hdc ih =>
    intro htwf p i hmem hkeq fuel nref hfuel hget
    cases htwf with
    | branch _ _ hlen hnodup hbits htchild htagbit hagree hsub =>
      show ∃ lref, _ ∧ _
      have hmem' : (p, i) ∈ binds_list cs := hmem
      obtain ⟨bc, hbc, hpibc⟩ := (mem_binds_list (p, i) cs).mp hmem'
      obtain ⟨j, hj, hjbc⟩ := List.mem_iff_getElem.mp hbc
      have hgetD : cs.getD j default = bc := by
        rw [List.getD_eq_getElem cs default hj, hjbc]
      have hbitj := (hpos j hj).1
      have hposj := (hpos j hj).2
      rw [hgetD] at hbitj hposj
      have hkbit : qpkey_bit k klen off = bc.1 := by
        rw [hkeq off]
        exact htagbit bc hbc (p, i) hpibc
      cases fuel with
      | zero => omega
      | succ fl =>
        rw [getkey_descend]
        have hbr : is_branch (ref_get qp nref) = true := by rw [hget]; rfl
        rw [if_pos hbr]
        have hkeybit : branch_keybit (ref_get qp nref) k klen = bc.1 := by
          unfold branch_keybit branch_key_offset
          rw [hget]
          show qpkey_bit k klen (branch_index (QpNode.branch idx tref) >>>
            SHIFT_OFFSET) = bc.1
          unfold branch_index
          rw [hoff]
          exact hkbit
        have htwig : branch_has_twig (ref_get qp nref) bc.1 = true := by
          unfold branch_has_twig
          rw [hget]
          exact hbitj
        rw [hkeybit, if_neg (by rw [htwig]; simp)]
        have hposr : branch_twig_pos (ref_get qp nref) bc.1 = j := by
          rw [hget]
          exact hposj
        have htref : branch_twigs_ref (ref_get qp nref) = tref := by
          rw [hget]
          rfl
        rw [hposr, htref]
        have hchildtwf : TWF f bc.2 := htchild bc hbc
        have hdepth : bc.2.depth < fl := by
          have h1 := depth_le_of_mem cs bc hbc
          have h2 : QpT.depth (QpT.branch off cs) = depth_list cs + 1 := rfl
          omega
        have := ih j hj (by rw [hgetD]; exact hchildtwf) p i
          (by rw [hgetD]; exact hpibc) hkeq fl (tref + j)
          (by rw [hgetD]; exact hdepth) rfl
        exact this

theorem getkey_descend_total {qp : Qp} (k : List Nat) (klen : Nat)
    (hk : key_ok k klen) :
    ∀ {n : QpNode} {t : QpT} {S : Finset Nat}, NRep qp n t S →
      ∀ fuel nref, t.depth < fuel → ref_get qp nref = n →
        getkey_descend qp k klen fuel nref = some none ∨
        ∃ lref p i, getkey_descend qp k klen fuel nref = some (some lref) ∧
          ref_get qp lref = QpNode.leaf p i ∧ (p, i) ∈ t.binds := by
  intro n t S hrep
  induction hrep with
  | leaf p0 i0 =>
    intro fuel nref hfuel hget
    cases fuel with
    | zero => omega
    | succ fl =>
      refine Or.inr ⟨nref, p0, i0, ?_, hget, by simp [QpT.binds]⟩
      rw [getkey_descend, hget]
      rfl
  | branch idx tref off cs Ss S htag hoff hsz hSs hfit hpos hcomp hchild hS
      hdv hdc ih =>
    intro fuel nref hfuel hget
    cases fuel with
    | zero => omega
    | succ fl =>
      rw [getkey_descend]
      have hbr : is_branch (ref_get qp nref) = true := by rw [hget]; rfl
      rw [if_pos hbr]
      have hkeybit : branch_keybit (ref_get qp nref) k klen =
          qpkey_bit k klen off := by
        unfold branch_keybit branch_key_offset
        rw [hget]
        show qpkey_bit k klen (branch_index (QpNode.branch idx tref) >>>
          SHIFT_OFFSET) = _
        unfold branch_index
        rw [hoff]
      rw [hkeybit]
      rcases Bool.eq_false_or_eq_true (branch_has_twig (ref_get qp nref)
          (qpkey_bit k klen off)) with htw | htw
      case inr =>
        rw [if_pos (by rw [htw]; rfl)]
        exact Or.inl rfl
      case inl =>
        rw [if_neg (by rw [htw]; simp)]
        have htwig : idx.testBit (qpkey_bit k klen off) = true := by
          have := htw
          unfold branch_has_twig at this
          rw [hget] at this
          exact this
        obtain ⟨j, hj, hjb⟩ := hcomp (qpkey_bit k klen off) (hk off).1
          (hk off).2 htwig
        have hposj := (hpos j hj).2
        rw [hjb] at hposj
        have hposr : branch_twig_pos (ref_get qp nref)
            (qpkey_bit k klen off) = j := by
          rw [hget]
          exact hposj
        have htref : branch_twigs_ref (ref_get qp nref) = tref := by
          rw [hget]
          rfl
        rw [hposr, htref]
        have hdepth : (cs.getD j default).2.depth < fl := by
          have h1 := depth_le_of_mem cs (cs.getD j default)
            (by rw [List.getD_eq_getElem cs default hj]
                exact List.getElem_mem hj)
          have h2 : QpT.depth (QpT.branch off cs) = depth_list cs + 1 := rfl
          omega
        rcases ih j hj fl (tref + j) hdepth rfl with h | ⟨lref, p, i, h1, h2, h3⟩
        · exact Or.inl h
        · refine Or.inr ⟨lref, p, i, h1, h2, ?_⟩
          show (p, i) ∈ binds_list cs
          refine (mem_binds_list (p, i) cs).mpr ⟨cs.getD j default, ?_, h3⟩
          rw [List.getD_eq_getElem cs default hj]
          exact List.getElem_mem hj

theorem getkey_found_inv {f : Nat → Nat → List Nat} {qp : Qp} {t : QpT}
    {S : Finset Nat} (hti : TreeInv f qp t S) (hlk : qp.leafkey = f)
    (hroot : qp.root_ref ≠ INVALID_REF) (p i : Nat)
    (hmem : (p, i) ∈ t.binds) (k : List Nat) (klen : Nat)
    (hkeq : keybits_eq k klen (f p i) (f p i).length)
    (gfuel : Nat) (hfuel : qp.leaf_count < gfuel) :
    dns_qp_getkey gfuel qp k klen = some (QpResult.SUCCESS, some (p, i)) := by
  unfold dns_qp_getkey
  rw [if_neg (by simp [get_root_valid, hroot])]
  have hdepth : t.depth < gfuel := by
    have h1 := twf_depth_lt f t hti.twf
    have h2 := hti.leaves
    omega
  obtain ⟨lref, heq, hleaf⟩ := getkey_descend_found k klen hti.rep hti.twf
    p i hmem hkeq gfuel qp.root_ref hdepth rfl
  rw [heq]
  dsimp only
  have hcmp : qpkey_compare k klen (leaf_qpkey qp (ref_get qp lref))
      (leaf_qpkey qp (ref_get qp lref)).length = QPKEY_EQUAL := by
    rw [hleaf]
    show qpkey_compare k klen (qp.leafkey p i) (qp.leafkey p i).length = _
    rw [hlk]
    exact qpkey_compare_eq_of_bits k klen (f p i) (f p i).length hkeq
  rw [if_neg (by rw [hcmp]; simp)]
  rw [hleaf]
  rfl

theorem getkey_notfound_inv {f : Nat → Nat → List Nat} {qp : Qp} {t : QpT}
    {S : Finset Nat} (hti : TreeInv f qp t S) (hlk : qp.leafkey = f)
    (hroot : qp.root_ref ≠ INVALID_REF) (k : List Nat) (klen : Nat)
    (hk : key_ok k klen) (hklen : klen ≤ QPKEY_EQUAL)
    (hflen : ∀ p i, (f p i).length ≤ QPKEY_EQUAL)
    (hnot : ∀ pi ∈ t.binds,
      ¬ keybits_eq k klen (f pi.1 pi.2) (f pi.1 pi.2).length)
    (gfuel : Nat) (hfuel : qp.leaf_count < gfuel) :
    dns_qp_getkey gfuel qp k klen = some (QpResult.NOTFOUND, none) := by
  unfold dns_qp_getkey
  rw [if_neg (by simp [get_root_valid, hroot])]
  have hdepth : t.depth < gfuel := by
    have h1 := twf_depth_lt f t hti.twf
    have h2 := hti.leaves
    omega
  rcases getkey_descend_total k klen hk hti.rep gfuel qp.root_ref hdepth rfl
    with h | ⟨lref, p, i, heq, hleaf, hmem⟩
  · rw [h]
  · rw [heq]
    dsimp only
    have hcmp : qpkey_compare k klen (leaf_qpkey qp (ref_get qp lref))
        (leaf_qpkey qp (ref_get qp lref)).length ≠ QPKEY_EQUAL := by
      rw [hleaf]
      show qpkey_compare k klen (qp.leafkey p i) (qp.leafkey p i).length ≠ _
      rw [hlk]
      intro hcontra
      refine hnot (p, i) hmem ?_
      rcases qpkey_compare_spec k klen (f p i) (f p i).length with
        ⟨_, hbits⟩ | ⟨hlt, _, _⟩
      · exact hbits
      · rw [hcontra] at hlt
        have h1 := hflen p i
        have h2 : max klen (f p i).length ≤ QPKEY_EQUAL := max_le hklen h1
        omega
    rw [if_pos hcmp]

/-! ### Bitmap arithmetic for branch construction -/

theorem mod_two_pow_lt_of_testBit_false (x t : Nat)
    (h : x.testBit t = false) : x % 2 ^ (t + 1) < 2 ^ t := by
  have hsplit := mod_pow_split x t (t + 1) (by omega)
  have hbit : x / 2 ^ t % 2 = 0 := by
    have hh := @Nat.testBit_to_div_mod t x
    rw [h] at hh
    simpa using hh.symm
  have ht1 : (t + 1) - t = 1 := by omega
  rw [ht1] at hsplit
  have h2 : x / 2 ^ t % 2 ^ 1 = 0 := by simpa using hbit
  rw [h2] at hsplit
  have := Nat.mod_lt x (show 0 < 2 ^ t from Nat.pos_pow_of_pos t (by omega))
  omega

theorem add_two_pow_div_high (x t : Nat) (h : x.testBit t = false) :
    (x + 2 ^ t) / 2 ^ (t + 1) = x / 2 ^ (t + 1) := by
  have hlo := mod_two_pow_lt_of_testBit_false x t h
  have hx := Nat.mod_add_div x (2 ^ (t + 1))
  have hrw : x + 2 ^ t =
      (x % 2 ^ (t + 1) + 2 ^ t) + 2 ^ (t + 1) * (x / 2 ^ (t + 1)) := by
    omega
  rw [hrw, Nat.add_mul_div_left _ _ (Nat.pos_pow_of_pos (t + 1) (by omega)),
    Nat.div_eq_of_lt (by omega)]
  omega

theorem add_two_pow_mod_high (x t : Nat) (h : x.testBit t = false) :
    (x + 2 ^ t) % 2 ^ (t + 1) = x % 2 ^ (t + 1) + 2 ^ t := by
  have hlo := mod_two_pow_lt_of_testBit_false x t h
  have hx := Nat.mod_add_div x (2 ^ (t + 1))
  have hrw : x + 2 ^ t =
      (x % 2 ^ (t + 1) + 2 ^ t) + 2 ^ (t + 1) * (x / 2 ^ (t + 1)) := by
    omega
  rw [hrw, Nat.add_mul_mod_self_left, Nat.mod_eq_of_lt (by omega)]

theorem lor_eq_add_pow (x t : Nat) (h : x.testBit t = false) :
    x ||| 2 ^ t = x + 2 ^ t := by
  apply Nat.eq_of_testBit_eq
  intro j
  rw [Nat.testBit_lor, Nat.testBit_two_pow]
  rcases Nat.lt_trichotomy j t with hj | hj | hj
  · rw [Nat.add_comm x (2 ^ t), Nat.testBit_two_pow_add_gt hj x]
    have : t ≠ j := by omega
    simp [this]
  · subst hj
    rw [Nat.add_comm x (2 ^ j), Nat.testBit_two_pow_add_eq, h]
    simp
  · have hdiv := add_two_pow_div_high x t h
    have h1 : (x + 2 ^ t).testBit j =
        ((x + 2 ^ t) / 2 ^ (t + 1)).testBit (j - t - 1) := by
      rw [testBit_div_two_pow]
      congr 1
      omega
    have h2 : x.testBit j = (x / 2 ^ (t + 1)).testBit (j - t - 1) := by
      rw [testBit_div_two_pow]
      congr 1
      omega
    rw [h1, h2, hdiv]
    have : t ≠ j := by omega
    simp [this]

theorem testBit_high_false {x m j : Nat} (hx : x < 2 ^ m) (hj : m ≤ j) :
    x.testBit j = false :=
  Nat.testBit_lt_two_pow
    (lt_of_lt_of_le hx (Nat.pow_le_pow_right (by omega) hj))

theorem lor_mul_pow (X D m : Nat) (hX : X < 2 ^ m) :
    X ||| (D <<< m) = X + 2 ^ m * D := by
  apply Nat.eq_of_testBit_eq
  intro j
  rw [Nat.testBit_lor, Nat.testBit_shiftLeft]
  by_cases hj : j < m
  · have hdj : (X + 2 ^ m * D) / 2 ^ j = X / 2 ^ j + 2 ^ (m - j) * D := by
      have hm : 2 ^ m = 2 ^ j * 2 ^ (m - j) := by
        rw [← pow_add]
        congr 1
        omega
      rw [hm, Nat.mul_assoc, Nat.mul_comm (2 ^ j) (2 ^ (m - j) * D),
        Nat.add_mul_div_right _ _ (Nat.pos_pow_of_pos j (by omega))]
    have h1 : (X + 2 ^ m * D).testBit j = X.testBit j := by
      rw [@Nat.testBit_to_div_mod j, @Nat.testBit_to_div_mod j, hdj]
      have hev : 2 ^ (m - j) * D % 2 = 0 := by
        have hmj : 2 ^ (m - j) = 2 * 2 ^ (m - j - 1) := by
          rw [← pow_succ']
          congr 1
          omega
        rw [hmj, Nat.mul_assoc, Nat.mul_mod_right]
      simp only [decide_eq_decide]
      omega
    rw [h1]
    have : ¬ j ≥ m := by omega
    simp [this]
  · have hge : m ≤ j := by omega
    have hdj : (X + 2 ^ m * D) / 2 ^ m = D := by
      rw [Nat.mul_comm,
        Nat.add_mul_div_right _ _ (Nat.pos_pow_of_pos m (by omega)),
        Nat.div_eq_of_lt hX]
      omega
    have h1 : (X + 2 ^ m * D).testBit j = D.testBit (j - m) := by
      have hstep : (X + 2 ^ m * D).testBit j =
          ((X + 2 ^ m * D) / 2 ^ m).testBit (j - m) := by
        rw [testBit_div_two_pow]
        congr 1
        omega
      rw [hstep, hdj]
    rw [h1, testBit_high_false hX hge]
    simp [hge]

theorem popcount_pow (a : Nat) : popcount (2 ^ a) = 1 := by
  have := popcount_add_mul_pow a 0 1
    (Nat.pos_pow_of_pos a (by omega))
  simpa [popcount_zero] using this

theorem popcount_add_two_pow (y t : Nat) (h : y.testBit t = false) :
    popcount (y + 2 ^ t) = popcount y + 1 := by
  have hsplit1 := popcount_split (y + 2 ^ t) (t + 1)
  have hsplit2 := popcount_split y (t + 1)
  rw [add_two_pow_div_high y t h, add_two_pow_mod_high y t h] at hsplit1
  have hlo := mod_two_pow_lt_of_testBit_false y t h
  have hpc : popcount (y % 2 ^ (t + 1) + 2 ^ t) =
      popcount (y % 2 ^ (t + 1)) + 1 := by
    have := popcount_add_mul_pow t (y % 2 ^ (t + 1)) 1 hlo
    simpa using this
  omega

theorem one_shiftLeft_eq (n : Nat) : 1 <<< n = 2 ^ n := by
  rw [Nat.shiftLeft_eq, Nat.one_mul]

theorem one_add_two_pows_lt {a b m : Nat} (ha1 : 1 ≤ a) (ham : a < m)
    (hb1 : 1 ≤ b) (hbm : b < m) (hne : a ≠ b) :
    1 + 2 ^ a + 2 ^ b < 2 ^ m := by
  wlog hab : a < b generalizing a b
  · have := this hb1 hbm ha1 ham (Ne.symm hne) (by omega)
    omega
  · have h1 : (1 : Nat) < 2 ^ a := by
      calc (1 : Nat) < 2 ^ 1 := by omega
      _ ≤ 2 ^ a := Nat.pow_le_pow_right (by omega) ha1
    have h2 : 2 ^ a + 2 ^ a = 2 ^ (a + 1) := by ring
    have h3 : (2 : Nat) ^ (a + 1) ≤ 2 ^ b := Nat.pow_le_pow_right (by omega)
      (by omega)
    have h4 : 2 ^ b + 2 ^ b = 2 ^ (b + 1) := by ring
    have h5 : (2 : Nat) ^ (b + 1) ≤ 2 ^ m := Nat.pow_le_pow_right (by omega)
      (by omega)
    omega

theorem newbranch_index_eq (nb ob off : Nat) (h1 : 1 ≤ nb)
    (h2 : nb < SHIFT_OFFSET) (h3 : 1 ≤ ob) (h4 : ob < SHIFT_OFFSET)
    (hne : nb ≠ ob) :
    BRANCH_TAG ||| (1 <<< nb) ||| (1 <<< ob) ||| (off <<< SHIFT_OFFSET) =
      (1 + 2 ^ nb + 2 ^ ob) + 2 ^ SHIFT_OFFSET * off := by
  rw [one_shiftLeft_eq, one_shiftLeft_eq]
  have honebit : ∀ c : Nat, 1 ≤ c → BRANCH_TAG.testBit c = false := by
    intro c hc
    show Nat.testBit 1 c = false
    rw [show (1 : Nat) = 2 ^ 0 from rfl]
    exact Nat.testBit_two_pow_of_ne (by omega)
  have hs1 : BRANCH_TAG ||| 2 ^ nb = 1 + 2 ^ nb := by
    show (1 : Nat) ||| 2 ^ nb = 1 + 2 ^ nb
    apply lor_eq_add_pow
    rw [show (1 : Nat) = 2 ^ 0 from rfl]
    exact Nat.testBit_two_pow_of_ne (by omega)
  rw [hs1]
  have hs2 : 1 + 2 ^ nb ||| 2 ^ ob = 1 + 2 ^ nb + 2 ^ ob := by
    apply lor_eq_add_pow
    rw [← hs1, Nat.testBit_lor, honebit ob h3,
      Nat.testBit_two_pow_of_ne hne]
    rfl
  rw [hs2]
  apply lor_mul_pow
  exact one_add_two_pows_lt h1 h2 h3 h4 hne

theorem newbranch_index_decode (nb ob off : Nat) (h1 : 1 ≤ nb)
    (h2 : nb < SHIFT_OFFSET) (h3 : 1 ≤ ob) (h4 : ob < SHIFT_OFFSET)
    (hne : nb ≠ ob) :
    (BRANCH_TAG ||| (1 <<< nb) ||| (1 <<< ob) ||| (off <<< SHIFT_OFFSET)) >>>
      SHIFT_OFFSET = off := by
  rw [newbranch_index_eq nb ob off h1 h2 h3 h4 hne,
    Nat.shiftRight_eq_div_pow]
  have hlt : 1 + 2 ^ nb + 2 ^ ob < 2 ^ SHIFT_OFFSET :=
    one_add_two_pows_lt h1 h2 h3 h4 hne
  rw [Nat.mul_comm, Nat.add_mul_div_right _ _
    (Nat.pos_pow_of_pos SHIFT_OFFSET (by omega)),
    Nat.div_eq_of_lt hlt]
  omega

theorem newbranch_index_testBit (nb ob off b : Nat) :
    (BRANCH_TAG ||| (1 <<< nb) ||| (1 <<< ob) |||
      (off <<< SHIFT_OFFSET)).testBit b =
    ((2 ^ 0 : Nat).testBit b || (2 ^ nb).testBit b || (2 ^ ob).testBit b ||
      (decide (b ≥ SHIFT_OFFSET) && off.testBit (b - SHIFT_OFFSET))) := by
  rw [one_shiftLeft_eq, one_shiftLeft_eq]
  rw [Nat.testBit_lor, Nat.testBit_lor, Nat.testBit_lor,
    Nat.testBit_shiftLeft]
  rfl

theorem newbranch_shift1 (nb ob off : Nat) (h1 : 1 ≤ nb) (h3 : 1 ≤ ob) :
    ((1 + 2 ^ nb + 2 ^ ob) + 2 ^ SHIFT_OFFSET * off) >>> 1 =
      2 ^ (nb - 1) + 2 ^ (ob - 1) + 2 ^ (SHIFT_OFFSET - 1) * off := by
  rw [Nat.shiftRight_eq_div_pow]
  have e1 : (2 : Nat) ^ nb = 2 * 2 ^ (nb - 1) := by
    rw [← pow_succ']
    congr 1
    omega
  have e2 : (2 : Nat) ^ ob = 2 * 2 ^ (ob - 1) := by
    rw [← pow_succ']
    congr 1
    omega
  have e3 : (2 : Nat) ^ SHIFT_OFFSET = 2 * 2 ^ (SHIFT_OFFSET - 1) := by
    rw [← pow_succ']
    rfl
  have hrw : (1 + 2 ^ nb + 2 ^ ob) + 2 ^ SHIFT_OFFSET * off =
      1 + 2 * (2 ^ (nb - 1) + 2 ^ (ob - 1) + 2 ^ (SHIFT_OFFSET - 1) * off) := by
    rw [e1, e2, e3]
    ring
  rw [hrw, pow_one, Nat.add_mul_div_left _ _ (by omega : (0:Nat) < 2)]
  omega

theorem two_pows_lt {a b m : Nat} (ham : a < m) (hbm : b < m) (hne : a ≠ b) :
    2 ^ a + 2 ^ b < 2 ^ m := by
  wlog hab : a < b generalizing a b
  · have := this hbm ham (Ne.symm hne) (by omega)
    omega
  · have h1 : (2 : Nat) ^ a < 2 ^ b := Nat.pow_lt_pow_right (by omega) hab
    have h2 : 2 ^ b + 2 ^ b = 2 ^ (b + 1) := by ring
    have h3 : (2 : Nat) ^ (b + 1) ≤ 2 ^ m := Nat.pow_le_pow_right (by omega)
      (by omega)
    omega

theorem pow_factor (k e d : Nat) (h : k + d = e) :
    (2 : Nat) ^ e = 2 ^ k * 2 ^ d := by
  rw [← pow_add]
  congr 1
  omega

theorem newbranch_bitmap_mod (s t off w : Nat) (h1 : 1 ≤ s)
    (h2 : s < SHIFT_OFFSET) (h3 : 1 ≤ t) (h4 : t < SHIFT_OFFSET)
    (hst : s ≠ t) (hw : 1 ≤ w) (hws : w ≤ SHIFT_OFFSET) :
    (2 ^ (s - 1) + 2 ^ (t - 1) + 2 ^ (SHIFT_OFFSET - 1) * off) % 2 ^ (w - 1) =
      (if s < w then 2 ^ (s - 1) else 0) +
      (if t < w then 2 ^ (t - 1) else 0) := by
  have hso : SHIFT_OFFSET = 48 := rfl
  have hoffpow : (2 : Nat) ^ (SHIFT_OFFSET - 1) =
      2 ^ (w - 1) * 2 ^ (SHIFT_OFFSET - w) := by
    rw [← pow_add]
    congr 1
    omega
  by_cases hsw : s < w
  · by_cases htw : t < w
    · rw [if_pos hsw, if_pos htw]
      have hrw : 2 ^ (s - 1) + 2 ^ (t - 1) + 2 ^ (SHIFT_OFFSET - 1) * off =
          (2 ^ (s - 1) + 2 ^ (t - 1)) +
            2 ^ (w - 1) * (2 ^ (SHIFT_OFFSET - w) * off) := by
        rw [hoffpow]
        ring
      rw [hrw, Nat.add_mul_mod_self_left]
      exact Nat.mod_eq_of_lt (two_pows_lt (by omega) (by omega) (by omega))
    · rw [if_pos hsw, if_neg htw]
      have htpow : (2 : Nat) ^ (t - 1) = 2 ^ (w - 1) * 2 ^ (t - w) :=
        pow_factor (w - 1) (t - 1) (t - w) (by omega)
      have hrw : 2 ^ (s - 1) + 2 ^ (t - 1) + 2 ^ (SHIFT_OFFSET - 1) * off =
          2 ^ (s - 1) +
            2 ^ (w - 1) * (2 ^ (t - w) + 2 ^ (SHIFT_OFFSET - w) * off) := by
        rw [hoffpow, htpow]
        ring
      rw [hrw, Nat.add_mul_mod_self_left]
      have : 2 ^ (s - 1) < 2 ^ (w - 1) :=
        Nat.pow_lt_pow_right (by omega) (by omega)
      rw [Nat.mod_eq_of_lt this]
      omega
  · by_cases htw : t < w
    · rw [if_neg hsw, if_pos htw]
      have hspow : (2 : Nat) ^ (s - 1) = 2 ^ (w - 1) * 2 ^ (s - w) :=
        pow_factor (w - 1) (s - 1) (s - w) (by omega)
      have hrw : 2 ^ (s - 1) + 2 ^ (t - 1) + 2 ^ (SHIFT_OFFSET - 1) * off =
          2 ^ (t - 1) +
            2 ^ (w - 1) * (2 ^ (s - w) + 2 ^ (SHIFT_OFFSET - w) * off) := by
        rw [hoffpow, hspow]
        ring
      rw [hrw, Nat.add_mul_mod_self_left]
      have : 2 ^ (t - 1) < 2 ^ (w - 1) :=
        Nat.pow_lt_pow_right (by omega) (by omega)
      rw [Nat.mod_eq_of_lt this]
      omega
    · rw [if_neg hsw, if_neg htw]
      have hspow : (2 : Nat) ^ (s - 1) = 2 ^ (w - 1) * 2 ^ (s - w) :=
        pow_factor (w - 1) (s - 1) (s - w) (by omega)
      have htpow : (2 : Nat) ^ (t - 1) = 2 ^ (w - 1) * 2 ^ (t - w) :=
        pow_factor (w - 1) (t - 1) (t - w) (by omega)
      have hrw : 2 ^ (s - 1) + 2 ^ (t - 1) + 2 ^ (SHIFT_OFFSET - 1) * off =
          0 + 2 ^ (w - 1) *
            (2 ^ (s - w) + 2 ^ (t - w) + 2 ^ (SHIFT_OFFSET - w) * off) := by
        rw [hoffpow, hspow, htpow]
        ring
      rw [hrw, Nat.add_mul_mod_self_left]
      rfl

theorem newbranch_node_size (nb ob off r : Nat) (h1 : 1 ≤ nb)
    (h2 : nb < SHIFT_OFFSET) (h3 : 1 ≤ ob) (h4 : ob < SHIFT_OFFSET)
    (hne : nb ≠ ob) :
    branch_twigs_size (QpNode.branch
      (BRANCH_TAG ||| (1 <<< nb) ||| (1 <<< ob) ||| (off <<< SHIFT_OFFSET))
      r) = 2 := by
  unfold branch_twigs_size branch_index
  rw [newbranch_index_eq nb ob off h1 h2 h3 h4 hne,
    newbranch_shift1 nb ob off h1 h3,
    newbranch_bitmap_mod nb ob off SHIFT_OFFSET h1 h2 h3 h4 hne
      (by show 1 ≤ 48; omega) (le_refl _)]
  rw [if_pos h2, if_pos h4]
  have hbit : (2 ^ (nb - 1)).testBit (ob - 1) = false :=
    Nat.testBit_two_pow_of_ne (by omega)
  rw [popcount_add_two_pow _ _ hbit, popcount_pow]

theorem newbranch_node_pos (nb ob off r w : Nat) (h1 : 1 ≤ nb)
    (h2 : nb < SHIFT_OFFSET) (h3 : 1 ≤ ob) (h4 : ob < SHIFT_OFFSET)
    (hne : nb ≠ ob) (hw : 1 ≤ w) (hws : w ≤ SHIFT_OFFSET) :
    branch_twig_pos (QpNode.branch
      (BRANCH_TAG ||| (1 <<< nb) ||| (1 <<< ob) ||| (off <<< SHIFT_OFFSET))
      r) w =
      (if nb < w then 1 else 0) + (if ob < w then 1 else 0) := by
  unfold branch_twig_pos branch_index
  rw [newbranch_index_eq nb ob off h1 h2 h3 h4 hne,
    newbranch_shift1 nb ob off h1 h3,
    newbranch_bitmap_mod nb ob off w h1 h2 h3 h4 hne hw hws]
  by_cases hnw : nb < w
  · by_cases how : ob < w
    · rw [if_pos hnw, if_pos how, if_pos hnw, if_pos how]
      have hbit : (2 ^ (nb - 1)).testBit (ob - 1) = false :=
        Nat.testBit_two_pow_of_ne (by omega)
      rw [popcount_add_two_pow _ _ hbit, popcount_pow]
    · rw [if_pos hnw, if_neg how, if_pos hnw, if_neg how]
      rw [Nat.add_zero, popcount_pow]
  · by_cases how : ob < w
    · rw [if_neg hnw, if_pos how, if_neg hnw, if_pos how]
      rw [Nat.zero_add, popcount_pow]
    · rw [if_neg hnw, if_neg how, if_neg hnw, if_neg how]
      rfl

theorem newbranch_node_testBit_zero (nb ob off : Nat) (h1 : 1 ≤ nb)
    (h3 : 1 ≤ ob) :
    (BRANCH_TAG ||| (1 <<< nb) ||| (1 <<< ob) |||
      (off <<< SHIFT_OFFSET)).testBit 0 = true := by
  rw [newbranch_index_testBit]
  have : (2 ^ 0 : Nat).testBit 0 = true := rfl
  rw [this]
  rfl

theorem newbranch_node_testBit_mid (nb ob off b : Nat) (hb1 : 1 ≤ b)
    (hb2 : b < SHIFT_OFFSET) :
    (BRANCH_TAG ||| (1 <<< nb) ||| (1 <<< ob) |||
      (off <<< SHIFT_OFFSET)).testBit b =
      (decide (b = nb) || decide (b = ob)) := by
  rw [newbranch_index_testBit]
  have e0 : (2 ^ 0 : Nat).testBit b = false :=
    Nat.testBit_two_pow_of_ne (by omega)
  have e1 : (2 ^ nb : Nat).testBit b = decide (b = nb) := by
    rw [Nat.testBit_two_pow]
    simp [eq_comm]
  have e2 : (2 ^ ob : Nat).testBit b = decide (b = ob) := by
    rw [Nat.testBit_two_pow]
    simp [eq_comm]
  have e3 : decide (b ≥ SHIFT_OFFSET) = false := by
    simp
    omega
  rw [e0, e1, e2, e3]
  simp

theorem add_two_pow_lt (a t m : Nat) (ht : t < m) (ha : a < 2 ^ m)
    (hbit : a.testBit t = false) : a + 2 ^ t < 2 ^ m := by
  have hlo := mod_two_pow_lt_of_testBit_false a t hbit
  have hsplit := Nat.mod_add_div a (2 ^ (t + 1))
  have hhi : a / 2 ^ (t + 1) < 2 ^ (m - t - 1) := by
    apply Nat.div_lt_of_lt_mul
    rw [← pow_factor (t + 1) m (m - t - 1) (by omega)]
    exact ha
  have hpow : (2 : Nat) ^ m = 2 ^ (t + 1) * 2 ^ (m - t - 1) :=
    pow_factor (t + 1) m (m - t - 1) (by omega)
  have h2t : (2 : Nat) ^ (t + 1) = 2 ^ t + 2 ^ t := by ring
  have hle : a / 2 ^ (t + 1) + 1 ≤ 2 ^ (m - t - 1) := hhi
  have hmul := Nat.mul_le_mul_left (2 ^ (t + 1)) hle
  have hdist : 2 ^ (t + 1) * (a / 2 ^ (t + 1) + 1) =
      2 ^ (t + 1) * (a / 2 ^ (t + 1)) + 2 ^ (t + 1) := by ring
  omega

theorem add_pow_mod_keep (y t m : Nat) (ht : t < m)
    (hbit : y.testBit t = false) :
    (y + 2 ^ t) % 2 ^ m = y % 2 ^ m + 2 ^ t := by
  have hbitm : (y % 2 ^ m).testBit t = false := by
    rw [Nat.testBit_mod_two_pow]
    simp [ht, hbit]
  have hsplit := Nat.mod_add_div y (2 ^ m)
  have hrw : y + 2 ^ t = (y % 2 ^ m + 2 ^ t) + 2 ^ m * (y / 2 ^ m) := by
    omega
  rw [hrw, Nat.add_mul_mod_self_left]
  exact Nat.mod_eq_of_lt (add_two_pow_lt _ t m ht
    (Nat.mod_lt _ (Nat.pos_pow_of_pos m (by omega))) hbitm)

theorem add_pow_mod_drop (y t m : Nat) (hge : m ≤ t) :
    (y + 2 ^ t) % 2 ^ m = y % 2 ^ m := by
  rw [pow_factor m t (t - m) (by omega), ← Nat.add_mul_mod_self_left y
    (2 ^ m) (2 ^ (t - m))]

theorem add_pow_div_drop (y t m : Nat) (ht : t < m)
    (hbit : y.testBit t = false) :
    (y + 2 ^ t) / 2 ^ m = y / 2 ^ m := by
  have hsplit := Nat.mod_add_div y (2 ^ m)
  have hbitm : (y % 2 ^ m).testBit t = false := by
    rw [Nat.testBit_mod_two_pow]
    simp [ht, hbit]
  have hlt : y % 2 ^ m + 2 ^ t < 2 ^ m :=
    add_two_pow_lt _ t m ht
      (Nat.mod_lt _ (Nat.pos_pow_of_pos m (by omega))) hbitm
  have hrw : y + 2 ^ t = (y % 2 ^ m + 2 ^ t) + 2 ^ m * (y / 2 ^ m) := by
    omega
  rw [hrw, Nat.add_mul_div_left _ _ (Nat.pos_pow_of_pos m (by omega)),
    Nat.div_eq_of_lt hlt]
  omega

theorem grow_index_eq (idx nb : Nat) (hnb : idx.testBit nb = false) :
    idx ||| (1 <<< nb) = idx + 2 ^ nb := by
  rw [one_shiftLeft_eq]
  exact lor_eq_add_pow idx nb hnb

theorem grow_shift1 (idx nb : Nat) (h1 : 1 ≤ nb) :
    (idx + 2 ^ nb) >>> 1 = idx >>> 1 + 2 ^ (nb - 1) := by
  rw [Nat.shiftRight_eq_div_pow, Nat.shiftRight_eq_div_pow, pow_one]
  have : (2 : Nat) ^ nb = 2 * 2 ^ (nb - 1) := by
    rw [← pow_succ']
    congr 1
    omega
  rw [this, Nat.mul_comm 2 (2 ^ (nb - 1)), Nat.add_mul_div_right _ _
    (by omega : (0:Nat) < 2)]

theorem grow_node_size (idx nb r : Nat) (h1 : 1 ≤ nb)
    (h2 : nb < SHIFT_OFFSET) (hnb : idx.testBit nb = false) :
    branch_twigs_size (QpNode.branch (idx + 2 ^ nb) r) =
      branch_twigs_size (QpNode.branch idx r) + 1 := by
  unfold branch_twigs_size branch_index
  rw [grow_shift1 idx nb h1]
  have hbit : (idx >>> 1).testBit (nb - 1) = false := by
    rw [Nat.testBit_shiftRight]
    have : 1 + (nb - 1) = nb := by omega
    rw [this]
    exact hnb
  have h48 : SHIFT_OFFSET = 48 := rfl
  rw [add_pow_mod_keep _ (nb - 1) (SHIFT_OFFSET - 1)
    (by omega) hbit]
  apply popcount_add_two_pow
  rw [Nat.testBit_mod_two_pow]
  simp [hbit]

theorem grow_node_pos (idx nb r w : Nat) (h1 : 1 ≤ nb)
    (h2 : nb < SHIFT_OFFSET) (hw : 1 ≤ w) (hnb : idx.testBit nb = false) :
    branch_twig_pos (QpNode.branch (idx + 2 ^ nb) r) w =
      branch_twig_pos (QpNode.branch idx r) w +
        (if nb < w then 1 else 0) := by
  unfold branch_twig_pos branch_index
  rw [grow_shift1 idx nb h1]
  have hbit : (idx >>> 1).testBit (nb - 1) = false := by
    rw [Nat.testBit_shiftRight]
    have : 1 + (nb - 1) = nb := by omega
    rw [this]
    exact hnb
  by_cases hnw : nb < w
  · rw [if_pos hnw, add_pow_mod_keep _ (nb - 1) (w - 1) (by omega) hbit]
    apply popcount_add_two_pow
    rw [Nat.testBit_mod_two_pow]
    simp [hbit]
  · have hge : w - 1 ≤ nb - 1 := by omega
    rw [if_neg hnw, add_pow_mod_drop _ (nb - 1) (w - 1) hge]
    show popcount (idx >>> 1 % 2 ^ (w - 1)) =
      popcount (idx >>> 1 % 2 ^ (w - 1)) + 0
    omega

theorem grow_index_testBit (idx nb b : Nat) (hnb : idx.testBit nb = false) :
    (idx + 2 ^ nb).testBit b = (idx.testBit b || decide (b = nb)) := by
  rw [← grow_index_eq idx nb hnb, one_shiftLeft_eq, Nat.testBit_lor,
    Nat.testBit_two_pow]
  simp [eq_comm]

theorem grow_index_decode (idx nb : Nat) (h2 : nb < SHIFT_OFFSET)
    (hnb : idx.testBit nb = false) :
    (idx + 2 ^ nb) >>> SHIFT_OFFSET = idx >>> SHIFT_OFFSET := by
  rw [Nat.shiftRight_eq_div_pow, Nat.shiftRight_eq_div_pow]
  exact add_pow_div_drop idx nb SHIFT_OFFSET h2 hnb

/-! ### Ref arithmetic and the allocator contract -/

theorem ref_chunk_make (c s : Nat) (hs : s < QP_CHUNK_SIZE) :
    ref_chunk (make_ref c s) = c := by
  simp only [ref_chunk, make_ref, QP_CHUNK_SIZE] at *
  omega

theorem ref_cell_make (c s : Nat) (hs : s < QP_CHUNK_SIZE) :
    ref_cell (make_ref c s) = s := by
  simp only [ref_cell, make_ref, QP_CHUNK_SIZE] at *
  omega

theorem ref_cell_lt (r : Nat) : ref_cell r < QP_CHUNK_SIZE :=
  Nat.mod_lt r (by decide)

theorem ref_decomp (r : Nat) : make_ref (ref_chunk r) (ref_cell r) = r := by
  simp only [make_ref, ref_chunk, ref_cell, QP_CHUNK_SIZE]
  omega

theorem ref_add_chunk (r j : Nat) (h : ref_cell r + j < QP_CHUNK_SIZE) :
    ref_chunk (r + j) = ref_chunk r ∧ ref_cell (r + j) = ref_cell r + j := by
  simp only [ref_chunk, ref_cell, QP_CHUNK_SIZE] at *
  omega

theorem ref_eq_iff (r r' : Nat) :
    r = r' ↔ (ref_chunk r = ref_chunk r' ∧ ref_cell r = ref_cell r') := by
  simp only [ref_chunk, ref_cell, QP_CHUNK_SIZE]
  omega

theorem AllocSpec.new_alloc {qp qp' : Qp} {ref size : Nat}
    (h : AllocSpec qp qp' ref size) (j : Nat) (hj : j < size) :
    allocated qp' (ref + j) := by
  have hadd := ref_add_chunk ref j (by have := h.fits; omega)
  refine ⟨?_, ?_, ?_⟩
  · rw [hadd.1]
    exact h.chunkw.1
  · rw [hadd.1]
    exact h.chunkw.2
  · rw [hadd.1, hadd.2, h.usedw]
    omega

theorem AllocSpec.new_fresh {qp qp' : Qp} {ref size : Nat}
    (h : AllocSpec qp qp' ref size) (j : Nat) (hj : j < size) :
    ¬ allocated qp (ref + j) := by
  have hadd := ref_add_chunk ref j (by have := h.fits; omega)
  rintro ⟨h1, h2, h3⟩
  rw [hadd.1, hadd.2] at h3
  have := h.cellw
  omega

theorem getD_set_self {α : Type} (l : List α) (i : Nat) (v d : α)
    (h : i < l.length) : (l.set i v).getD i d = v := by
  simp [List.getD, List.getElem?_set, h]

theorem getD_set_ne {α : Type} (l : List α) (i j : Nat) (v d : α)
    (h : i ≠ j) : (l.set i v).getD j d = l.getD j d := by
  simp [List.getD, List.getElem?_set_ne h]

theorem getD_replicate_self {α : Type} (n i : Nat) (a : α) :
    (List.replicate n a).getD i a = a := by
  by_cases h : i < n
  · simp [List.getD, List.getElem?_replicate, h]
  · exact List.getD_eq_default _ _ (by simp [List.length_replicate]; omega)

theorem realloc_usage_get (qp : Qp) (m c : Nat)
    (hlen : qp.usage.length = qp.chunk_max) :
    usage_get (realloc_chunk_arrays qp m) c = usage_get qp c := by
  unfold usage_get realloc_chunk_arrays
  dsimp only
  by_cases hc : c < qp.usage.length
  · rw [List.getD_append _ _ _ _ hc]
  · have hrhs : qp.usage.getD c {} = {} :=
      List.getD_eq_default _ _ (by omega)
    have hlhs : (qp.usage ++
        List.replicate (m - qp.chunk_max) ({} : QpUsage)).getD c {} = {} := by
      rw [List.getD_append_right _ _ _ _ (by omega)]
      exact getD_replicate_self _ _ _
    rw [hlhs, hrhs]

theorem realloc_base_getD (qp : Qp) (m c : Nat)
    (hlen : qp.base.length = qp.chunk_max) :
    (realloc_chunk_arrays qp m).base.getD c none = qp.base.getD c none := by
  unfold realloc_chunk_arrays
  dsimp only
  by_cases hc : c < qp.base.length
  · rw [List.getD_append _ _ _ _ hc]
  · have hrhs : qp.base.getD c none = none :=
      List.getD_eq_default _ _ (by omega)
    have hlhs : (qp.base ++
        List.replicate (m - qp.chunk_max) none).getD c none = none := by
      rw [List.getD_append_right _ _ _ _ (by omega)]
      exact getD_replicate_self _ _ _
    rw [hlhs, hrhs]

theorem realloc_ref_get (qp : Qp) (m r : Nat)
    (hlen : qp.base.length = qp.chunk_max) :
    ref_get (realloc_chunk_arrays qp m) r = ref_get qp r := by
  unfold ref_get get_chunk
  rw [realloc_base_getD qp m _ hlen]

theorem realloc_swf {qp : Qp} (swf : StandaloneWF qp) (m : Nat)
    (hm : qp.chunk_max ≤ m) :
    StandaloneWF (realloc_chunk_arrays qp m) := by
  refine ⟨?_, ?_, swf.fender0, ?_, ?_, ?_, ?_, ?_, ?_⟩
  · show (qp.base ++ _).length = m
    rw [List.length_append, List.length_replicate, swf.base_len]
    omega
  · show (qp.usage ++ _).length = m
    rw [List.length_append, List.length_replicate, swf.usage_len]
    omega
  · intro c
    rw [realloc_usage_get qp m c swf.usage_len]
    exact swf.no_imm c
  · intro c
    rw [realloc_usage_get qp m c swf.usage_len]
    exact swf.no_phase c
  · intro c hc
    rw [realloc_usage_get qp m c swf.usage_len,
      show (realloc_chunk_arrays qp m).base.getD c none = qp.base.getD c none
        from realloc_base_getD qp m c swf.base_len]
    by_cases hcold : c < qp.chunk_max
    · exact swf.chunks c hcold
    · have hnone : qp.base.getD c none = none :=
        List.getD_eq_default _ _ (by rw [swf.base_len]; omega)
      have husage : usage_get qp c = {} := by
        unfold usage_get
        exact List.getD_eq_default _ _ (by rw [swf.usage_len]; omega)
      rw [husage]
      rw [if_neg (by intro hcontra; exact absurd hcontra (by simp))]
      exact ⟨hnone, rfl⟩
  · intro c
    rw [realloc_usage_get qp m c swf.usage_len]
    exact swf.used_le c
  · show qp.bump < m
    have := swf.bump_lt
    omega
  · show (usage_get (realloc_chunk_arrays qp m) qp.bump).exists_ = true
    rw [realloc_usage_get qp m _ swf.usage_len]
    exact swf.bump_ex

theorem chunk_alloc_spec {qp : Qp} (swf : StandaloneWF qp) (c size : Nat)
    (hc : c < qp.chunk_max) (hnex : (usage_get qp c).exists_ = false)
    (hsz : size ≤ QP_CHUNK_SIZE) :
    AllocSpec qp (chunk_alloc qp c size).1 (chunk_alloc qp c size).2 size := by
  have hulen : c < qp.usage.length := by rw [swf.usage_len]; exact hc
  have hblen : c < qp.base.length := by rw [swf.base_len]; exact hc
  have husage0 : usage_get qp c = {} := by
    have := swf.chunks c hc
    rw [if_neg (by rw [hnex]; simp)] at this
    exact this.2
  have hrc : ref_chunk (make_ref c 0) = c := ref_chunk_make c 0 (by decide)
  have hcell : ref_cell (make_ref c 0) = 0 := ref_cell_make c 0 (by decide)
  unfold chunk_alloc usage_set
  dsimp only
  have hug : ∀ x, (qp.usage.set c
      { exists_ := true, used := size : QpUsage }).getD x {} =
      (if c = x then { exists_ := true, used := size : QpUsage }
       else usage_get qp x) := by
    intro x
    by_cases hx : c = x
    · subst hx
      rw [if_pos rfl]
      exact getD_set_self _ _ _ _ hulen
    · rw [if_neg hx]
      exact getD_set_ne _ _ _ _ _ hx
  refine ⟨?_, rfl, rfl, rfl, ?_, ?_, ?_, ?_, ?_, ?_, ?_, ?_⟩
  · refine ⟨?_, ?_, rfl, ?_, ?_, ?_, ?_, ?_, ?_⟩
    · show (qp.base.set c _).length = qp.chunk_max
      rw [List.length_set]
      exact swf.base_len
    · show (qp.usage.set c _).length = qp.chunk_max
      rw [List.length_set]
      exact swf.usage_len
    · intro x
      show ((qp.usage.set c _).getD x {}).immutable = false
      rw [hug x]
      by_cases hx : c = x
      · rw [if_pos hx]
      · rw [if_neg hx]
        exact swf.no_imm x
    · intro x
      show ((qp.usage.set c _).getD x {}).phase = 0
      rw [hug x]
      by_cases hx : c = x
      · rw [if_pos hx]
      · rw [if_neg hx]
        exact swf.no_phase x
    · intro x hx
      show (if ((qp.usage.set c _).getD x {}).exists_ = true then
          ∃ arr, (qp.base.set c _).getD x none = some arr ∧
            arr.length = QP_CHUNK_SIZE
        else (qp.base.set c _).getD x none = none ∧
          (qp.usage.set c _).getD x {} = {})
      rw [hug x]
      by_cases hxc : c = x
      · subst hxc
        rw [if_pos rfl, if_pos rfl, getD_set_self _ _ _ _ hblen]
        exact ⟨List.replicate QP_CHUNK_SIZE zero_node, rfl,
          List.length_replicate _ _⟩
      · rw [if_neg hxc, getD_set_ne _ _ _ _ _ hxc]
        exact swf.chunks x (by
          show x < qp.chunk_max
          exact hx)
    · intro x
      show ((qp.usage.set c _).getD x {}).used ≤ QP_CHUNK_SIZE
      rw [hug x]
      by_cases hx : c = x
      · rw [if_pos hx]
        exact hsz
      · rw [if_neg hx]
        exact swf.used_le x
    · exact hc
    · show ((qp.usage.set c _).getD c {}).exists_ = true
      rw [hug c, if_pos rfl]
  · intro r hr
    obtain ⟨ha1, ha2, ha3⟩ := hr
    have hne : c ≠ ref_chunk r := by
      intro hcontra
      rw [← hcontra] at ha2
      rw [hnex] at ha2
      cases ha2
    show ref_get _ r = ref_get qp r
    unfold ref_get get_chunk
    dsimp only
    rw [getD_set_ne _ _ _ _ _ hne]
  · intro r hr
    obtain ⟨ha1, ha2, ha3⟩ := hr
    have hne : c ≠ ref_chunk r := by
      intro hcontra
      rw [← hcontra] at ha2
      rw [hnex] at ha2
      cases ha2
    refine ⟨ha1, ?_, ?_⟩
    · show ((qp.usage.set c _).getD (ref_chunk r) {}).exists_ = true
      rw [hug _, if_neg hne]
      exact ha2
    · show ref_cell r < ((qp.usage.set c _).getD (ref_chunk r) {}).used
      rw [hug _, if_neg hne]
      exact ha3
  · rw [hcell, hrc, husage0]
  · show ((qp.usage.set c _).getD (ref_chunk (make_ref c 0)) {}).used =
      ref_cell (make_ref c 0) + size
    rw [hrc, hcell, hug c, if_pos rfl]
    show size = 0 + size
    omega
  · constructor
    · rw [hrc]
      exact hc
    · show ((qp.usage.set c _).getD (ref_chunk (make_ref c 0)) {}).exists_ =
        true
      rw [hrc, hug c, if_pos rfl]
  · intro x
    show ((qp.usage.set c _).getD x {}).free = (usage_get qp x).free
    rw [hug x]
    by_cases hx : c = x
    · subst hx
      rw [if_pos rfl, husage0]
    · rw [if_neg hx]
  · intro x hx
    rw [hrc] at hx
    show (qp.usage.set c _).getD x {} = usage_get qp x
    rw [hug x, if_neg (fun h => hx h.symm)]
  · rw [hcell]
    omega

theorem alloc_slow_spec {qp : Qp} (swf : StandaloneWF qp) (size : Nat)
    (hsz : size ≤ QP_CHUNK_SIZE) :
    AllocSpec qp (alloc_slow qp size).1 (alloc_slow qp size).2 size := by
  unfold alloc_slow
  rcases hfind : (List.range qp.chunk_max).find?
      (fun c => !(usage_get qp c).exists_) with _ | chunk
  · dsimp only
    have hm : qp.chunk_max < GROWTH_FACTOR qp.chunk_max := by
      unfold GROWTH_FACTOR
      omega
    have hswf2 := realloc_swf swf (GROWTH_FACTOR qp.chunk_max) (by omega)
    have hnex : (usage_get (realloc_chunk_arrays qp
        (GROWTH_FACTOR qp.chunk_max)) qp.chunk_max).exists_ = false := by
      rw [realloc_usage_get _ _ _ swf.usage_len]
      have : usage_get qp qp.chunk_max = {} := by
        unfold usage_get
        exact List.getD_eq_default _ _ (by rw [swf.usage_len])
      rw [this]
    have hchmax : (realloc_chunk_arrays qp
        (GROWTH_FACTOR qp.chunk_max)).chunk_max = GROWTH_FACTOR qp.chunk_max
      := rfl
    have hspec := chunk_alloc_spec hswf2 qp.chunk_max size
      (by rw [hchmax]; exact hm) hnex hsz
    have hgetr : ∀ r, ref_get (realloc_chunk_arrays qp
        (GROWTH_FACTOR qp.chunk_max)) r = ref_get qp r :=
      fun r => realloc_ref_get qp _ r swf.base_len
    have hgetu : ∀ c, usage_get (realloc_chunk_arrays qp
        (GROWTH_FACTOR qp.chunk_max)) c = usage_get qp c :=
      fun c => realloc_usage_get qp _ c swf.usage_len
    have halloc : ∀ r, allocated qp r → allocated (realloc_chunk_arrays qp
        (GROWTH_FACTOR qp.chunk_max)) r := by
      rintro r ⟨h1, h2, h3⟩
      refine ⟨by rw [hchmax]; omega, ?_, ?_⟩
      · rw [hgetu]
        exact h2
      · rw [hgetu]
        exact h3
    refine ⟨hspec.swf, hspec.lkeep, hspec.rkeep, hspec.ckeep, ?_, ?_, ?_,
      hspec.usedw, hspec.chunkw, ?_, ?_, hspec.fits⟩
    · intro r hr
      rw [hspec.old_cells r (halloc r hr)]
      exact hgetr r
    · intro r hr
      exact hspec.old_alloc r (halloc r hr)
    · rw [hspec.cellw, hgetu]
    · intro c
      rw [hspec.freew c, hgetu]
    · intro c hcne
      rw [hspec.usage_other c hcne, hgetu]
  · have hpred := List.find?_some hfind
    have hmem := List.mem_of_find?_eq_some hfind
    have hlt : chunk < qp.chunk_max := List.mem_range.mp hmem
    have hnex : (usage_get qp chunk).exists_ = false := by
      revert hpred
      cases (usage_get qp chunk).exists_ <;> simp
    exact chunk_alloc_spec swf chunk size hlt hnex hsz

theorem alloc_twigs_spec {qp : Qp} (swf : StandaloneWF qp) (size : Nat)
    (hsz1 : 1 ≤ size) (hsz : size ≤ QP_CHUNK_SIZE) :
    AllocSpec qp (alloc_twigs qp size).1 (alloc_twigs qp size).2 size := by
  unfold alloc_twigs
  dsimp only
  by_cases hfast : (usage_get qp qp.bump).used + size ≤ QP_CHUNK_SIZE
  · rw [if_pos hfast]
    set cell := (usage_get qp qp.bump).used with hcelldef
    have hcell16 : cell < QP_CHUNK_SIZE := by omega
    have hrc : ref_chunk (make_ref qp.bump cell) = qp.bump :=
      ref_chunk_make _ _ hcell16
    have hrcell : ref_cell (make_ref qp.bump cell) = cell :=
      ref_cell_make _ _ hcell16
    have hblen : qp.bump < qp.usage.length := by
      rw [swf.usage_len]
      exact swf.bump_lt
    have hug : ∀ x, usage_get (usage_set qp qp.bump
        { usage_get qp qp.bump with used := cell + size }) x =
        (if qp.bump = x then
          { usage_get qp qp.bump with used := cell + size }
         else usage_get qp x) := by
      intro x
      by_cases hx : qp.bump = x
      · subst hx
        rw [if_pos rfl]
        exact usage_get_set_self _ _ _ hblen
      · rw [if_neg hx]
        exact usage_get_set_ne _ _ _ _ hx
    refine ⟨?_, rfl, rfl, rfl, ?_, ?_, ?_, ?_, ?_, ?_, ?_, ?_⟩
    · refine ⟨?_, ?_, swf.fender0, ?_, ?_, ?_, ?_, swf.bump_lt, ?_⟩
      · show qp.base.length = qp.chunk_max
        exact swf.base_len
      · show (qp.usage.set qp.bump _).length = qp.chunk_max
        rw [List.length_set]
        exact swf.usage_len
      · intro x
        show (usage_get (usage_set qp qp.bump _) x).immutable = false
        rw [hug x]
        by_cases hx : qp.bump = x
        · rw [if_pos hx]
          exact swf.no_imm qp.bump
        · rw [if_neg hx]
          exact swf.no_imm x
      · intro x
        show (usage_get (usage_set qp qp.bump _) x).phase = 0
        rw [hug x]
        by_cases hx : qp.bump = x
        · rw [if_pos hx]
          exact swf.no_phase qp.bump
        · rw [if_neg hx]
          exact swf.no_phase x
      · intro x hx
        show (if (usage_get (usage_set qp qp.bump _) x).exists_ = true then
            ∃ arr, qp.base.getD x none = some arr ∧
              arr.length = QP_CHUNK_SIZE
          else qp.base.getD x none = none ∧
            usage_get (usage_set qp qp.bump _) x = {})
        rw [hug x]
        by_cases hxc : qp.bump = x
        · subst hxc
          rw [if_pos rfl]
          rw [if_pos (show ({ usage_get qp qp.bump with
            used := cell + size } : QpUsage).exists_ = true from swf.bump_ex)]
          have := swf.chunks qp.bump swf.bump_lt
          rw [if_pos swf.bump_ex] at this
          exact this
        · rw [if_neg hxc]
          exact swf.chunks x hx
      · intro x
        show (usage_get (usage_set qp qp.bump _) x).used ≤ QP_CHUNK_SIZE
        rw [hug x]
        by_cases hx : qp.bump = x
        · rw [if_pos hx]
          exact hfast
        · rw [if_neg hx]
          exact swf.used_le x
      · show (usage_get (usage_set qp qp.bump _) qp.bump).exists_ = true
        rw [hug qp.bump, if_pos rfl]
        exact swf.bump_ex
    · intro r _
      rfl
    · rintro r ⟨h1, h2, h3⟩
      refine ⟨h1, ?_, ?_⟩
      · show (usage_get (usage_set qp qp.bump _) (ref_chunk r)).exists_ = true
        rw [hug _]
        by_cases hx : qp.bump = ref_chunk r
        · rw [if_pos hx]
          rw [← hx] at h2
          exact h2
        · rw [if_neg hx]
          exact h2
      · show ref_cell r < (usage_get (usage_set qp qp.bump _) (ref_chunk r)).used
        rw [hug _]
        by_cases hx : qp.bump = ref_chunk r
        · rw [if_pos hx]
          show ref_cell r < cell + size
          rw [← hx] at h3
          omega
        · rw [if_neg hx]
          exact h3
    · rw [hrcell, hrc]
    · show (usage_get (usage_set qp qp.bump _) (ref_chunk (make_ref qp.bump
        cell))).used = ref_cell (make_ref qp.bump cell) + size
      rw [hrc, hrcell, hug qp.bump, if_pos rfl]
    · constructor
      · rw [hrc]
        exact swf.bump_lt
      · show (usage_get (usage_set qp qp.bump _) (ref_chunk (make_ref qp.bump
          cell))).exists_ = true
        rw [hrc, hug qp.bump, if_pos rfl]
        exact swf.bump_ex
    · intro c
      show (usage_get (usage_set qp qp.bump _) c).free = (usage_get qp c).free
      rw [hug c]
      by_cases hx : qp.bump = c
      · rw [if_pos hx, hx]
      · rw [if_neg hx]
    · intro c hcne
      rw [hrc] at hcne
      show usage_get (usage_set qp qp.bump _) c = usage_get qp c
      rw [hug c, if_neg (fun h => hcne h.symm)]
    · rw [hrcell]
      exact hfast
  · rw [if_neg hfast]
    exact alloc_slow_spec swf size hsz

/-! ### Standalone heap basics -/

theorem cells_immutable_false {qp : Qp} (swf : StandaloneWF qp) (r : Nat) :
    cells_immutable qp r = false := by
  unfold cells_immutable
  split
  · rw [swf.fender0]
    simp
  · exact swf.no_imm _

theorem make_root_mutable_id {qp : Qp} (swf : StandaloneWF qp) :
    make_root_mutable qp = qp := by
  unfold make_root_mutable
  rw [cells_immutable_false swf]
  rfl

theorem make_twigs_mutable_id {qp : Qp} (swf : StandaloneWF qp) (nref : Nat) :
    make_twigs_mutable qp nref = qp := by
  unfold make_twigs_mutable
  dsimp only
  rw [cells_immutable_false swf]
  rfl

theorem ref_get_set_self {qp : Qp} (swf : StandaloneWF qp) {r : Nat}
    (halloc : allocated qp r) (n : QpNode) :
    ref_get (ref_set qp r n) r = n := by
  obtain ⟨h1, h2, h3⟩ := halloc
  have hchunks := swf.chunks _ h1
  rw [if_pos h2] at hchunks
  obtain ⟨arr, harr, hlen⟩ := hchunks
  have hchunk_eq : get_chunk qp (ref_chunk r) = arr := by
    unfold get_chunk
    rw [harr]
    rfl
  have hbl : ref_chunk r < qp.base.length := by
    rw [swf.base_len]
    exact h1
  unfold ref_get ref_set get_chunk
  dsimp only
  rw [getD_set_self _ _ _ _ hbl]
  show ((some ((get_chunk qp (ref_chunk r)).set (ref_cell r) n)).getD
    []).getD (ref_cell r) zero_node = n
  rw [hchunk_eq]
  show (arr.set (ref_cell r) n).getD (ref_cell r) zero_node = n
  exact getD_set_self _ _ _ _ (by rw [hlen]; exact ref_cell_lt r)

theorem ref_get_set_other (qp : Qp) (r r' : Nat) (hne : r' ≠ r) (n : QpNode) :
    ref_get (ref_set qp r n) r' = ref_get qp r' := by
  unfold ref_get ref_set get_chunk
  dsimp only
  by_cases hch : ref_chunk r = ref_chunk r'
  · by_cases hbl : ref_chunk r < qp.base.length
    · rw [← hch, getD_set_self _ _ _ _ hbl]
      have hcl : ref_cell r ≠ ref_cell r' := by
        intro hcontra
        exact hne ((ref_eq_iff r' r).mpr ⟨hch.symm, hcontra.symm⟩)
      show ((some ((get_chunk qp (ref_chunk r)).set (ref_cell r) n)).getD
        []).getD (ref_cell r') zero_node = _
      show ((get_chunk qp (ref_chunk r)).set (ref_cell r) n).getD
        (ref_cell r') zero_node = _
      rw [getD_set_ne _ _ _ _ _ hcl]
      unfold get_chunk
      rw [hch]
    · rw [List.set_eq_of_length_le (by omega)]
  · rw [getD_set_ne _ _ _ _ _ hch]

theorem allocated_ref_set (qp : Qp) (r x : Nat) (n : QpNode) :
    allocated (ref_set qp r n) x ↔ allocated qp x := Iff.rfl

theorem swf_ref_set {qp : Qp} (swf : StandaloneWF qp) {r : Nat}
    (hex : (usage_get qp (ref_chunk r)).exists_ = true) (n : QpNode) :
    StandaloneWF (ref_set qp r n) := by
  refine ⟨?_, swf.usage_len, swf.fender0, swf.no_imm, swf.no_phase, ?_,
    swf.used_le, swf.bump_lt, swf.bump_ex⟩
  · show (qp.base.set _ _).length = qp.chunk_max
    rw [List.length_set]
    exact swf.base_len
  · intro c hc
    show (if (usage_get qp c).exists_ = true then
        ∃ arr, (qp.base.set (ref_chunk r) _).getD c none = some arr ∧
          arr.length = QP_CHUNK_SIZE
      else (qp.base.set (ref_chunk r) _).getD c none = none ∧
        usage_get qp c = {})
    by_cases hcr : ref_chunk r = c
    · subst hcr
      rw [if_pos hex]
      have hch := swf.chunks _ hc
      rw [if_pos hex] at hch
      obtain ⟨arr, harr, hlen⟩ := hch
      have hbl : ref_chunk r < qp.base.length := by
        rw [swf.base_len]
        exact hc
      refine ⟨(get_chunk qp (ref_chunk r)).set (ref_cell r) n, ?_, ?_⟩
      · rw [getD_set_self _ _ _ _ hbl]
      · rw [List.length_set]
        unfold get_chunk
        rw [harr]
        exact hlen
    · rw [getD_set_ne _ _ _ _ _ hcr]
      exact swf.chunks c hc

theorem foldl_set_get_out {tgt : Nat → Nat} {val : Nat → QpNode} :
    ∀ (l : List Nat) (qp : Qp) (r : Nat), (∀ j ∈ l, r ≠ tgt j) →
      ref_get (l.foldl (fun qp i => ref_set qp (tgt i) (val i)) qp) r =
        ref_get qp r := by
  intro l
  induction l with
  | nil => intro qp r _; rfl
  | cons a l ih =>
    intro qp r hr
    rw [List.foldl_cons]
    rw [ih _ r (fun j hj => hr j (List.mem_cons_of_mem a hj))]
    exact ref_get_set_other qp (tgt a) r (hr a (List.mem_cons_self a l)) _

theorem foldl_set_swf {tgt : Nat → Nat} {val : Nat → QpNode} :
    ∀ (l : List Nat) (qp : Qp), StandaloneWF qp →
      (∀ j ∈ l, (usage_get qp (ref_chunk (tgt j))).exists_ = true) →
      StandaloneWF (l.foldl (fun qp i => ref_set qp (tgt i) (val i)) qp) := by
  intro l
  induction l with
  | nil => intro qp swf _; exact swf
  | cons a l ih =>
    intro qp swf hex
    rw [List.foldl_cons]
    exact ih _ (swf_ref_set swf (hex a (List.mem_cons_self a l)) _)
      (fun j hj => hex j (List.mem_cons_of_mem a hj))

theorem foldl_set_get_hit {tgt : Nat → Nat} {val : Nat → QpNode} :
    ∀ (l : List Nat) (qp : Qp), StandaloneWF qp → l.Nodup →
      (∀ i ∈ l, allocated qp (tgt i)) →
      (∀ i ∈ l, ∀ i' ∈ l, tgt i = tgt i' → i = i') →
      ∀ j ∈ l,
      ref_get (l.foldl (fun qp i => ref_set qp (tgt i) (val i)) qp) (tgt j)
        = val j := by
  intro l
  induction l with
  | nil => intro qp _ _ _ _ j hj; cases hj
  | cons a l ih =>
    intro qp swf hnd halloc hinj j hj
    rw [List.foldl_cons]
    have hana : a ∉ l := (List.nodup_cons.mp hnd).1
    have swf' : StandaloneWF (ref_set qp (tgt a) (val a)) :=
      swf_ref_set swf (halloc a (List.mem_cons_self a l)).2.1 _
    rcases List.mem_cons.mp hj with hja | hjl
    · subst hja
      rw [foldl_set_get_out l _ (tgt j) (fun i hi => by
        intro hcontra
        have := hinj j (List.mem_cons_self j l) i (List.mem_cons_of_mem j hi)
          hcontra
        subst this
        exact hana hi)]
      exact ref_get_set_self swf (halloc j (List.mem_cons_self j l)) _
    · exact ih _ swf' (List.nodup_cons.mp hnd).2
        (fun i hi => (allocated_ref_set qp (tgt a) (tgt i) (val a)).mpr
          (halloc i (List.mem_cons_of_mem a hi)))
        (fun i hi i' hi' he => hinj i (List.mem_cons_of_mem a hi)
          i' (List.mem_cons_of_mem a hi') he)
        j hjl

theorem zero_twigs_get_out (qp : Qp) (tref size r : Nat)
    (h : ∀ j, j < size → r ≠ tref + j) :
    ref_get (zero_twigs qp tref size) r = ref_get qp r := by
  unfold zero_twigs
  exact foldl_set_get_out (List.range size) qp r
    (fun j hj => h j (List.mem_range.mp hj))

theorem zero_twigs_swf {qp : Qp} (swf : StandaloneWF qp) (tref size : Nat)
    (hex : ∀ j, j < size →
      (usage_get qp (ref_chunk (tref + j))).exists_ = true) :
    StandaloneWF (zero_twigs qp tref size) := by
  unfold zero_twigs
  exact foldl_set_swf (List.range size) qp swf
    (fun j hj => hex j (List.mem_range.mp hj))

theorem move_twigs_get_out (qp : Qp) (d s k r : Nat)
    (h : ∀ j, j < k → r ≠ d + j) :
    ref_get (move_twigs qp d s k) r = ref_get qp r := by
  unfold move_twigs
  dsimp only
  exact foldl_set_get_out (List.range k) qp r
    (fun j hj => h j (List.mem_range.mp hj))

theorem move_twigs_swf {qp : Qp} (swf : StandaloneWF qp) (d s k : Nat)
    (hex : ∀ j, j < k →
      (usage_get qp (ref_chunk (d + j))).exists_ = true) :
    StandaloneWF (move_twigs qp d s k) := by
  unfold move_twigs
  dsimp only
  exact foldl_set_swf (List.range k) qp swf
    (fun j hj => hex j (List.mem_range.mp hj))

theorem move_twigs_get_hit {qp : Qp} (swf : StandaloneWF qp) (d s k : Nat)
    (halloc : ∀ j, j < k → allocated qp (d + j)) (j : Nat) (hj : j < k) :
    ref_get (move_twigs qp d s k) (d + j) = ref_get qp (s + j) := by
  unfold move_twigs
  dsimp only
  have hval : ((List.range k).map (fun i => ref_get qp (s + i))).getD j
      zero_node = ref_get qp (s + j) := by
    rw [List.getD_eq_getElem _ _ (by simp [List.length_map]; exact hj)]
    simp
  rw [← hval]
  exact foldl_set_get_hit (List.range k) qp swf (List.nodup_range k)
    (fun i hi => halloc i (List.mem_range.mp hi))
    (fun i _ i' _ he => by omega)
    j (List.mem_range.mpr hj)

theorem allocated_congr {qp qp' : Qp} (hu : qp'.usage = qp.usage)
    (hm : qp'.chunk_max = qp.chunk_max) (r : Nat) :
    allocated qp' r ↔ allocated qp r := by
  unfold allocated usage_get
  rw [hu, hm]

theorem allocated_zero_twigs (qp : Qp) (tref size r : Nat) :
    allocated (zero_twigs qp tref size) r ↔ allocated qp r :=
  allocated_congr (zero_twigs_proj qp tref size).1
    (zero_twigs_proj qp tref size).2.1 r

/-! ### Ownership accounting -/

theorem vec_cells_card (tref size : Nat) :
    (vec_cells tref size).card = size := by
  unfold vec_cells
  rw [Finset.card_image_of_injective _ (fun a b h => by omega)]
  exact Finset.card_range size

theorem vec_cells_chunk (tref size : Nat)
    (hfit : ref_cell tref + size ≤ QP_CHUNK_SIZE) :
    ∀ r ∈ vec_cells tref size, ref_chunk r = ref_chunk tref := by
  intro r hr
  obtain ⟨j, hj, rfl⟩ := mem_vec_cells.mp hr
  exact (ref_add_chunk tref j (by omega)).1

theorem chunk_bound_alloc {qp qp' : Qp} {ref size : Nat}
    (spec : AllocSpec qp qp' ref size) (S : Finset Nat)
    (hb : chunk_bound qp S) :
    chunk_bound qp' (S ∪ vec_cells ref size) := by
  intro c
  have hfc := spec.freew c
  by_cases hc : c = ref_chunk ref
  · subst hc
    have hused := spec.usedw
    have hcellw := spec.cellw
    have hcard : ((S ∪ vec_cells ref size).filter
        (fun r => ref_chunk r = ref_chunk ref)).card ≤
        (S.filter (fun r => ref_chunk r = ref_chunk ref)).card + size := by
      calc ((S ∪ vec_cells ref size).filter _).card
          ≤ ((S.filter (fun r => ref_chunk r = ref_chunk ref)) ∪
             ((vec_cells ref size).filter
               (fun r => ref_chunk r = ref_chunk ref))).card := by
            rw [← Finset.filter_union]
        _ ≤ (S.filter (fun r => ref_chunk r = ref_chunk ref)).card +
            ((vec_cells ref size).filter
              (fun r => ref_chunk r = ref_chunk ref)).card :=
            Finset.card_union_le _ _
        _ ≤ (S.filter (fun r => ref_chunk r = ref_chunk ref)).card + size := by
            have h1 : ((vec_cells ref size).filter
                (fun r => ref_chunk r = ref_chunk ref)).card ≤
                (vec_cells ref size).card :=
              Finset.card_le_card (Finset.filter_subset _ _)
            rw [vec_cells_card] at h1
            omega
    have hold := hb (ref_chunk ref)
    rw [hfc, hused]
    omega
  · rw [hfc]
    have hused : (usage_get qp' c).used = (usage_get qp c).used := by
      rw [spec.usage_other c hc]
    rw [hused]
    have hveccard : ((vec_cells ref size).filter
        (fun r => ref_chunk r = c)).card = 0 := by
      rw [Finset.card_eq_zero]
      rw [Finset.filter_eq_empty_iff]
      intro r hr
      obtain ⟨j, hj, rfl⟩ := mem_vec_cells.mp hr
      have := (ref_add_chunk ref j (by have := spec.fits; omega)).1
      rw [this]
      exact fun h => hc h.symm
    have hcard : ((S ∪ vec_cells ref size).filter
        (fun r => ref_chunk r = c)).card ≤
        (S.filter (fun r => ref_chunk r = c)).card := by
      calc ((S ∪ vec_cells ref size).filter _).card
          ≤ ((S.filter (fun r => ref_chunk r = c)) ∪
             ((vec_cells ref size).filter (fun r => ref_chunk r = c))).card
            := by rw [← Finset.filter_union]
        _ ≤ _ + _ := Finset.card_union_le _ _
        _ ≤ (S.filter (fun r => ref_chunk r = c)).card := by
            rw [hveccard]
            omega
    have hold := hb c
    omega

theorem filter_sdiff_comm (S V : Finset Nat) (p : Nat → Prop)
    [DecidablePred p] :
    (S \ V).filter p = (S.filter p) \ V := by
  ext x
  simp only [Finset.mem_filter, Finset.mem_sdiff]
  tauto

theorem chunk_bound_remove (qp : Qp) (S V : Finset Nat)
    (hb : chunk_bound qp S) :
    chunk_bound qp (S \ V) := by
  intro c
  have h1 : ((S \ V).filter (fun r => ref_chunk r = c)).card ≤
      (S.filter (fun r => ref_chunk r = c)).card := by
    apply Finset.card_le_card
    rw [filter_sdiff_comm]
    exact Finset.sdiff_subset
  have := hb c
  omega

theorem zero_twigs_proj2 (qp : Qp) (r s : Nat) :
    (zero_twigs qp r s).root_ref = qp.root_ref ∧
    (zero_twigs qp r s).leaf_count = qp.leaf_count ∧
    (zero_twigs qp r s).bump = qp.bump ∧
    (zero_twigs qp r s).fender = qp.fender ∧
    (zero_twigs qp r s).leafkey = qp.leafkey := by
  unfold zero_twigs
  have h := foldl_proj
    (fun qp => (qp.root_ref, qp.leaf_count, qp.bump, qp.fender, qp.leafkey))
    (List.range s) (fun qp i => ref_set qp (r + i) zero_node)
    (fun qp i => rfl) qp
  exact ⟨congrArg Prod.fst h, congrArg (fun p => p.2.1) h,
    congrArg (fun p => p.2.2.1) h, congrArg (fun p => p.2.2.2.1) h,
    congrArg (fun p => p.2.2.2.2) h⟩

theorem free_twigs_standalone {qp : Qp} (swf : StandaloneWF qp)
    (twigs size : Nat)
    (halloc : ∀ j, j < size → allocated qp (twigs + j)) :
    (free_twigs qp twigs size).2 = true ∧
    StandaloneWF (free_twigs qp twigs size).1 ∧
    (∀ r, (∀ j, j < size → r ≠ twigs + j) →
      ref_get (free_twigs qp twigs size).1 r = ref_get qp r) ∧
    (∀ x, usage_get (free_twigs qp twigs size).1 x =
      (if ref_chunk twigs = x then
        { usage_get qp x with free := (usage_get qp x).free + size }
       else usage_get qp x)) ∧
    (free_twigs qp twigs size).1.leafkey = qp.leafkey ∧
    (free_twigs qp twigs size).1.root_ref = qp.root_ref ∧
    (free_twigs qp twigs size).1.leaf_count = qp.leaf_count ∧
    (free_twigs qp twigs size).1.chunk_max = qp.chunk_max ∧
    (free_twigs qp twigs size).1.bump = qp.bump := by
  have hlen : ref_chunk twigs < qp.usage.length ∨ size = 0 := by
    cases Nat.eq_zero_or_pos size with
    | inl h => exact Or.inr h
    | inr h =>
      left
      have := (halloc 0 h).1
      rw [swf.usage_len]
      simpa using this
  unfold free_twigs
  dsimp only
  set c := ref_chunk twigs with hcdef
  set u := { usage_get qp c with free := (usage_get qp c).free + size }
    with hudef
  have hug : ∀ x, usage_get (usage_set qp c u) x =
      (if c = x then u else usage_get qp x) := by
    intro x
    by_cases hx : c = x
    · subst hx
      rw [if_pos rfl]
      rcases hlen with hl | hsz
      · exact usage_get_set_self _ _ _ hl
      · subst hsz
        show usage_get (usage_set qp c { usage_get qp c with
          free := (usage_get qp c).free + 0 }) c = _
        by_cases hl : c < qp.usage.length
        · rw [usage_get_set_self _ _ _ hl]
        · show (qp.usage.set c _).getD c {} = u
          rw [List.set_eq_of_length_le (by omega)]
          have : usage_get qp c = {} := by
            unfold usage_get
            exact List.getD_eq_default _ _ (by omega)
          show usage_get qp c = u
          rw [hudef, this]
    · rw [if_neg hx]
      exact usage_get_set_ne _ _ _ _ hx
  have hswf1 : StandaloneWF { usage_set qp c u with
      free_count := qp.free_count + size } := by
    refine ⟨?_, ?_, swf.fender0, ?_, ?_, ?_, ?_, swf.bump_lt, ?_⟩
    · show qp.base.length = qp.chunk_max
      exact swf.base_len
    · show (qp.usage.set c u).length = qp.chunk_max
      rw [List.length_set]
      exact swf.usage_len
    · intro x
      show (usage_get (usage_set qp c u) x).immutable = false
      rw [hug x]
      by_cases hx : c = x
      · rw [if_pos hx, hudef]
        exact swf.no_imm c
      · rw [if_neg hx]
        exact swf.no_imm x
    · intro x
      show (usage_get (usage_set qp c u) x).phase = 0
      rw [hug x]
      by_cases hx : c = x
      · rw [if_pos hx, hudef]
        exact swf.no_phase c
      · rw [if_neg hx]
        exact swf.no_phase x
    · intro x hx
      show (if (usage_get (usage_set qp c u) x).exists_ = true then
          ∃ arr, qp.base.getD x none = some arr ∧ arr.length = QP_CHUNK_SIZE
        else qp.base.getD x none = none ∧
          usage_get (usage_set qp c u) x = {})
      rw [hug x]
      by_cases hxc : c = x
      · subst hxc
        rw [if_pos rfl]
        have hold := swf.chunks c hx
        by_cases hex : (usage_get qp c).exists_ = true
        · rw [if_pos hex] at hold
          rw [if_pos (show u.exists_ = true from hex)]
          exact hold
        · rw [if_neg hex] at hold
          rw [if_neg (show ¬ u.exists_ = true from hex)]
          refine ⟨hold.1, ?_⟩
          have hsz : size = 0 := by
            by_contra hs
            apply hex
            have := (halloc 0 (Nat.pos_of_ne_zero hs)).2.1
            simpa using this
          rw [hudef, hsz, hold.2]
      · rw [if_neg hxc]
        exact swf.chunks x hx
    · intro x
      show (usage_get (usage_set qp c u) x).used ≤ QP_CHUNK_SIZE
      rw [hug x]
      by_cases hx : c = x
      · rw [if_pos hx, hudef]
        exact swf.used_le c
      · rw [if_neg hx]
        exact swf.used_le x
    · show (usage_get (usage_set qp c u) qp.bump).exists_ = true
      rw [hug qp.bump]
      by_cases hx : c = qp.bump
      · rw [if_pos hx, hudef]
        rw [hx]
        exact swf.bump_ex
      · rw [if_neg hx]
        exact swf.bump_ex
  have himm : cells_immutable { usage_set qp c u with
      free_count := qp.free_count + size } twigs = false :=
    cells_immutable_false hswf1 twigs
  rw [if_neg (by rw [himm]; simp)]
  dsimp only
  have hexz : ∀ j, j < size → (usage_get { usage_set qp c u with
      free_count := qp.free_count + size } (ref_chunk (twigs + j))).exists_ =
      true := by
    intro j hj
    show (usage_get (usage_set qp c u) (ref_chunk (twigs + j))).exists_ = true
    rw [hug _]
    have := (halloc j hj).2.1
    by_cases hx : c = ref_chunk (twigs + j)
    · rw [if_pos hx, hudef]
      rw [hx]
      exact this
    · rw [if_neg hx]
      exact this
  obtain ⟨hzu, hzm, hzc, hzf, hzh⟩ := zero_twigs_proj
    { usage_set qp c u with free_count := qp.free_count + size } twigs size
  obtain ⟨hz1, hz2, hz3, hz4, hz5⟩ := zero_twigs_proj2
    { usage_set qp c u with free_count := qp.free_count + size } twigs size
  refine ⟨rfl, ?_, ?_, ?_, ?_, ?_, ?_, ?_, ?_⟩
  · exact zero_twigs_swf hswf1 twigs size hexz
  · intro r hr
    rw [zero_twigs_get_out _ _ _ _ hr]
    rfl
  · intro x
    have : usage_get (zero_twigs { usage_set qp c u with
        free_count := qp.free_count + size } twigs size) x =
        usage_get (usage_set qp c u) x := by
      unfold usage_get
      rw [hzu]
    rw [this, hug x]
    by_cases hx : c = x
    · rw [if_pos hx, if_pos hx, hudef, hx]
    · rw [if_neg hx, if_neg hx]
  · rw [hz5]
    rfl
  · rw [hz1]
    rfl
  · rw [hz2]
    rfl
  · rw [hzm]
    rfl
  · rw [hz3]
    rfl

theorem allocated_of_usage_fields {qp qp' : Qp}
    (hm : qp'.chunk_max = qp.chunk_max)
    (hx : ∀ c, (usage_get qp' c).exists_ = (usage_get qp c).exists_)
    (hu : ∀ c, (usage_get qp' c).used = (usage_get qp c).used)
    (r : Nat) : allocated qp' r ↔ allocated qp r := by
  unfold allocated
  rw [hm, hx, hu]

theorem allocated_free_twigs {qp : Qp} (swf : StandaloneWF qp)
    (twigs size : Nat)
    (halloc : ∀ j, j < size → allocated qp (twigs + j)) (r : Nat) :
    allocated (free_twigs qp twigs size).1 r ↔ allocated qp r := by
  obtain ⟨-, -, -, hus, -, -, -, hcm, -⟩ :=
    free_twigs_standalone swf twigs size halloc
  refine allocated_of_usage_fields hcm ?_ ?_ r
  · intro c
    rw [hus c]
    by_cases h : ref_chunk twigs = c
    · rw [if_pos h]
    · rw [if_neg h]
  · intro c
    rw [hus c]
    by_cases h : ref_chunk twigs = c
    · rw [if_pos h]
    · rw [if_neg h]

theorem chunk_bound_free {qp : Qp} (swf : StandaloneWF qp) (S : Finset Nat)
    (twigs size : Nat) (hb : chunk_bound qp S)
    (halloc : ∀ j, j < size → allocated qp (twigs + j))
    (hsub : vec_cells twigs size ⊆ S)
    (hfit : ref_cell twigs + size ≤ QP_CHUNK_SIZE) :
    chunk_bound (free_twigs qp twigs size).1
      (S \ vec_cells twigs size) := by
  obtain ⟨-, -, -, hus, -, -, -, -, -⟩ :=
    free_twigs_standalone swf twigs size halloc
  intro x
  rw [hus x]
  by_cases hx : ref_chunk twigs = x
  · rw [if_pos hx]
    have hVsub : vec_cells twigs size ⊆
        S.filter (fun r => ref_chunk r = x) := by
      intro r hr
      rw [Finset.mem_filter]
      exact ⟨hsub hr, by rw [vec_cells_chunk twigs size hfit r hr, hx]⟩
    have hVcard : size ≤ (S.filter (fun r => ref_chunk r = x)).card := by
      have := Finset.card_le_card hVsub
      rwa [vec_cells_card] at this
    have hcard : ((S \ vec_cells twigs size).filter
        (fun r => ref_chunk r = x)).card =
        (S.filter (fun r => ref_chunk r = x)).card - size := by
      rw [filter_sdiff_comm, Finset.card_sdiff hVsub, vec_cells_card]
    rw [hcard]
    have := hb x
    dsimp only at this ⊢
    omega
  · rw [if_neg hx]
    have h1 : ((S \ vec_cells twigs size).filter
        (fun r => ref_chunk r = x)).card ≤
        (S.filter (fun r => ref_chunk r = x)).card := by
      apply Finset.card_le_card
      rw [filter_sdiff_comm]
      exact Finset.sdiff_subset
    have := hb x
    omega

/-! ### Helpers for the insert proof -/

theorem vec_cells_one (r : Nat) : vec_cells r 1 = {r} := by
  ext x
  rw [mem_vec_cells]
  simp only [Finset.mem_singleton]
  constructor
  · rintro ⟨j, hj, rfl⟩
    omega
  · rintro rfl
    exact ⟨0, by omega, by omega⟩

theorem twf_wb {f : Nat → Nat → List Nat} {t : QpT} (h : TWF f t) : WB t := by
  induction h with
  | leaf p i hp => exact WB.leaf p i
  | branch off cs hlen hnodup hbits hchild htagbit hagree hsub ih =>
    exact WB.branch off cs (by omega) ih

theorem swf_of_fields {qp qp' : Qp} (hb : qp'.base = qp.base)
    (hu : qp'.usage = qp.usage) (hm : qp'.chunk_max = qp.chunk_max)
    (hbp : qp'.bump = qp.bump) (hf : qp'.fender = qp.fender)
    (swf : StandaloneWF qp) : StandaloneWF qp' := by
  have hug : ∀ c, usage_get qp' c = usage_get qp c := by
    intro c
    unfold usage_get
    rw [hu]
  refine ⟨?_, ?_, ?_, ?_, ?_, ?_, ?_, ?_, ?_⟩
  · rw [hb, hm]
    exact swf.base_len
  · rw [hu, hm]
    exact swf.usage_len
  · rw [hf]
    exact swf.fender0
  · intro c
    rw [hug]
    exact swf.no_imm c
  · intro c
    rw [hug]
    exact swf.no_phase c
  · intro c hc
    rw [hug, hb]
    rw [hm] at hc
    exact swf.chunks c hc
  · intro c
    rw [hug]
    exact swf.used_le c
  · rw [hbp, hm]
    exact swf.bump_lt
  · rw [hug, hbp]
    exact swf.bump_ex


theorem owned_ok_congr {qp qp' : Qp} (hu : qp'.usage = qp.usage)
    (hm : qp'.chunk_max = qp.chunk_max) (S : Finset Nat)
    (h : owned_ok qp S) : owned_ok qp' S := by
  intro r hr
  have hug : ∀ c, usage_get qp' c = usage_get qp c := by
    intro c
    unfold usage_get
    rw [hu]
  rw [hm, hug]
  exact h r hr

theorem chunk_bound_congr {qp qp' : Qp} (hu : qp'.usage = qp.usage)
    (S : Finset Nat) (h : chunk_bound qp S) : chunk_bound qp' S := by
  intro c
  have hug : ∀ c, usage_get qp' c = usage_get qp c := by
    intro c
    unfold usage_get
    rw [hu]
  rw [hug]
  exact h c

theorem binds_list_append (l1 l2 : List (Nat × QpT)) :
    binds_list (l1 ++ l2) = binds_list l1 ++ binds_list l2 := by
  induction l1 with
  | nil => rfl
  | cons a l ih =>
    obtain ⟨b, c⟩ := a
    show QpT.binds c ++ binds_list (l ++ l2) = _
    rw [ih]
    show QpT.binds c ++ (binds_list l ++ binds_list l2) =
      (QpT.binds c ++ binds_list l) ++ binds_list l2
    rw [List.append_assoc]

theorem binds_list_cons (x : Nat × QpT) (l : List (Nat × QpT)) :
    binds_list (x :: l) = (x.2).binds ++ binds_list l := by
  obtain ⟨b, c⟩ := x
  rfl

theorem list_split_at {α : Type} :
    ∀ (l : List α) (j : Nat), j < l.length → ∀ (d : α),
      l = l.take j ++ l.getD j d :: l.drop (j + 1) := by
  intro l
  induction l with
  | nil => intro j hj; cases hj
  | cons a t ih =>
    intro j hj d
    cases j with
    | zero =>
      show a :: t = [] ++ (a :: t).getD 0 d :: t
      rw [List.getD_cons_zero]
      rfl
    | succ j =>
      show a :: t = (a :: t).take (j + 1) ++
        (a :: t).getD (j + 1) d :: (a :: t).drop (j + 2)
      simp only [List.take_succ_cons, List.getD_cons_succ,
        List.drop_succ_cons, List.cons_append]
      rw [← ih j (by simpa using hj) d]

theorem list_set_split {α : Type} :
    ∀ (l : List α) (j : Nat), j < l.length → ∀ (x : α),
      l.set j x = l.take j ++ x :: l.drop (j + 1) := by
  intro l
  induction l with
  | nil => intro j hj; cases hj
  | cons a t ih =>
    intro j hj x
    cases j with
    | zero => simp
    | succ j =>
      simp only [List.set_cons_succ, List.take_succ_cons,
        List.drop_succ_cons, List.cons_append]
      rw [ih j (by simpa using hj) x]

theorem list_insertIdx_split {α : Type} :
    ∀ (l : List α) (j : Nat), j ≤ l.length →
      ∀ (x : α), l.insertIdx j x = l.take j ++ x :: l.drop j := by
  intro l
  induction l with
  | nil =>
    intro j hj x
    have : j = 0 := by simpa using hj
    subst this
    rfl
  | cons a t ih =>
    intro j hj x
    cases j with
    | zero => rfl
    | succ j =>
      show (a :: t).insertIdx (j + 1) x = _
      rw [List.insertIdx_succ_cons]
      simp only [List.take_succ_cons, List.drop_succ_cons, List.cons_append]
      rw [ih j (by simpa using hj) x]

theorem perm_splice {α : Type} (A B C bs tb : List α)
    (h : B.Perm (bs ++ tb)) :
    (A ++ B ++ C).Perm (bs ++ (A ++ tb ++ C)) := by
  have h1 : (A ++ B ++ C).Perm (A ++ (bs ++ tb) ++ C) :=
    List.Perm.append (List.Perm.append_left A h) (List.Perm.refl C)
  refine h1.trans ?_
  have h2 : A ++ (bs ++ tb) ++ C = (A ++ bs) ++ (tb ++ C) := by
    simp [List.append_assoc]
  have h3 : bs ++ (A ++ tb ++ C) = (bs ++ A) ++ (tb ++ C) := by
    simp [List.append_assoc]
  rw [h2, h3]
  exact List.Perm.append_right _ List.perm_append_comm

theorem binds_list_set_perm (cs : List (Nat × QpT)) (j : Nat)
    (hj : j < cs.length) (x : Nat × QpT) (bs : List (Nat × Nat))
    (hperm : (x.2).binds.Perm (bs ++ ((cs.getD j default).2).binds)) :
    (binds_list (cs.set j x)).Perm (bs ++ binds_list cs) := by
  have hset : binds_list (cs.set j x) = binds_list (cs.take j) ++
      (x.2).binds ++ binds_list (cs.drop (j + 1)) := by
    rw [list_set_split cs j hj x, binds_list_append, binds_list_cons,
      List.append_assoc]
  have hcs : binds_list cs = binds_list (cs.take j) ++
      ((cs.getD j default).2).binds ++ binds_list (cs.drop (j + 1)) := by
    conv_lhs => rw [list_split_at cs j hj default]
    rw [binds_list_append, binds_list_cons, List.append_assoc]
  rw [hset, hcs]
  rw [List.append_assoc, List.append_assoc]
  have := perm_splice (binds_list (cs.take j)) ((x.2).binds)
    (binds_list (cs.drop (j + 1))) bs (((cs.getD j default).2).binds) hperm
  rw [List.append_assoc, List.append_assoc] at this
  exact this

theorem binds_list_insertIdx_perm (cs : List (Nat × QpT)) (j : Nat)
    (hj : j ≤ cs.length) (x : Nat × QpT) :
    (binds_list (cs.insertIdx j x)).Perm ((x.2).binds ++ binds_list cs) := by
  have hins : binds_list (cs.insertIdx j x) = binds_list (cs.take j) ++
      (x.2).binds ++ binds_list (cs.drop j) := by
    rw [list_insertIdx_split cs j hj x, binds_list_append, binds_list_cons,
      List.append_assoc]
  have hcs : binds_list cs = binds_list (cs.take j) ++
      binds_list (cs.drop j) := by
    conv_lhs => rw [← List.take_append_drop j cs]
    rw [binds_list_append]
  rw [hins, hcs]
  have := perm_splice (binds_list (cs.take j)) ((x.2).binds)
    (binds_list (cs.drop j)) ((x.2).binds) ([] : List (Nat × Nat))
    (by simp)
  simp only [List.append_nil] at this
  exact this

theorem depth_list_set_le (cs : List (Nat × QpT)) (j : Nat) (x : Nat × QpT) :
    depth_list (cs.set j x) ≤ max (depth_list cs) ((x.2).depth) := by
  induction cs generalizing j with
  | nil =>
    show depth_list [] ≤ _
    show 0 ≤ _
    omega
  | cons a t ih =>
    cases j with
    | zero =>
      obtain ⟨b, c⟩ := a
      simp only [List.set_cons_zero]
      show max ((x.2).depth) (depth_list t) ≤
        max (max (QpT.depth c) (depth_list t)) ((x.2).depth)
      omega
    | succ j =>
      obtain ⟨b, c⟩ := a
      simp only [List.set_cons_succ]
      show max (QpT.depth c) (depth_list (t.set j x)) ≤
        max (max (QpT.depth c) (depth_list t)) ((x.2).depth)
      have := ih j
      omega

theorem depth_list_insertIdx_le :
    ∀ (cs : List (Nat × QpT)) (j : Nat) (x : Nat × QpT),
      depth_list (cs.insertIdx j x) ≤ max (depth_list cs) ((x.2).depth) := by
  intro cs
  induction cs with
  | nil =>
    intro j x
    cases j with
    | zero =>
      show max ((x.2).depth) (depth_list []) ≤ _
      show max ((x.2).depth) 0 ≤ max 0 ((x.2).depth)
      omega
    | succ j =>
      show depth_list [] ≤ _
      show 0 ≤ _
      omega
  | cons a t ih =>
    intro j x
    cases j with
    | zero =>
      obtain ⟨b, c⟩ := a
      show max ((x.2).depth) (max (QpT.depth c) (depth_list t)) ≤
        max (max (QpT.depth c) (depth_list t)) ((x.2).depth)
      omega
    | succ j =>
      obtain ⟨b, c⟩ := a
      rw [List.insertIdx_succ_cons]
      show max (QpT.depth c) (depth_list (t.insertIdx j x)) ≤
        max (max (QpT.depth c) (depth_list t)) ((x.2).depth)
      have := ih j x
      omega

theorem nodup_bits_length_le (l : List Nat) (hnd : l.Nodup)
    (hb : ∀ b ∈ l, 1 ≤ b ∧ b < QP_CHUNK_SIZE) :
    l.length ≤ QP_CHUNK_SIZE - 1 := by
  have hsub : l.toFinset ⊆ Finset.Icc 1 (QP_CHUNK_SIZE - 1) := by
    intro x hx
    rw [List.mem_toFinset] at hx
    have := hb x hx
    rw [Finset.mem_Icc]
    omega
  have h1 := Finset.card_le_card hsub
  rw [List.toFinset_card_of_nodup hnd, Nat.card_Icc] at h1
  simpa using h1

theorem owned_allocated {qp : Qp} {S : Finset Nat} (h : owned_ok qp S)
    {r : Nat} (hr : r ∈ S) : allocated qp r := h r hr

theorem chunk_bound_mono {qp : Qp} {S T : Finset Nat} (hsub : T ⊆ S)
    (h : chunk_bound qp S) : chunk_bound qp T := by
  intro c
  have h1 := h c
  have h2 : (T.filter (fun r => ref_chunk r = c)).card ≤
      (S.filter (fun r => ref_chunk r = c)).card :=
    Finset.card_le_card (Finset.filter_subset_filter _ hsub)
  omega

theorem move_twigs_proj (qp : Qp) (d s k : Nat) :
    (move_twigs qp d s k).usage = qp.usage ∧
    (move_twigs qp d s k).chunk_max = qp.chunk_max ∧
    (move_twigs qp d s k).root_ref = qp.root_ref ∧
    (move_twigs qp d s k).leaf_count = qp.leaf_count ∧
    (move_twigs qp d s k).leafkey = qp.leafkey ∧
    (move_twigs qp d s k).bump = qp.bump ∧
    (move_twigs qp d s k).fender = qp.fender := by
  unfold move_twigs
  dsimp only
  have h := foldl_proj
    (fun qp => (qp.usage, qp.chunk_max, qp.root_ref, qp.leaf_count,
                qp.leafkey, qp.bump, qp.fender))
    (List.range k)
    (fun qp' i => ref_set qp' (d + i)
      (((List.range k).map (fun i => ref_get qp (s + i))).getD i zero_node))
    (fun qp' i => rfl) qp
  exact ⟨congrArg Prod.fst h, congrArg (fun p => p.2.1) h,
    congrArg (fun p => p.2.2.1) h, congrArg (fun p => p.2.2.2.1) h,
    congrArg (fun p => p.2.2.2.2.1) h, congrArg (fun p => p.2.2.2.2.2.1) h,
    congrArg (fun p => p.2.2.2.2.2.2) h⟩

theorem allocated_move_twigs (qp : Qp) (d s k r : Nat) :
    allocated (move_twigs qp d s k) r ↔ allocated qp r :=
  allocated_congr (move_twigs_proj qp d s k).1
    (move_twigs_proj qp d s k).2.1 r

theorem NRep_graft {qp' : Qp} {idx tref off : Nat} {cs : List (Nat × QpT)}
    {Ss : List (Finset Nat)}
    (htag : idx.testBit 0 = true)
    (hoff : idx >>> SHIFT_OFFSET = off)
    (hsz : branch_twigs_size (QpNode.branch idx tref) = cs.length)
    (hSs : Ss.length = cs.length)
    (hfit : ref_cell tref + cs.length ≤ QP_CHUNK_SIZE)
    (hpos : ∀ k, k < cs.length →
        idx.testBit (cs.getD k default).1 = true ∧
        branch_twig_pos (QpNode.branch idx tref) (cs.getD k default).1 = k)
    (hcomp : ∀ b, 1 ≤ b → b < SHIFT_OFFSET → idx.testBit b = true →
        ∃ k, k < cs.length ∧ (cs.getD k default).1 = b)
    (hdvold : ∀ k, k < cs.length →
        Disjoint (vec_cells tref cs.length) (Ss.getD k ∅))
    (hdcold : ∀ k l, k < l → l < cs.length →
        Disjoint (Ss.getD k ∅) (Ss.getD l ∅))
    (j : Nat) (hj : j < cs.length) (t' : QpT) (Sj' : Finset Nat)
    (hchild' : ∀ k, k < cs.length → k ≠ j →
      NRep qp' (ref_get qp' (tref + k)) (cs.getD k default).2 (Ss.getD k ∅))
    (hchildj : NRep qp' (ref_get qp' (tref + j)) t' Sj')
    (hdv' : Disjoint (vec_cells tref cs.length) Sj')
    (hdc' : ∀ k, k < cs.length → k ≠ j → Disjoint (Ss.getD k ∅) Sj') :
    NRep qp' (QpNode.branch idx tref)
      (QpT.branch off (cs.set j ((cs.getD j default).1, t')))
      (vec_cells tref cs.length ∪
        (Finset.range cs.length).biUnion
          (fun k => (Ss.set j Sj').getD k ∅)) := by
  have hlen : (cs.set j ((cs.getD j default).1, t')).length = cs.length := by
    rw [List.length_set]
  have hbits : ∀ k,
      ((cs.set j ((cs.getD j default).1, t')).getD k default).1 =
      (cs.getD k default).1 := by
    intro k
    by_cases hk : j = k
    · subst hk
      rw [getD_set_self _ _ _ _ hj]
    · rw [getD_set_ne _ _ _ _ _ hk]
  refine NRep.branch idx tref off _ (Ss.set j Sj') _ htag hoff ?_ ?_ ?_ ?_
    ?_ ?_ ?_ ?_ ?_
  · rw [hlen]
    exact hsz
  · rw [List.length_set, hlen]
    exact hSs
  · rw [hlen]
    exact hfit
  · intro k hk
    rw [hlen] at hk
    rw [hbits k]
    exact hpos k hk
  · intro b hb1 hb2 hbit
    obtain ⟨k, hk, hkb⟩ := hcomp b hb1 hb2 hbit
    refine ⟨k, ?_, ?_⟩
    · rw [hlen]
      exact hk
    · rw [hbits k]
      exact hkb
  · intro k hk
    rw [hlen] at hk
    by_cases hkj : k = j
    · subst hkj
      rw [getD_set_self _ _ _ _ hj,
        getD_set_self _ _ _ _ (by rw [hSs]; exact hj)]
      exact hchildj
    · rw [getD_set_ne _ _ _ _ _ (fun h => hkj h.symm),
        getD_set_ne _ _ _ _ _ (fun h => hkj h.symm)]
      exact hchild' k hk hkj
  · rw [hlen]
  · intro k hk
    rw [hlen] at hk ⊢
    by_cases hkj : k = j
    · subst hkj
      rw [getD_set_self _ _ _ _ (by rw [hSs]; exact hj)]
      exact hdv'
    · rw [getD_set_ne _ _ _ _ _ (fun h => hkj h.symm)]
      exact hdvold k hk
  · intro k l hkl hl
    rw [hlen] at hl
    by_cases hkj : k = j
    · subst hkj
      rw [getD_set_self _ _ _ _ (by rw [hSs]; exact hj),
        getD_set_ne _ _ _ _ _ (by omega)]
      exact (hdc' l hl (by omega)).symm
    · by_cases hlj : l = j
      · subst hlj
        rw [getD_set_self _ _ _ _ (by rw [hSs]; exact hj),
          getD_set_ne _ _ _ _ _ (by omega)]
        exact hdc' k (by omega) hkj
      · rw [getD_set_ne _ _ _ _ _ (fun h => hlj h.symm),
          getD_set_ne _ _ _ _ _ (fun h => hkj h.symm)]
        exact hdcold k l hkl hl

theorem NRep_branch_inv {qp : Qp} {idx tref off : Nat}
    {cs : List (Nat × QpT)} {S : Finset Nat}
    (h : NRep qp (QpNode.branch idx tref) (QpT.branch off cs) S) :
    idx.testBit 0 = true ∧ idx >>> SHIFT_OFFSET = off ∧
    branch_twigs_size (QpNode.branch idx tref) = cs.length ∧
    ∃ Ss : List (Finset Nat),
      Ss.length = cs.length ∧
      ref_cell tref + cs.length ≤ QP_CHUNK_SIZE ∧
      (∀ j, j < cs.length → idx.testBit (cs.getD j default).1 = true ∧
        branch_twig_pos (QpNode.branch idx tref) (cs.getD j default).1 = j) ∧
      (∀ b, 1 ≤ b → b < SHIFT_OFFSET → idx.testBit b = true →
        ∃ j, j < cs.length ∧ (cs.getD j default).1 = b) ∧
      (∀ j, j < cs.length →
        NRep qp (ref_get qp (tref + j)) (cs.getD j default).2
          (Ss.getD j ∅)) ∧
      S = vec_cells tref cs.length ∪
        (Finset.range cs.length).biUnion (fun j => Ss.getD j ∅) ∧
      (∀ j, j < cs.length →
        Disjoint (vec_cells tref cs.length) (Ss.getD j ∅)) ∧
      (∀ j k, j < k → k < cs.length →
        Disjoint (Ss.getD j ∅) (Ss.getD k ∅)) := by
  cases h
  refine ⟨?_, ?_, ?_, ?_, ?_, ?_, ?_, ?_, ?_, ?_, ?_, ?_⟩ <;> assumption

theorem evacuate_spec {qp : Qp} (swf : StandaloneWF qp)
    {idx tref off : Nat} {cs : List (Nat × QpT)} {S : Finset Nat}
    (hrep : NRep qp (QpNode.branch idx tref) (QpT.branch off cs) S)
    (hne : 1 ≤ cs.length) (R : Finset Nat)
    (howned : owned_ok qp (S ∪ R))
    (hbound : chunk_bound qp (S ∪ R))
    (hdisj : Disjoint S R) :
    ∃ S',
      NRep (evacuate qp (QpNode.branch idx tref)).1
        (QpNode.branch idx (evacuate qp (QpNode.branch idx tref)).2)
        (QpT.branch off cs) S' ∧
      StandaloneWF (evacuate qp (QpNode.branch idx tref)).1 ∧
      owned_ok (evacuate qp (QpNode.branch idx tref)).1 (S' ∪ R) ∧
      chunk_bound (evacuate qp (QpNode.branch idx tref)).1 (S' ∪ R) ∧
      Disjoint S' R ∧
      (∀ r, allocated qp r →
        allocated (evacuate qp (QpNode.branch idx tref)).1 r) ∧
      (∀ r, allocated qp r → (∀ j, j < cs.length → r ≠ tref + j) →
        ref_get (evacuate qp (QpNode.branch idx tref)).1 r = ref_get qp r) ∧
      (evacuate qp (QpNode.branch idx tref)).1.leafkey = qp.leafkey ∧
      (evacuate qp (QpNode.branch idx tref)).1.root_ref = qp.root_ref ∧
      (evacuate qp (QpNode.branch idx tref)).1.leaf_count = qp.leaf_count := by
  obtain ⟨htag, hoff, hsz, Ss, hSs, hfit, hpos, hcomp, hchild, hS, hdv,
    hdc⟩ := NRep_branch_inv hrep
  set sz := branch_twigs_size (QpNode.branch idx tref) with hszdef
  have hsz16 : cs.length ≤ QP_CHUNK_SIZE := by
    have := hfit
    omega
  have hspec := alloc_twigs_spec swf sz (by rw [hsz]; exact hne)
    (by rw [hsz]; exact hsz16)
  set qp1 := (alloc_twigs qp sz).1 with hqp1
  set nr := (alloc_twigs qp sz).2 with hnr
  set qp2 := move_twigs qp1 nr tref sz with hqp2
  have hproj2 := move_twigs_proj qp1 nr tref sz
  have hvec_alloc : ∀ j, j < cs.length → allocated qp (tref + j) := by
    intro j hj
    apply owned_allocated howned
    apply Finset.mem_union_left
    rw [hS]
    exact Finset.mem_union_left _ (mem_vec_cells.mpr ⟨j, hj, rfl⟩)
  have hfresh : ∀ j, j < sz → ¬ allocated qp (nr + j) := by
    intro j hj
    exact hspec.new_fresh j hj
  have hnewold : ∀ j k, j < sz → k < cs.length → nr + j ≠ tref + k := by
    intro j k hj hk hcontra
    exact hfresh j hj (hcontra ▸ hvec_alloc k hk)
  have swf2 : StandaloneWF qp2 := by
    apply move_twigs_swf hspec.swf
    intro j hj
    have hadd := ref_add_chunk nr j (by have := hspec.fits; omega)
    rw [hadd.1]
    exact hspec.chunkw.2
  have halloc2 : ∀ r, allocated qp2 r ↔ allocated qp1 r := fun r =>
    allocated_move_twigs qp1 nr tref sz r
  have hvec_alloc2 : ∀ j, j < sz → allocated qp2 (tref + j) := by
    intro j hj
    exact (halloc2 _).mpr (hspec.old_alloc _ (hvec_alloc j (by omega)))
  have hfree := free_twigs_standalone swf2 tref sz hvec_alloc2
  obtain ⟨hdes, swf3, hget3, hus3, hlk3, hrr3, hlc3, hcm3, hbp3⟩ := hfree
  set qp3 := (free_twigs qp2 tref sz).1 with hqp3
  have hev : evacuate qp (QpNode.branch idx tref) = (qp3, nr) := rfl
  rw [hev]
  dsimp only
  have hget_new : ∀ j, j < sz →
      ref_get qp3 (nr + j) = ref_get qp (tref + j) := by
    intro j hj
    rw [hget3 _ (fun k hk => hnewold j k hj (by omega))]
    rw [hqp2]
    rw [move_twigs_get_hit hspec.swf nr tref sz
      (fun k hk => hspec.new_alloc k hk) j hj]
    exact hspec.old_cells _ (hvec_alloc j (by omega))
  have hget_out : ∀ r, allocated qp r →
      (∀ j, j < cs.length → r ≠ tref + j) → ref_get qp3 r = ref_get qp r := by
    intro r hr hrv
    rw [hget3 r (fun j hj => hrv j (by omega))]
    rw [hqp2]
    rw [move_twigs_get_out qp1 nr tref sz r (fun j hj hc => hfresh j hj
      (hc ▸ hr))]
    exact hspec.old_cells r hr
  have halloc3 : ∀ r, allocated qp3 r ↔ allocated qp2 r := fun r =>
    allocated_free_twigs swf2 tref sz hvec_alloc2 r
  have halloc_mono : ∀ r, allocated qp r → allocated qp3 r := fun r hr =>
    (halloc3 r).mpr ((halloc2 r).mpr (hspec.old_alloc r hr))
  have halloc_new : ∀ j, j < sz → allocated qp3 (nr + j) := fun j hj =>
    (halloc3 _).mpr ((halloc2 _).mpr (hspec.new_alloc j hj))
  have hSsub : ∀ k, k < cs.length → Ss.getD k ∅ ⊆ S := by
    intro k hk r hr
    rw [hS]
    exact Finset.mem_union_right _
      (Finset.mem_biUnion.mpr ⟨k, Finset.mem_range.mpr hk, hr⟩)
  have hSalloc : ∀ r ∈ S, allocated qp r := by
    intro r hr
    exact owned_allocated howned (Finset.mem_union_left _ hr)
  have hRalloc : ∀ r ∈ R, allocated qp r := by
    intro r hr
    exact owned_allocated howned (Finset.mem_union_right _ hr)
  have hdisj_new : ∀ X, (∀ r ∈ X, allocated qp r) →
      Disjoint (vec_cells nr cs.length) X := by
    intro X hX
    rw [Finset.disjoint_left]
    intro r hr hrX
    obtain ⟨j, hj, rfl⟩ := mem_vec_cells.mp hr
    exact hfresh j (by omega) (hX _ hrX)
  refine ⟨vec_cells nr cs.length ∪
    (Finset.range cs.length).biUnion (fun k => Ss.getD k ∅),
    ?_, swf3, ?_, ?_, ?_, halloc_mono, hget_out, ?_, ?_, ?_⟩
  · refine NRep.branch idx nr off cs Ss _ htag hoff hsz hSs ?_ hpos hcomp
      ?_ rfl ?_ hdc
    · have := hspec.fits
      omega
    · intro j hj
      rw [hget_new j (by omega)]
      refine NRep_frame (hchild j hj) ?_
      intro r hr
      apply hget_out r (hSalloc r (hSsub j hj hr))
      intro k hk hcontra
      subst hcontra
      have hdisjv := hdv j hj
      rw [Finset.disjoint_left] at hdisjv
      exact hdisjv (mem_vec_cells.mpr ⟨k, hk, rfl⟩) hr
    · intro j hj
      exact hdisj_new _ (fun r hr => hSalloc r (hSsub j hj hr))
  · intro r hr
    rcases Finset.mem_union.mp hr with hr | hr
    · rcases Finset.mem_union.mp hr with hr | hr
      · obtain ⟨j, hj, rfl⟩ := mem_vec_cells.mp hr
        exact halloc_new j (by omega)
      · obtain ⟨k, hk, hrk⟩ := Finset.mem_biUnion.mp hr
        exact halloc_mono _ (hSalloc _ (hSsub k (Finset.mem_range.mp hk) hrk))
    · exact halloc_mono _ (hRalloc _ hr)
  · have hb1 : chunk_bound qp1 ((S ∪ R) ∪ vec_cells nr sz) :=
      chunk_bound_alloc hspec _ hbound
    have hb2 : chunk_bound qp2 ((S ∪ R) ∪ vec_cells nr sz) :=
      chunk_bound_congr hproj2.1 _ hb1
    have hb3 := chunk_bound_free swf2 ((S ∪ R) ∪ vec_cells nr sz) tref sz
      hb2 hvec_alloc2
      (by
        intro r hr
        apply Finset.mem_union_left
        apply Finset.mem_union_left
        rw [hS]
        obtain ⟨j, hj, rfl⟩ := mem_vec_cells.mp hr
        exact Finset.mem_union_left _ (mem_vec_cells.mpr ⟨j, by omega, rfl⟩))
      (by rw [hsz]; exact hfit)
    apply chunk_bound_mono _ hb3
    intro r hr
    rw [Finset.mem_sdiff]
    constructor
    · rcases Finset.mem_union.mp hr with hr | hr
      · rcases Finset.mem_union.mp hr with hr | hr
        · apply Finset.mem_union_right
          rw [hsz]
          exact hr
        · obtain ⟨k, hk, hrk⟩ := Finset.mem_biUnion.mp hr
          exact Finset.mem_union_left _ (Finset.mem_union_left _
            (hSsub k (Finset.mem_range.mp hk) hrk))
      · exact Finset.mem_union_left _ (Finset.mem_union_right _ hr)
    · intro hrv
      obtain ⟨j, hj, rfl⟩ := mem_vec_cells.mp hrv
      rcases Finset.mem_union.mp hr with hr | hr
      · rcases Finset.mem_union.mp hr with hr | hr
        · obtain ⟨k, hk, hek⟩ := mem_vec_cells.mp hr
          exact hnewold k j (by omega) (by omega) hek.symm
        · obtain ⟨k, hk, hrk⟩ := Finset.mem_biUnion.mp hr
          have hdisjv := hdv k (Finset.mem_range.mp hk)
          rw [Finset.disjoint_left] at hdisjv
          exact hdisjv (mem_vec_cells.mpr ⟨j, by omega, rfl⟩) hrk
      · rw [Finset.disjoint_left] at hdisj
        apply hdisj _ hr
        rw [hS]
        exact Finset.mem_union_left _ (mem_vec_cells.mpr ⟨j, by omega, rfl⟩)
  · rw [Finset.disjoint_union_left]
    constructor
    · exact hdisj_new R hRalloc
    · rw [Finset.disjoint_left]
      intro r hr hrR
      obtain ⟨k, hk, hrk⟩ := Finset.mem_biUnion.mp hr
      rw [Finset.disjoint_left] at hdisj
      exact hdisj (hSsub k (Finset.mem_range.mp hk) hrk) hrR
  · rw [hlk3, hqp2]
    rw [hproj2.2.2.2.2.1, hspec.lkeep]
  · rw [hrr3, hqp2]
    rw [hproj2.2.2.1, hspec.rkeep]
  · rw [hlc3, hqp2]
    rw [hproj2.2.2.2.1, hspec.ckeep]

theorem chunk_discount_proj (qp : Qp) (c : Nat) :
    (chunk_discount qp c).base = qp.base ∧
    (chunk_discount qp c).usage = qp.usage ∧
    (chunk_discount qp c).chunk_max = qp.chunk_max ∧
    (chunk_discount qp c).bump = qp.bump ∧
    (chunk_discount qp c).fender = qp.fender ∧
    (chunk_discount qp c).leafkey = qp.leafkey ∧
    (chunk_discount qp c).root_ref = qp.root_ref ∧
    (chunk_discount qp c).leaf_count = qp.leaf_count := by
  unfold chunk_discount
  split <;> exact ⟨rfl, rfl, rfl, rfl, rfl, rfl, rfl, rfl⟩

theorem chunk_free_inv {qp0 qp : Qp} {O : Finset Nat}
    (inv : RecycleInv qp0 qp O) (c : Nat)
    (hclt : c < qp.chunk_max)
    (hex : (usage_get qp c).exists_ = true)
    (hcb : c ≠ qp.bump) (husage : chunk_usage qp c = 0) :
    RecycleInv qp0 (chunk_free qp c) O := by
  obtain ⟨hdb, hdu, hdm, hdbp, hdf, hdlk, hdrr, hdlc⟩ :=
    chunk_discount_proj qp c
  have hnoc : ∀ r ∈ O, ref_chunk r ≠ c := by
    intro r hr hcontra
    have hb := inv.bound c
    have hcard : 1 ≤ (O.filter (fun r => ref_chunk r = c)).card := by
      rw [Nat.one_le_iff_ne_zero, ← Nat.pos_iff_ne_zero,
        Finset.card_pos]
      exact ⟨r, Finset.mem_filter.mpr ⟨hr, hcontra⟩⟩
    unfold chunk_usage at husage
    omega
  have hblen : c < qp.base.length := by
    rw [inv.swf.base_len]
    exact hclt
  have hulen : c < qp.usage.length := by
    rw [inv.swf.usage_len]
    exact hclt
  have hug : ∀ x, usage_get (chunk_free qp c) x =
      (if c = x then {} else usage_get qp x) := by
    intro x
    show ((chunk_discount qp c).usage.set c {}).getD x {} = _
    rw [hdu]
    by_cases hx : c = x
    · subst hx
      rw [if_pos rfl]
      exact getD_set_self _ _ _ _ hulen
    · rw [if_neg hx]
      exact getD_set_ne _ _ _ _ _ hx
  have hbg : ∀ x, (chunk_free qp c).base.getD x none =
      (if c = x then none else qp.base.getD x none) := by
    intro x
    show ((chunk_discount qp c).base.set c none).getD x none = _
    rw [hdb]
    by_cases hx : c = x
    · subst hx
      rw [if_pos rfl]
      exact getD_set_self _ _ _ _ hblen
    · rw [if_neg hx]
      exact getD_set_ne _ _ _ _ _ hx
  have hget : ∀ r, ref_chunk r ≠ c →
      ref_get (chunk_free qp c) r = ref_get qp r := by
    intro r hr
    unfold ref_get get_chunk
    rw [hbg, if_neg (fun h => hr h.symm)]
  have hcm : (chunk_free qp c).chunk_max = qp.chunk_max := by
    show (chunk_discount qp c).chunk_max = qp.chunk_max
    exact hdm
  have hbp : (chunk_free qp c).bump = qp.bump := by
    show (chunk_discount qp c).bump = qp.bump
    exact hdbp
  refine ⟨?_, ?_, ?_, ?_, ?_, ?_, ?_, ?_, ?_⟩
  · refine ⟨?_, ?_, ?_, ?_, ?_, ?_, ?_, ?_, ?_⟩
    · show ((chunk_discount qp c).base.set c none).length = _
      rw [List.length_set, hdb, hcm]
      exact inv.swf.base_len
    · show ((chunk_discount qp c).usage.set c {}).length = _
      rw [List.length_set, hdu, hcm]
      exact inv.swf.usage_len
    · show (chunk_discount qp c).fender = 0
      rw [hdf]
      exact inv.swf.fender0
    · intro x
      rw [hug]
      by_cases hx : c = x
      · rw [if_pos hx]
      · rw [if_neg hx]
        exact inv.swf.no_imm x
    · intro x
      rw [hug]
      by_cases hx : c = x
      · rw [if_pos hx]
      · rw [if_neg hx]
        exact inv.swf.no_phase x
    · intro x hx
      rw [hcm] at hx
      rw [hug, hbg]
      by_cases hxc : c = x
      · rw [if_pos hxc, if_pos hxc]
        rw [if_neg (by intro h; exact absurd h (by simp))]
        exact ⟨rfl, rfl⟩
      · rw [if_neg hxc, if_neg hxc]
        exact inv.swf.chunks x hx
    · intro x
      rw [hug]
      by_cases hx : c = x
      · rw [if_pos hx]
        show ({} : QpUsage).used ≤ QP_CHUNK_SIZE
        show 0 ≤ QP_CHUNK_SIZE
        omega
      · rw [if_neg hx]
        exact inv.swf.used_le x
    · rw [hcm, hbp]
      exact inv.swf.bump_lt
    · rw [hug, hbp, if_neg hcb]
      exact inv.swf.bump_ex
  · intro r hr
    rw [hget r (hnoc r hr)]
    exact inv.get r hr
  · intro r hr
    have h1 := inv.owned r hr
    rw [hcm, hug, if_neg (fun h => hnoc r hr h.symm)]
    exact h1
  · intro x
    rw [hug]
    by_cases hx : c = x
    · subst hx
      have hcard : (O.filter (fun r => ref_chunk r = c)).card = 0 := by
        rw [Finset.card_eq_zero, Finset.filter_eq_empty_iff]
        intro r hr
        exact hnoc r hr
      rw [if_pos rfl, hcard]
    · rw [if_neg hx]
      exact inv.bound x
  · rw [hcm]
    exact inv.cm
  · rw [hbp]
    exact inv.bp
  · show (chunk_discount qp c).leafkey = _
    rw [hdlk]
    exact inv.lk
  · show (chunk_discount qp c).root_ref = _
    rw [hdrr]
    exact inv.rr
  · show (chunk_discount qp c).leaf_count = _
    rw [hdlc]
    exact inv.lc

theorem recycle_inv {qp0 : Qp} {O : Finset Nat} :
    ∀ (l : List Nat) (qp : Qp), (∀ c ∈ l, c < qp0.chunk_max) →
      RecycleInv qp0 qp O →
      RecycleInv qp0
        (l.foldl
          (fun qp chunk =>
            if chunk ≠ qp.bump && chunk_usage qp chunk = 0 &&
               (usage_get qp chunk).exists_ &&
               !(usage_get qp chunk).immutable then
              chunk_free qp chunk
            else qp)
          qp) O := by
  intro l
  induction l with
  | nil => intro qp _ inv; exact inv
  | cons a l ih =>
    intro qp hlt inv
    rw [List.foldl_cons]
    rcases Bool.eq_false_or_eq_true (a ≠ qp.bump &&
        chunk_usage qp a = 0 && (usage_get qp a).exists_ &&
        !(usage_get qp a).immutable) with hg | hg
    · rw [if_pos hg]
      simp only [Bool.and_eq_true, decide_eq_true_eq,
        Bool.not_eq_true'] at hg
      exact ih _ (fun c hc => hlt c (List.mem_cons_of_mem a hc))
        (chunk_free_inv inv a
          (by rw [inv.cm]; exact hlt a (List.mem_cons_self a l))
          hg.1.2 hg.1.1.1 hg.1.1.2)
    · simp only [hg, Bool.false_eq_true, if_false]
      exact ih _ (fun c hc => hlt c (List.mem_cons_of_mem a hc)) inv

theorem recycle_spec {qp : Qp} (O : Finset Nat) (swf : StandaloneWF qp)
    (howned : owned_ok qp O) (hbound : chunk_bound qp O) :
    RecycleInv qp (recycle qp) O := by
  unfold recycle
  exact recycle_inv (List.range qp.chunk_max) qp
    (fun c hc => List.mem_range.mp hc)
    ⟨swf, fun r _ => rfl, howned, hbound, rfl, rfl, rfl, rfl, rfl⟩

theorem NRep_leaf_inv {qp : Qp} {n : QpNode} {p i : Nat} {S : Finset Nat}
    (h : NRep qp n (QpT.leaf p i) S) : n = QpNode.leaf p i ∧ S = ∅ := by
  cases h
  exact ⟨rfl, rfl⟩

theorem NRep_node_branch {qp : Qp} {n : QpNode} {off : Nat}
    {cs : List (Nat × QpT)} {S : Finset Nat}
    (h : NRep qp n (QpT.branch off cs) S) :
    ∃ i2 t2, n = QpNode.branch i2 t2 := by
  cases h
  exact ⟨_, _, rfl⟩

theorem list_set_getD_self {α : Type} (l : List α) (j : Nat)
    (hj : j < l.length) (d : α) : l.set j (l.getD j d) = l := by
  rw [list_set_split l j hj, ← list_split_at l j hj d]

theorem list_set_pair_self (cs : List (Nat × QpT)) (j : Nat)
    (hj : j < cs.length) :
    cs.set j ((cs.getD j default).1, (cs.getD j default).2) = cs :=
  list_set_getD_self cs j hj default

theorem getD_mem {α : Type} (l : List α) (j : Nat) (hj : j < l.length)
    (d : α) : l.getD j d ∈ l := by
  rw [List.getD_eq_getElem l d hj]
  exact List.getElem_mem hj

theorem compact_child_step
    (go : Qp → QpNode → Option (Qp × Nat)) (D : Nat)
    (hgo : ∀ (qp : Qp) (idx2 tref2 off2 : Nat) (cs2 : List (Nat × QpT))
      (S2 R2 : Finset Nat),
      StandaloneWF qp →
      NRep qp (QpNode.branch idx2 tref2) (QpT.branch off2 cs2) S2 →
      WB (QpT.branch off2 cs2) →
      QpT.depth (QpT.branch off2 cs2) < D →
      owned_ok qp (S2 ∪ R2) → chunk_bound qp (S2 ∪ R2) → Disjoint S2 R2 →
      ∃ qp' tref' S2',
        go qp (QpNode.branch idx2 tref2) = some (qp', tref') ∧
        StandaloneWF qp' ∧
        NRep qp' (QpNode.branch idx2 tref') (QpT.branch off2 cs2) S2' ∧
        owned_ok qp' (S2' ∪ R2) ∧ chunk_bound qp' (S2' ∪ R2) ∧
        Disjoint S2' R2 ∧
        (∀ r ∈ R2, ref_get qp' r = ref_get qp r) ∧
        (∀ r, allocated qp r → allocated qp' r) ∧
        qp'.leafkey = qp.leafkey ∧ qp'.root_ref = qp.root_ref ∧
        qp'.leaf_count = qp.leaf_count)
    (parent : QpNode) (idx tref off : Nat) (cs : List (Nat × QpT))
    (R : Finset Nat)
    (hdep : ∀ bc ∈ cs, (bc.2).depth < D)
    (hwb : ∀ bc ∈ cs, WB bc.2)
    (pos : Nat) (hpos : pos < cs.length)
    (qp0 : Qp) (S0 : Finset Nat)
    (swf : StandaloneWF qp0)
    (hrep : NRep qp0 (QpNode.branch idx tref) (QpT.branch off cs) S0)
    (howned : owned_ok qp0 (S0 ∪ R)) (hbound : chunk_bound qp0 (S0 ∪ R))
    (hdisj : Disjoint S0 R) :
    ∃ qpB SB,
      compact_child go parent (some (qp0, tref, false)) pos =
        some (qpB, tref, false) ∧
      StandaloneWF qpB ∧
      NRep qpB (QpNode.branch idx tref) (QpT.branch off cs) SB ∧
      owned_ok qpB (SB ∪ R) ∧ chunk_bound qpB (SB ∪ R) ∧ Disjoint SB R ∧
      (∀ r ∈ R, ref_get qpB r = ref_get qp0 r) ∧
      (∀ r, allocated qp0 r → allocated qpB r) ∧
      qpB.leafkey = qp0.leafkey ∧ qpB.root_ref = qp0.root_ref ∧
      qpB.leaf_count = qp0.leaf_count := by
  obtain ⟨htag, hoff, hsz, Ss, hSs, hfitv, hposs, hcompv, hchild, hS, hdv,
    hdc⟩ := NRep_branch_inv hrep
  have hmemp : cs.getD pos default ∈ cs := getD_mem cs pos hpos default
  have hchildrep := hchild pos hpos
  unfold compact_child
  dsimp only
  cases hct : (cs.getD pos default).2 with
  | leaf p i =>
    rw [hct] at hchildrep
    obtain ⟨hnode, -⟩ := NRep_leaf_inv hchildrep
    rw [hnode]
    rw [if_pos (by rfl)]
    exact ⟨qp0, S0, rfl, swf, hrep, howned, hbound, hdisj, fun r _ => rfl,
      fun r h => h, rfl, rfl, rfl⟩
  | branch off2 cs2 =>
    rw [hct] at hchildrep
    obtain ⟨ci, ct, hnode⟩ := NRep_node_branch hchildrep
    rw [hnode] at hchildrep
    rw [hnode]
    rw [if_neg (by simp [is_branch])]
    have hsubp : Ss.getD pos ∅ ⊆ S0 := by
      rw [hS]
      intro r hr
      exact Finset.mem_union_right _
        (Finset.mem_biUnion.mpr ⟨pos, Finset.mem_range.mpr hpos, hr⟩)
    have hsubk : ∀ k, k < cs.length → Ss.getD k ∅ ⊆ S0 := by
      intro k hk
      rw [hS]
      intro r hr
      exact Finset.mem_union_right _
        (Finset.mem_biUnion.mpr ⟨k, Finset.mem_range.mpr hk, hr⟩)
    have hvec_sub : vec_cells tref cs.length ⊆ S0 := by
      rw [hS]
      exact Finset.subset_union_left
    set Rc := R ∪ (S0 \ Ss.getD pos ∅) with hRc
    have hE1 : Ss.getD pos ∅ ∪ Rc = S0 ∪ R := by
      ext r
      rw [hRc]
      simp only [Finset.mem_union, Finset.mem_sdiff]
      constructor
      · rintro (h | h | h)
        · exact Or.inl (hsubp h)
        · exact Or.inr h
        · exact Or.inl h.1
      · rintro (h | h)
        · by_cases hp : r ∈ Ss.getD pos ∅
          · exact Or.inl hp
          · exact Or.inr (Or.inr ⟨h, hp⟩)
        · exact Or.inr (Or.inl h)
    have hvecRc : ∀ k, k < cs.length → tref + k ∈ Rc := by
      intro k hk
      apply Finset.mem_union_right
      rw [Finset.mem_sdiff]
      refine ⟨hvec_sub (mem_vec_cells.mpr ⟨k, hk, rfl⟩), ?_⟩
      have hd := hdv pos hpos
      rw [Finset.disjoint_left] at hd
      exact hd (mem_vec_cells.mpr ⟨k, hk, rfl⟩)
    have hotherRc : ∀ k, k < cs.length → k ≠ pos → Ss.getD k ∅ ⊆ Rc := by
      intro k hk hkp r hr
      apply Finset.mem_union_right
      rw [Finset.mem_sdiff]
      refine ⟨hsubk k hk hr, ?_⟩
      rcases Nat.lt_or_ge k pos with hkpos | hkpos
      · have hd := hdc k pos hkpos hpos
        rw [Finset.disjoint_left] at hd
        exact hd hr
      · have hd := hdc pos k (by omega) hk
        rw [Finset.disjoint_right] at hd
        exact hd hr
    have hRRc : R ⊆ Rc := Finset.subset_union_left
    have hwb2 : WB (QpT.branch off2 cs2) := by
      have := hwb _ hmemp
      rw [hct] at this
      exact this
    have hdep2 : QpT.depth (QpT.branch off2 cs2) < D := by
      have := hdep _ hmemp
      rw [hct] at this
      exact this
    have hdisj1 : Disjoint (Ss.getD pos ∅) Rc := by
      rw [Finset.disjoint_left]
      intro r hr hrc
      rw [hRc] at hrc
      rcases Finset.mem_union.mp hrc with h | h
      · rw [Finset.disjoint_left] at hdisj
        exact hdisj (hsubp hr) h
      · rw [Finset.mem_sdiff] at h
        exact h.2 hr
    obtain ⟨qpB, ct', Sc', hgoeq, swfB, hrepB, hownedB, hboundB, hdisjB,
      hframeB, hallocB, hlkB, hrrB, hlcB⟩ :=
      hgo qp0 ci ct off2 cs2 (Ss.getD pos ∅) Rc swf hchildrep hwb2 hdep2
        (by rw [hE1]; exact howned) (by rw [hE1]; exact hbound) hdisj1
    rw [hgoeq]
    dsimp only
    set SB := vec_cells tref cs.length ∪
      (Finset.range cs.length).biUnion
        (fun k => (Ss.set pos Sc').getD k ∅) with hSB
    have hposSs : pos < Ss.length := by
      rw [hSs]
      exact hpos
    have hE2 : SB ∪ R = Sc' ∪ Rc := by
      ext r
      rw [hSB, hRc, hS]
      simp only [Finset.mem_union, Finset.mem_sdiff, Finset.mem_biUnion,
        Finset.mem_range]
      constructor
      · rintro ((h | ⟨k, hk, hks⟩) | h)
        · refine Or.inr (Or.inr ⟨Or.inl h, ?_⟩)
          have hd := hdv pos hpos
          rw [Finset.disjoint_left] at hd
          exact hd h
        · by_cases hkp : k = pos
          · subst hkp
            rw [getD_set_self _ _ _ _ hposSs] at hks
            exact Or.inl hks
          · rw [getD_set_ne _ _ _ _ _ (fun h => hkp h.symm)] at hks
            refine Or.inr (Or.inr ⟨Or.inr ⟨k, hk, hks⟩, ?_⟩)
            rcases Nat.lt_or_ge k pos with hkpos | hkpos
            · have hd := hdc k pos hkpos hpos
              rw [Finset.disjoint_left] at hd
              exact hd hks
            · have hd := hdc pos k (by omega) hk
              rw [Finset.disjoint_right] at hd
              exact hd hks
        · exact Or.inr (Or.inl h)
      · rintro (h | h | ⟨(h | ⟨k, hk, hks⟩), hnp⟩)
        · exact Or.inl (Or.inr ⟨pos, hpos, by
            rw [getD_set_self _ _ _ _ hposSs]
            exact h⟩)
        · exact Or.inr h
        · exact Or.inl (Or.inl h)
        · by_cases hkp : k = pos
          · subst hkp
            exact absurd hks hnp
          · exact Or.inl (Or.inr ⟨k, hk, by
              rw [getD_set_ne _ _ _ _ _ (fun h => hkp h.symm)]
              exact hks⟩)
    have hgetk : ∀ k, k < cs.length →
        ref_get qpB (tref + k) = ref_get qp0 (tref + k) := by
      intro k hk
      exact hframeB _ (hvecRc k hk)
    have hchild'B : ∀ k, k < cs.length → k ≠ pos →
        NRep qpB (ref_get qpB (tref + k)) (cs.getD k default).2
          (Ss.getD k ∅) := by
      intro k hk hkp
      rw [hgetk k hk]
      exact NRep_frame (hchild k hk)
        (fun r hr => hframeB r (hotherRc k hk hkp hr))
    have hdv'B : Disjoint (vec_cells tref cs.length) Sc' := by
      rw [Finset.disjoint_left]
      intro r hr hrc
      obtain ⟨j, hj, rfl⟩ := mem_vec_cells.mp hr
      rw [Finset.disjoint_left] at hdisjB
      exact hdisjB hrc (hvecRc j hj)
    have hdc'B : ∀ k, k < cs.length → k ≠ pos →
        Disjoint (Ss.getD k ∅) Sc' := by
      intro k hk hkp
      rw [Finset.disjoint_left]
      intro r hr hrc
      rw [Finset.disjoint_left] at hdisjB
      exact hdisjB hrc (hotherRc k hk hkp hr)
    have hSBdisjR : Disjoint SB R := by
      rw [Finset.disjoint_left]
      intro r hr hrR
      rw [hSB] at hr
      rcases Finset.mem_union.mp hr with h | h
      · rw [Finset.disjoint_left] at hdisj
        exact hdisj (hvec_sub h) hrR
      · obtain ⟨k, hk, hks⟩ := Finset.mem_biUnion.mp h
        by_cases hkp : k = pos
        · subst hkp
          rw [getD_set_self _ _ _ _ hposSs] at hks
          rw [Finset.disjoint_left] at hdisjB
          exact hdisjB hks (hRRc hrR)
        · rw [getD_set_ne _ _ _ _ _ (fun h => hkp h.symm)] at hks
          rw [Finset.disjoint_left] at hdisj
          exact hdisj (hsubk k (Finset.mem_range.mp hk) hks) hrR
    have hbtr : branch_twigs_ref (QpNode.branch ci ct) = ct := rfl
    rw [hbtr]
    by_cases hctct : ct = ct'
    · rw [if_pos hctct]
      have hchildjB : NRep qpB (ref_get qpB (tref + pos))
          (cs.getD pos default).2 Sc' := by
        rw [hgetk pos hpos, hnode, hctct, hct]
        exact hrepB
      have hgraft := NRep_graft htag hoff hsz hSs hfitv hposs hcompv hdv hdc
        pos hpos ((cs.getD pos default).2) Sc' hchild'B hchildjB hdv'B hdc'B
      rw [list_set_pair_self cs pos hpos] at hgraft
      refine ⟨qpB, SB, rfl, swfB, hgraft, ?_, ?_, hSBdisjR,
        fun r hr => hframeB r (hRRc hr), hallocB, hlkB, hrrB, hlcB⟩
      · rw [hSB]
        rw [show vec_cells tref cs.length ∪
          (Finset.range cs.length).biUnion
            (fun k => (Ss.set pos Sc').getD k ∅) = SB from rfl]
        rw [show SB ∪ R = Sc' ∪ Rc from hE2]
        exact hownedB
      · rw [hSB]
        rw [show vec_cells tref cs.length ∪
          (Finset.range cs.length).biUnion
            (fun k => (Ss.set pos Sc').getD k ∅) = SB from rfl]
        rw [show SB ∪ R = Sc' ∪ Rc from hE2]
        exact hboundB
    · rw [if_neg hctct]
      rw [if_neg Bool.false_ne_true]
      have hallocpos : allocated qpB (tref + pos) := by
        apply hallocB
        exact owned_allocated howned (Finset.mem_union_left _
          (hvec_sub (mem_vec_cells.mpr ⟨pos, hpos, rfl⟩)))
      have hgetpos : ref_get qpB (tref + pos) = QpNode.branch ci ct := by
        rw [hgetk pos hpos, hnode]
      rw [hgetpos]
      have hci : ci.testBit 0 = true := (NRep_branch_inv hrepB).1
      have hmk : make_node (branch_index (QpNode.branch ci ct)) ct' =
          QpNode.branch ci ct' := by
        unfold make_node branch_index
        rw [if_pos hci]
      rw [hmk]
      set qpC := ref_set qpB (tref + pos) (QpNode.branch ci ct') with hqpC
      have swfC : StandaloneWF qpC := swf_ref_set swfB hallocpos.2.1 _
      have hgetC_other : ∀ r, r ≠ tref + pos →
          ref_get qpC r = ref_get qpB r := by
        intro r hr
        exact ref_get_set_other qpB (tref + pos) r hr _
      have hgetC_pos : ref_get qpC (tref + pos) = QpNode.branch ci ct' :=
        ref_get_set_self swfB hallocpos _
      have hRne : ∀ r ∈ R, r ≠ tref + pos := by
        intro r hr hcontra
        subst hcontra
        rw [Finset.disjoint_left] at hdisj
        exact hdisj (hvec_sub (mem_vec_cells.mpr ⟨pos, hpos, rfl⟩)) hr
      have hSsne : ∀ k, k < cs.length → ∀ r ∈ Ss.getD k ∅,
          r ≠ tref + pos := by
        intro k hk r hr hcontra
        subst hcontra
        have hd := hdv k hk
        rw [Finset.disjoint_left] at hd
        exact hd (mem_vec_cells.mpr ⟨pos, hpos, rfl⟩) hr
      have hScne : ∀ r ∈ Sc', r ≠ tref + pos := by
        intro r hr hcontra
        subst hcontra
        rw [Finset.disjoint_left] at hdisjB
        exact hdisjB hr (hvecRc pos hpos)
      have hchild'C : ∀ k, k < cs.length → k ≠ pos →
          NRep qpC (ref_get qpC (tref + k)) (cs.getD k default).2
            (Ss.getD k ∅) := by
        intro k hk hkp
        rw [hgetC_other _ (by
          intro hcontra
          have : k = pos := by omega
          exact hkp this)]
        refine NRep_frame (hchild'B k hk hkp) ?_
        intro r hr
        exact hgetC_other r (hSsne k hk r hr)
      have hchildjC : NRep qpC (ref_get qpC (tref + pos))
          (cs.getD pos default).2 Sc' := by
        rw [hgetC_pos]
        have hstep : NRep qpC (QpNode.branch ci ct') (QpT.branch off2 cs2)
            Sc' := by
          refine NRep_frame hrepB ?_
          intro r hr
          exact hgetC_other r (hScne r hr)
        rw [hct]
        exact hstep
      have hgraft := NRep_graft htag hoff hsz hSs hfitv hposs hcompv hdv hdc
        pos hpos ((cs.getD pos default).2) Sc' hchild'C hchildjC hdv'B hdc'B
      rw [list_set_pair_self cs pos hpos] at hgraft
      refine ⟨qpC, SB, rfl, swfC, hgraft, ?_, ?_, hSBdisjR, ?_, ?_,
        hlkB, hrrB, hlcB⟩
      · intro r hr
        have h1 : allocated qpB r := by
          have := hownedB
          rw [← hE2] at this
          exact owned_allocated this hr
        exact h1
      · have hbC : chunk_bound qpC (SB ∪ R) := by
          have := hboundB
          rw [← hE2] at this
          exact this
        exact hbC
      · intro r hr
        rw [hgetC_other r (hRne r hr)]
        exact hframeB r (hRRc hr)
      · intro r hr
        exact hallocB r hr

/-! ### The rollback free pass and claim C7 -/

theorem set_getD_eq_default {α : Type} (l : List α) (a : Nat) (d : α) :
    (l.set a d).getD a d = d := by
  by_cases h : a < l.length
  · exact getD_set_self l a d d h
  · rw [List.set_eq_of_length_le (by omega)]
    exact List.getD_eq_default _ _ (by omega)

theorem chunk_free_base_none (qp : Qp) (a c : Nat)
    (h : qp.base.getD c none = none) :
    (chunk_free qp a).base.getD c none = none := by
  show ((chunk_discount qp a).base.set a none).getD c none = none
  rw [(chunk_discount_proj qp a).1]
  by_cases hac : a = c
  · subst hac
    exact set_getD_eq_default _ _ _
  · rw [getD_set_ne _ _ _ _ _ hac]
    exact h

theorem chunk_free_base_self (qp : Qp) (a : Nat) :
    (chunk_free qp a).base.getD a none = none := by
  show ((chunk_discount qp a).base.set a none).getD a none = none
  rw [(chunk_discount_proj qp a).1]
  exact set_getD_eq_default _ _ _

theorem chunk_free_imm_false (qp : Qp) (a c : Nat)
    (h : (usage_get qp c).immutable = false) :
    (usage_get (chunk_free qp a) c).immutable = false := by
  show (((chunk_discount qp a).usage.set a {}).getD c {}).immutable = false
  rw [(chunk_discount_proj qp a).2.1]
  by_cases hac : a = c
  · subst hac
    rw [show ((qp.usage.set a ({} : QpUsage)).getD a {}) = {} from
      set_getD_eq_default _ _ _]
  · rw [getD_set_ne _ _ _ _ _ hac]
    exact h

theorem rollback_fold_none :
    ∀ (l : List Nat) (qp : Qp) (c : Nat), qp.base.getD c none = none →
      ((l.foldl (fun qp chunk =>
          if (qp.base.getD chunk none) ≠ none &&
             !(usage_get qp chunk).immutable then
            chunk_free qp chunk
          else qp) qp).base.getD c none) = none := by
  intro l
  induction l with
  | nil =>
    intro qp c h
    exact h
  | cons a rest ih =>
    intro qp c h
    rw [List.foldl_cons]
    apply ih
    split
    · exact chunk_free_base_none qp a c h
    · exact h

theorem rollback_fold_imm :
    ∀ (l : List Nat) (qp : Qp) (c : Nat),
      (usage_get qp c).immutable = false →
      (usage_get (l.foldl (fun qp chunk =>
          if (qp.base.getD chunk none) ≠ none &&
             !(usage_get qp chunk).immutable then
            chunk_free qp chunk
          else qp) qp) c).immutable = false := by
  intro l
  induction l with
  | nil =>
    intro qp c h
    exact h
  | cons a rest ih =>
    intro qp c h
    rw [List.foldl_cons]
    apply ih
    split
    · exact chunk_free_imm_false qp a c h
    · exact h

theorem rollback_fold_clears :
    ∀ (l : List Nat) (qp : Qp) (c : Nat), c ∈ l →
      (usage_get qp c).immutable = false →
      ((l.foldl (fun qp chunk =>
          if (qp.base.getD chunk none) ≠ none &&
             !(usage_get qp chunk).immutable then
            chunk_free qp chunk
          else qp) qp).base.getD c none) = none := by
  intro l
  induction l with
  | nil =>
    intro qp c h
    cases h
  | cons a rest ih =>
    intro qp c hmem himm
    rw [List.foldl_cons]
    by_cases hac : c = a
    · subst hac
      apply rollback_fold_none
      by_cases hb : qp.base.getD c none = none
      · split
        · exact chunk_free_base_none qp c c hb
        · exact hb
      · rw [if_pos (by
          simp only [Bool.and_eq_true, decide_eq_true_eq,
            Bool.not_eq_true']
          exact ⟨hb, himm⟩)]
        exact chunk_free_base_self qp c
    · have hrest : c ∈ rest := by
        rcases List.mem_cons.mp hmem with h | h
        · exact absurd h hac
        · exact h
      apply ih _ c hrest
      split
      · exact chunk_free_imm_false qp a c himm
      · exact himm

theorem rollback_free_clears (qp : Qp) (c : Nat) (hc : c < qp.chunk_max)
    (himm : (usage_get qp c).immutable = false) :
    (rollback_free qp).base.getD c none = none := by
  unfold rollback_free
  exact rollback_fold_clears (List.range qp.chunk_max) qp c
    (List.mem_range.mpr hc) himm

/-- **C7 counterexample.** Starting from a writer whose only chunk is
mutable and with no transaction open, `dns_qpmulti_update` followed by no
mutations at all and `dns_qpmulti_rollback` does not restore the writer
bitwise: the pre-update state has chunk 0 mutable and no transaction mode,
while the rolled-back state has chunk 0's `immutable` flag set and
`transaction_mode = QP_UPDATE` — rollback restores the snapshot taken
*after* `transaction_open` marked every pre-existing chunk immutable and
after the mode switch, not the state immediately before the update. -/
theorem C7_rollback_counterexample :
    (usage_get multi_c7.writer 0).immutable = false ∧
    multi_c7.writer.transaction_mode = TxMode.QP_NONE ∧
    ((dns_qpmulti_rollback (dns_qpmulti_update multi_c7)).map
        (fun m => ((usage_get m.writer 0).immutable,
                   m.writer.transaction_mode))) =
      some (true, TxMode.QP_UPDATE) := by
  refine ⟨rfl, rfl, ?_⟩
  rfl

/-- **C7 (amended).** After `dns_qpmulti_update`, any sequence of
insert/delete/compact mutations of the writer, and `dns_qpmulti_rollback`,
the writer is the rollback snapshot `dns_qpmulti_update` saved: the
pre-update state with every pre-existing chunk's `immutable` flag set by
`transaction_open`, `hold_count` set to the pre-update `free_count`, and
`transaction_mode = QP_UPDATE`.  In particular the root ref, the chunk
directory contents, `used_count`, `free_count` and `leaf_count` are those
of the pre-update state, and the rollback slot is cleared.  The rollback
free pass clears the directory slot of every chunk that is not immutable
at rollback time — exactly the chunks allocated during the aborted
transaction, since `transaction_open` marked all pre-existing chunks
immutable; its result is then superseded by the restored snapshot, in C
surviving as the release of those chunks' raw memory. -/
theorem C7_rollback_neutrality (multi : QpMulti) (ops : List QpTxOp)
    (w : Qp)
    (hrun : run_tx_ops (dns_qpmulti_update multi).writer ops = some w)
    (m2 : QpMulti)
    (hrb : dns_qpmulti_rollback
      { dns_qpmulti_update multi with writer := w } = some m2) :
    m2.writer = { transaction_open multi.writer with
                    transaction_mode := TxMode.QP_UPDATE } ∧
    m2.writer.root_ref = multi.writer.root_ref ∧
    m2.writer.base = multi.writer.base ∧
    m2.writer.used_count = multi.writer.used_count ∧
    m2.writer.free_count = multi.writer.free_count ∧
    m2.writer.leaf_count = multi.writer.leaf_count ∧
    m2.writer.hold_count = multi.writer.free_count ∧
    m2.writer.transaction_mode = TxMode.QP_UPDATE ∧
    m2.rollback = none ∧
    (∀ c, c < w.chunk_max → (usage_get w c).immutable = false →
      (rollback_free w).base.getD c none = none) := by
  have hmode : w.transaction_mode = TxMode.QP_UPDATE := by
    rw [tm_run_tx_ops ops _ w hrun]
    show (alloc_reset _).transaction_mode = _
    unfold alloc_reset
    rw [tm_alloc_slow]
  unfold dns_qpmulti_rollback at hrb
  rw [if_neg (by show ¬ (w.transaction_mode ≠ _); rw [hmode]; simp)] at hrb
  have hsaved : ({ dns_qpmulti_update multi with writer := w } :
      QpMulti).rollback =
      some { transaction_open multi.writer with
               transaction_mode := TxMode.QP_UPDATE } := rfl
  rw [hsaved] at hrb
  dsimp only at hrb
  cases hrb
  refine ⟨rfl, ?_, ?_, ?_, ?_, ?_, ?_, rfl, rfl, ?_⟩
  · exact transaction_open_root_ref multi.writer
  · exact transaction_open_base multi.writer
  · exact transaction_open_used_count multi.writer
  · exact transaction_open_free_count multi.writer
  · exact transaction_open_leaf_count multi.writer
  · exact transaction_open_hold_count multi.writer
  · intro c hc himm
    exact rollback_free_clears w c hc himm

theorem C7_rollback_neutrality_witness :
    multi_c7_rb.writer.root_ref = multi_c7.writer.root_ref ∧
    multi_c7_rb.writer.base = multi_c7.writer.base ∧
    multi_c7_rb.writer.used_count = multi_c7.writer.used_count ∧
    multi_c7_rb.writer.transaction_mode = TxMode.QP_UPDATE ∧
    multi_c7_rb.rollback = none := by
  have h := C7_rollback_neutrality multi_c7 []
    (dns_qpmulti_update multi_c7).writer rfl multi_c7_rb rfl
  exact ⟨h.2.1, h.2.2.1, h.2.2.2.1, h.2.2.2.2.2.2.2.1,
    h.2.2.2.2.2.2.2.2.1⟩
